import Mathlib

/-!
# Seeker-Agent wallet-intelligence engine: a shallow embedding

This file embeds the core of the Seeker-Agent repository (a Solana
wallet-intelligence agent) in Lean 4 and settles a list of claims about it.

Modelling conventions:
* Python `float` values are modelled as `ℚ` with exact arithmetic; `datetime`
  values are modelled as `ℚ` seconds since the epoch, so `datetime` subtraction
  becomes rational subtraction and `timedelta.total_seconds()` is the identity.
* Python's display-only roundings `round(x, 2)` / `round(x, 3)` in
  `scorer.py` / `bot_detector.py` are omitted: they affect only the stored
  presentation of a value, never a branch, and no claim is about them.
* `numpy.std` appears in the source only inside threshold comparisons of the
  coefficient of variation `std/(mean+1e-9)`; since both sides are
  non-negative, `cv < c ↔ cv² < c²`, and the model stores/compares the square
  `variance/(mean+1e-9)²` to stay inside `ℚ`.
* Python dicts are insertion-ordered; they are modelled as association lists
  in insertion order.  Python sets are modelled as lists without duplicates;
  where the source iterates a set, the model iterates in insertion order
  (noted at each use site).
-/

namespace Seeker

/-- `database.WalletTier` (database.py lines 33-38). -/
inductive WalletTier where
  | candidate
  | tier2
  | tier1
  | exiled
  | archived
deriving DecidableEq, Repr

/-- The runtime-tunable constants of `config.Settings` consumed by the core
(config.py lines 24-31).  Defaults: `min_win_rate = 0.30`, `min_trades = 50`,
`bot_score_threshold = 0.55`. -/
structure Settings where
  min_win_rate : ℚ
  min_trades : Nat
  bot_score_threshold : ℚ
  prune_inactive_days : Nat
deriving DecidableEq, Repr

/-- The default settings of config.py. -/
def defaultSettings : Settings :=
  { min_win_rate := 30/100, min_trades := 50, bot_score_threshold := 55/100,
    prune_inactive_days := 30 }

/-- `parser.ParsedTrade` (parser.py lines 16-30).  `block_time` is seconds
since the epoch; the `raw` payload and the derived `hold_time_secs` field are
not consumed by any modelled function and are omitted. -/
structure ParsedTrade where
  signature : String
  wallet_address : String
  token_address : String
  token_symbol : String
  side : String
  amount_sol : ℚ
  amount_usd : ℚ
  price_usd : ℚ
  block_time : ℚ
  used_jito : Bool := false
  blocks_after_mint : Option ℚ := none
deriving DecidableEq, Repr

/-! ## A stable insertion sort

Python's `sorted` / `list.sort` are stable.  The model uses a stable insertion
sort on a key: an element is inserted *before* the first element with a
strictly larger key, hence after all earlier elements with an equal key. -/

/-- Insert `x` into `l`, before the first element whose `key` is strictly
greater than `key x`. -/
def insKey {α β : Type} [LinearOrder β] (key : α → β) (x : α) : List α → List α
  | [] => [x]
  | y :: ys => if key x ≤ key y then x :: y :: ys else y :: insKey key x ys

/-- Stable insertion sort by `key` (model of Python's stable sorts). -/
def sortKey {α β : Type} [LinearOrder β] (key : α → β) : List α → List α
  | [] => []
  | x :: xs => insKey key x (sortKey key xs)

/-- First-occurrence deduplication (model of iterating the keys of a Python
dict that was filled in encounter order). -/
def dedupFirst {α : Type} [DecidableEq α] : List α → List α → List α
  | [], _ => []
  | x :: xs, seen => if x ∈ seen then dedupFirst xs seen else x :: dedupFirst xs (x :: seen)

/-! ## scorer.py -/

/-- `scorer.WalletScore` (scorer.py lines 21-32).  `trade_size_cv_sq` stores
the square of the source's `trade_size_cv` (see the header note on `np.std`);
no modelled branch reads it. -/
structure WalletScore where
  wallet_address : String
  win_rate : ℚ
  total_trades : Nat
  winning_trades : Nat
  total_pnl_usd : ℚ
  avg_pnl_per_trade : ℚ
  avg_hold_time_secs : ℚ
  trade_size_cv_sq : ℚ
  bot_score : ℚ
  recommended_tier : WalletTier
deriving DecidableEq, Repr

/-- `bot_detector.BotAnalysis` (bot_detector.py lines 23-29).  The `signals`
dict is an insertion-ordered association list; the unused `cluster_id` field
is omitted. -/
structure BotAnalysis where
  wallet_address : String
  bot_score : ℚ
  is_bot : Bool
  signals : List (String × ℚ)
deriving DecidableEq, Repr

/-- Mean of a list of rationals (`np.mean`); callers guard non-emptiness. -/
def listMean (l : List ℚ) : ℚ := l.sum / l.length

/-- `token_buys[tok]` in `compute_score_from_trades` (scorer.py lines 47-53):
the buys of `tok` among the trades sorted (stably) by `block_time`. -/
def token_buys (trades : List ParsedTrade) (tok : String) : List ParsedTrade :=
  (sortKey (fun t => t.block_time) trades).filter
    (fun t => t.side == "buy" && t.token_address == tok)

/-- `token_sells[tok]` in `compute_score_from_trades` (scorer.py lines 47-53):
any side other than `"buy"` is filed as a sell, as in the source's `else`. -/
def token_sells (trades : List ParsedTrade) (tok : String) : List ParsedTrade :=
  (sortKey (fun t => t.block_time) trades).filter
    (fun t => !(t.side == "buy") && t.token_address == tok)

/-- The keys of `token_sells` in insertion order: tokens in order of first
sell occurrence over the time-sorted trades. -/
def sell_tokens (trades : List ParsedTrade) : List String :=
  dedupFirst
    (((sortKey (fun t => t.block_time) trades).filter
        (fun t => !(t.side == "buy"))).map (fun t => t.token_address)) []

/-- The per-token matching loop of `compute_score_from_trades`
(scorer.py lines 64-77), returning the (sell, matched buy) pairs in match
order.  Faithfully to the source, each sell filters the current buy queue for
buys at-or-before its time, matches the *first element of that filtered list*
(`prior_buys[0]`), and then drops the *head of the queue* (`queue[1:]`).
(The two coincide because the queue is time-sorted; proved below.) -/
def fifoMatch : List ParsedTrade → List ParsedTrade → List (ParsedTrade × ParsedTrade)
  | _, [] => []
  | queue, sell :: rest =>
    match queue.filter (fun b => b.block_time ≤ sell.block_time) with
    | [] => fifoMatch queue rest
    | b :: _ => (sell, b) :: fifoMatch (queue.drop 1) rest

/-- All (sell, matched buy) pairs of a trade history, token by token in the
source's iteration order. -/
def allMatches (trades : List ParsedTrade) : List (ParsedTrade × ParsedTrade) :=
  (sell_tokens trades).flatMap
    (fun tok => fifoMatch (token_buys trades tok) (token_sells trades tok))

/-- `trade_pnls` (scorer.py lines 56-71): per-matched-sell realized PnL,
USD proceeds of the sell minus USD cost of the matched buy. -/
def trade_pnls (trades : List ParsedTrade) : List ℚ :=
  (allMatches trades).map (fun m => m.1.amount_usd - m.2.amount_usd)

/-- `hold_times` (scorer.py lines 57-74): the time delta of each matched
pair, kept when non-negative (the source's `if hold >= 0` guard). -/
def hold_times (trades : List ParsedTrade) : List ℚ :=
  (allMatches trades).filterMap
    (fun m => if (0:ℚ) ≤ m.1.block_time - m.2.block_time
              then some (m.1.block_time - m.2.block_time) else none)

/-! ## bot_detector.py: `analyse_wallet_for_bot` -/

/-- `token_buys[tok]` inside `analyse_wallet_for_bot` (bot_detector.py
lines 59-65): grouping is over the trades in *given* order (not sorted). -/
def bd_token_buys (trades : List ParsedTrade) (tok : String) : List ParsedTrade :=
  trades.filter (fun t => t.side == "buy" && t.token_address == tok)

/-- `token_sells[tok]` inside `analyse_wallet_for_bot`. -/
def bd_token_sells (trades : List ParsedTrade) (tok : String) : List ParsedTrade :=
  trades.filter (fun t => !(t.side == "buy") && t.token_address == tok)

/-- The keys of `token_sells` inside `analyse_wallet_for_bot`, in insertion
order over the trades as given. -/
def bd_sell_tokens (trades : List ParsedTrade) : List String :=
  dedupFirst ((trades.filter (fun t => !(t.side == "buy"))).map
    (fun t => t.token_address)) []

/-- Python's `min(..., key=...)` keeps the first minimum; leftmost minimal
element by `block_time`. -/
def minByTime (b : ParsedTrade) : List ParsedTrade → ParsedTrade
  | [] => b
  | x :: xs => if x.block_time < b.block_time then minByTime x xs else minByTime b xs

/-- The hold-time samples of signal 2 (bot_detector.py lines 57-75): for each
sell, the delta to the *earliest* buy of the same token at-or-before it. -/
def bd_hold_times (trades : List ParsedTrade) : List ℚ :=
  (bd_sell_tokens trades).flatMap (fun tok =>
    (bd_token_sells trades tok).filterMap (fun sell =>
      match (bd_token_buys trades tok).filter
          (fun b => b.block_time ≤ sell.block_time) with
      | [] => none
      | b :: bs =>
        let hold := sell.block_time - (minByTime b bs).block_time
        if (0:ℚ) ≤ hold then some hold else none))

/-- `analyse_wallet_for_bot` (bot_detector.py lines 32-147).
`knownBotFunders` models the mutable global `KNOWN_BOT_FUNDERS` set and `s`
the `config.settings` read for the threshold.  The display rounding
`round(total_score, 3)` is omitted (header note). -/
def analyse_wallet_for_bot (s : Settings) (knownBotFunders : List String)
    (wallet_address : String) (trades : List ParsedTrade)
    (funder_address : Option String) : BotAnalysis :=
  if trades = [] then
    ⟨wallet_address, 1/2, false, [("no_data", 1/2)]⟩
  else
    -- 1. Sniper signal
    let snipe_blocks := trades.filterMap (fun t => t.blocks_after_mint)
    let s1 : List (String × ℚ) :=
      if snipe_blocks = [] then []
      else
        let avg_blocks := listMean snipe_blocks
        if avg_blocks < 3 then [("ultra_sniper", 35/100)]
        else if avg_blocks < 15 then [("fast_sniper", 20/100)]
        else if avg_blocks < 50 then [("moderate_sniper", 8/100)]
        else []
    -- 2. Hold time
    let holds := bd_hold_times trades
    let s2 : List (String × ℚ) :=
      if holds = [] then []
      else
        let avg_hold := listMean holds
        if avg_hold < 30 then [("sub_30s_holds", 30/100)]
        else if avg_hold < 120 then [("sub_2min_holds", 18/100)]
        else if avg_hold < 300 then [("sub_5min_holds", 8/100)]
        else []
    -- 3. Trade size variance: `cv = np.std(a)/(np.mean(a)+1e-9)` compared
    -- against 0.03 and 0.10; modelled by comparing cv² (header note).
    let amounts := (trades.filter (fun t => 0 < t.amount_sol)).map (fun t => t.amount_sol)
    let s3 : List (String × ℚ) :=
      if 5 ≤ amounts.length then
        let m := listMean amounts
        let variance := listMean (amounts.map (fun a => (a - m) ^ 2))
        let cvSq := variance / (m + 1/1000000000) ^ 2
        if cvSq < (3/100) ^ 2 then [("identical_sizes", 25/100)]
        else if cvSq < (10/100) ^ 2 then [("very_uniform_sizes", 12/100)]
        else []
      else []
    -- 4. Trade frequency: `days = max(time_range.days, 1)` floors the span
    -- to whole days.
    let times := trades.map (fun t => t.block_time)
    let s4 : List (String × ℚ) :=
      if 10 ≤ trades.length then
        let time_range := (times.max?.getD 0) - (times.min?.getD 0)
        let days : ℤ := max ⌊time_range / 86400⌋ 1
        let daily_rate : ℚ := (trades.length : ℚ) / (days : ℚ)
        if 200 < daily_rate then [("extreme_frequency", 20/100)]
        else if 80 < daily_rate then [("high_frequency", 12/100)]
        else if 40 < daily_rate then [("elevated_frequency", 5/100)]
        else []
      else []
    -- 5. Win rate suspiciously perfect (sell-fraction proxy)
    let wins := (trades.filter (fun t => t.side == "sell")).length
    let s5 : List (String × ℚ) :=
      if 100 ≤ trades.length ∧ (88/100 : ℚ) < (wins : ℚ) / (trades.length : ℚ)
      then [("perfect_win_rate", 12/100)] else []
    -- 6. Jito usage
    let jito_count := (trades.filter (fun t => t.used_jito)).length
    let s6 : List (String × ℚ) :=
      if 10 ≤ trades.length ∧ (90/100 : ℚ) < (jito_count : ℚ) / (trades.length : ℚ)
      then [("always_jito", 10/100)] else []
    -- 7. Token diversity
    let unique_tokens := (dedupFirst (trades.map (fun t => t.token_address)) []).length
    let buy_tokens := (dedupFirst ((trades.filter (fun t => t.side == "buy")).map
      (fun t => t.token_address)) []).length
    let s7 : List (String × ℚ) :=
      if 0 < buy_tokens ∧ (unique_tokens : ℚ) / (buy_tokens : ℚ) < 105/100
      then [("zero_diversity", 8/100)] else []
    -- 8. Known funder
    let s8 : List (String × ℚ) :=
      match funder_address with
      | some f => if f ∈ knownBotFunders then [("known_bot_funder", 45/100)] else []
      | none => []
    -- 9. Activity gaps
    let s9 : List (String × ℚ) :=
      if 30 ≤ trades.length then
        let timestamps := sortKey id times
        let gaps := (timestamps.zip (timestamps.drop 1)).map (fun p => p.2 - p.1)
        let max_gap_hours := if gaps = [] then 0 else (gaps.max?.getD 0) / 3600
        if max_gap_hours < 2 then [("no_sleep_pattern", 10/100)] else []
      else []
    let signals := s1 ++ s2 ++ s3 ++ s4 ++ s5 ++ s6 ++ s7 ++ s8 ++ s9
    let total_score := min (signals.map (fun p => p.2)).sum 1
    ⟨wallet_address, total_score, decide (s.bot_score_threshold ≤ total_score), signals⟩

/-- `compute_score_from_trades` (scorer.py lines 35-111).  The display
roundings of lines 101-107 are omitted (header note); `trade_size_cv_sq`
holds the square of the source's `trade_size_cv`. -/
def compute_score_from_trades (s : Settings) (knownBotFunders : List String)
    (wallet_address : String) (trades : List ParsedTrade)
    (funder_address : Option String) : WalletScore × BotAnalysis :=
  let bot_analysis := analyse_wallet_for_bot s knownBotFunders wallet_address trades funder_address
  let pnls := trade_pnls trades
  let holds := hold_times trades
  let total_trades := pnls.length
  let winning_trades := (pnls.filter (fun p => 0 < p)).length
  let win_rate : ℚ := if 0 < total_trades then (winning_trades : ℚ) / (total_trades : ℚ) else 0
  let total_pnl := pnls.sum
  let avg_pnl : ℚ := if 0 < total_trades then total_pnl / (total_trades : ℚ) else 0
  let avg_hold : ℚ := if holds = [] then 0 else listMean holds
  let amounts := (trades.filter (fun t => 0 < t.amount_sol)).map (fun t => t.amount_sol)
  let trade_size_cv_sq : ℚ :=
    if 3 ≤ amounts.length then
      let m := listMean amounts
      listMean (amounts.map (fun a => (a - m) ^ 2)) / (m + 1/1000000000) ^ 2
    else 0
  let tier : WalletTier :=
    if bot_analysis.is_bot then .exiled
    else if total_trades < s.min_trades ∨ win_rate < s.min_win_rate then .candidate
    else if 45/100 ≤ win_rate ∧ 500 < total_pnl ∧ 80 ≤ total_trades then .tier1
    else .tier2
  (⟨wallet_address, win_rate, total_trades, winning_trades, total_pnl, avg_pnl,
    avg_hold, trade_size_cv_sq, bot_analysis.bot_score, tier⟩, bot_analysis)

/-! ## The FIFO matching rule as worded by the spec

Used only to compare `fifoMatch` (translated from the source) against the
spec's description of the algorithm. -/

/-- Leftmost buy with minimal `block_time` ("the earliest buy ... that has
not yet been consumed"; leftmost on ties). -/
def earliestBuy (b : ParsedTrade) : List ParsedTrade → ParsedTrade
  | [] => b
  | x :: xs => if x.block_time < b.block_time then earliestBuy x xs else earliestBuy b xs

/-- Written from the spec's words (§4.3): "For each sell, match against the
*earliest* buy at-or-before the sell's time that has not yet been consumed
... Consumed buys are removed from the matching queue ... Sells with no
eligible prior buy are excluded." -/
def fifoMatchSpec : List ParsedTrade → List ParsedTrade → List (ParsedTrade × ParsedTrade)
  | _, [] => []
  | pool, sell :: rest =>
    match pool.filter (fun b => b.block_time ≤ sell.block_time) with
    | [] => fifoMatchSpec pool rest
    | b :: bs =>
      let e := earliestBuy b bs
      (sell, e) :: fifoMatchSpec (pool.erase e) rest

/-! ## discovery.py / database.py: the wallet-edges table

`database.WalletEdge` (database.py lines 106-121) has an autoincrement
primary key and the *non-unique* index `ix_edges_source_target`; there is no
unique constraint on (source, target, token).  Hence
`INSERT ... ON CONFLICT DO NOTHING` (discovery.py line 50, with no conflict
target) can never meet a conflict and always inserts a fresh row. -/

/-- One row of the `wallet_edges` table. -/
structure WalletEdgeRow where
  source_address : String
  target_address : String
  shared_token : String
  block_delta : ℚ
  co_occurrences : Nat
deriving DecidableEq, Repr

/-- `discovery.record_edge` (discovery.py lines 39-54) acting on the table
contents: inserts a row with `co_occurrences = 1`; the `on_conflict_do_nothing`
clause is vacuous because no unique constraint covers the new row (see
above), so the insert is unconditional. -/
def record_edge (db : List WalletEdgeRow) (source target shared_token : String)
    (block_delta : ℚ) : List WalletEdgeRow :=
  db ++ [⟨source, target, shared_token, block_delta, 1⟩]

/-! ## orchestrator.py: wallet rows and the scoring-loop step -/

/-- The fields of a `database.Wallet` row read or written by the modelled
orchestrator paths. -/
structure WalletRow where
  address : String
  tier : WalletTier
  win_rate : ℚ
  bot_score : ℚ
  last_active : ℚ
  last_scored : Option ℚ
  notes : Option String
deriving DecidableEq, Repr

/-- The externally visible effects of one scoring-loop wallet iteration, in
program order: Telegram messages handed to the alerting collaborator, and
database writes. -/
inductive ScoringEvent where
  /-- A tier-change message actually sent by `alerts.send_tier_change_alert`. -/
  | tier_change_message (address : String) (old_tier new_tier : WalletTier)
  /-- A bot-exile message sent by `alerts.send_bot_exile_alert`. -/
  | exile_message (address : String) (bot_score : ℚ)
  /-- `scorer.persist_score`: commit the new metrics and tier to the row. -/
  | persist_score (address : String) (score : WalletScore)
  /-- The `last_scored`-only update of the empty-trades path. -/
  | persist_last_scored (address : String)
deriving DecidableEq, Repr

/-- `alerts.send_tier_change_alert` (alerts.py lines 202-207): a message is
delivered only when the new tier is `tier1` or `tier2` ("avoid spam"). -/
def send_tier_change_alert (w : WalletRow) (old_tier new_tier : WalletTier) :
    List ScoringEvent :=
  if new_tier = .tier1 ∨ new_tier = .tier2
  then [.tier_change_message w.address old_tier new_tier] else []

/-- Whether an event is a notification handed to the alerting collaborator. -/
def ScoringEvent.isAlertMsg : ScoringEvent → Bool
  | .tier_change_message _ _ _ => true
  | .exile_message _ _ => true
  | _ => false

/-- Whether an event is a database write of score state. -/
def ScoringEvent.isPersist : ScoringEvent → Bool
  | .persist_score _ _ => true
  | .persist_last_scored _ => true
  | _ => false

/-- Whether an event is a tier-change message. -/
def ScoringEvent.isTierChangeMsg : ScoringEvent → Bool
  | .tier_change_message _ _ _ => true
  | _ => false

/-- Whether an event is an exile message. -/
def ScoringEvent.isExileMsg : ScoringEvent → Bool
  | .exile_message _ _ => true
  | _ => false

/-- One wallet iteration of `orchestrator.scoring_loop`
(orchestrator.py lines 171-202), given the trades parsed from the fetched
history: on the empty-trades path only `last_scored` is written; otherwise
the score is computed, then — if the recommended tier differs — the
tier-change alert (and, for a newly exiled wallet, the exile alert) is sent,
and only *after that* is the score persisted (line 202). -/
def scoring_step_events (s : Settings) (knownBotFunders : List String)
    (w : WalletRow) (trades : List ParsedTrade) : List ScoringEvent :=
  if trades = [] then [.persist_last_scored w.address]
  else
    let sb := compute_score_from_trades s knownBotFunders w.address trades none
    let score := sb.1
    let bot_analysis := sb.2
    (if score.recommended_tier ≠ w.tier then
      send_tier_change_alert w w.tier score.recommended_tier
        ++ (if score.recommended_tier = .exiled
            then [.exile_message w.address bot_analysis.bot_score] else [])
    else [])
    ++ [.persist_score w.address score]

/-- The prefix of an event trace strictly before the first persisted write. -/
def beforeFirstPersist (es : List ScoringEvent) : List ScoringEvent :=
  es.takeWhile (fun e => !e.isPersist)

/-! ## orchestrator.py: rescore selection, pruning, cluster exile,
live handler -/

/-- The `WHERE` clause of `scorer.get_wallets_due_for_rescore`
(scorer.py lines 162-175): not exiled, not archived, and never scored or
scored before the one-hour cutoff. -/
def due_for_rescore (now : ℚ) (w : WalletRow) : Bool :=
  w.tier ≠ .exiled && w.tier ≠ .archived &&
    (w.last_scored = none || decide (w.last_scored.getD 0 < now - 3600))

/-- `scorer.get_wallets_due_for_rescore`: filter, order by `last_scored`
ascending nulls-first, limit.  `none` keys sort before every `some` key
(`WithBot ℚ` order). -/
def get_wallets_due_for_rescore (db : List WalletRow) (now : ℚ) (lim : Nat) :
    List WalletRow :=
  (sortKey (fun w => (match w.last_scored with
      | none => (⊥ : WithBot ℚ)
      | some q => (q : WithBot ℚ)))
    (db.filter (due_for_rescore now))).take lim

/-- The per-row effect of the pruning update of `orchestrator.health_loop`
(orchestrator.py lines 329-339): wallets inactive past the cutoff *and*
currently `tier2` or `candidate` are archived; all other rows are left
untouched. -/
def prune_wallet (s : Settings) (now : ℚ) (w : WalletRow) : WalletRow :=
  if w.last_active < now - (s.prune_inactive_days : ℚ) * 86400 ∧
      (w.tier = .tier2 ∨ w.tier = .candidate)
  then { w with tier := .archived } else w

/-- The pruning update over the whole table. -/
def prune_step (s : Settings) (now : ℚ) (db : List WalletRow) : List WalletRow :=
  db.map (prune_wallet s now)

/-- The per-row effect of the exile update of
`orchestrator.run_cluster_detection` (orchestrator.py lines 256-266): every
wallet appearing in the detected cluster map is set to `exiled` (with a
note), with *no* check of its current tier. -/
def cluster_exile_wallet (clusters : List (String × String)) (w : WalletRow) : WalletRow :=
  if (clusters.lookup w.address).isSome
  then { w with tier := .exiled, notes := some "bot cluster detected" } else w

/-- The cluster-exile update over the whole table. -/
def cluster_exile_step (clusters : List (String × String)) (db : List WalletRow) :
    List WalletRow :=
  db.map (cluster_exile_wallet clusters)

/-- `database.Wallet` rows for `orchestrator.handle_live_transaction`:
one entry of the event's `accountData` array (only the consumed fields). -/
structure AccountData where
  account : String
  nativeBalanceChange : ℤ
deriving DecidableEq, Repr

/-- `alerts.TradeAlert` (alerts.py lines 185-190). -/
structure TradeAlert where
  wallet : WalletRow
  trade : ParsedTrade
  pnl_usd : Option ℚ
  is_copy_eligible : Bool
deriving DecidableEq, Repr

/-- `orchestrator.handle_live_transaction` (orchestrator.py lines 79-139),
returning the alert handed to `alerts.send_alert` (which delivers it for
buys and sells alike), or `none` when the event is dropped.  The transaction
normalizer called on the event (`parse_enhanced_transaction`, absent from
parser.py, which ends mid-module) is abstracted as the function `parse` from
the identified wallet address to an optional trade; `db` is the wallets
table.  Dropping rules, in source order: no account with a non-zero native
balance change (or an empty address, Python falsiness), an unknown wallet,
an exiled wallet, or a trade that fails to parse. -/
def handle_live_transaction (s : Settings) (db : List WalletRow)
    (accountData : List AccountData) (parse : String → Option ParsedTrade) :
    Option TradeAlert :=
  match (accountData.find? (fun a => a.nativeBalanceChange ≠ 0)).map (fun a => a.account) with
  | none => none
  | some wallet_address =>
    if wallet_address = "" then none
    else
      match db.find? (fun w => w.address == wallet_address) with
      | none => none
      | some wallet =>
        if wallet.tier = .exiled then none
        else
          match parse wallet_address with
          | none => none
          | some trade =>
            some ⟨wallet, trade, none,
              wallet.tier = .tier1 && trade.side == "buy"
                && s.min_win_rate ≤ wallet.win_rate
                && !(s.bot_score_threshold ≤ wallet.bot_score)⟩

/-! ## bot_detector.py: `detect_bot_clusters`

The input `wallet_trade_map` is an insertion-ordered dict, modelled as an
association list.  `co_occur`, `adjacency` and `clusters` are likewise
insertion-ordered dicts.  `adjacency`'s values are Python sets, modelled as
insertion-ordered duplicate-free lists (set iteration order is unspecified in
Python; the returned cluster map is independent of it, since only membership
and the insertion-ordered key sequence of `adjacency` feed the result). -/

/-- Lexicographic strict order on char lists by code point — the order
Python's string comparison uses.  (Defined structurally rather than through
`String.lt` so that concrete runs reduce in the kernel.) -/
def strLtb : List Char → List Char → Bool
  | [], [] => false
  | [], _ :: _ => true
  | _ :: _, [] => false
  | c :: cs, d :: ds => if c < d then true else if d < c then false else strLtb cs ds

/-- `a <= b` on strings, code-point lexicographic. -/
def strLe (a b : String) : Bool := !(strLtb b.data a.data)

/-- Python `tuple(sorted([w1, w2]))`: the unordered wallet pair, smaller
address first. -/
def sortPair (w1 w2 : String) : String × String :=
  if strLe w1 w2 then (w1, w2) else (w2, w1)

/-- The keys of `token_buyers` (bot_detector.py lines 164-168) in insertion
order: tokens in order of first buy, iterating wallets in map order and each
wallet's trades in list order. -/
def cl_tokens (m : List (String × List ParsedTrade)) : List String :=
  dedupFirst (m.flatMap (fun e =>
    (e.2.filter (fun t => t.side == "buy")).map (fun t => t.token_address))) []

/-- `token_buyers[tok]`: the (wallet, buy time) pairs for one token, in
insertion order. -/
def cl_buyers (m : List (String × List ParsedTrade)) (tok : String) :
    List (String × ℚ) :=
  m.flatMap (fun e =>
    (e.2.filter (fun t => t.side == "buy" && t.token_address == tok)).map
      (fun t => (e.1, t.block_time)))

/-- The pair scan over one token's time-sorted buyer list (bot_detector.py
lines 173-180): for each buyer, scan forward while the time delta stays
within the threshold (the source's `break`), emitting the sorted pair of
each two distinct wallets.  `θ` is `block_delta_threshold * 0.4` seconds. -/
def pairEvents (θ : ℚ) : List (String × ℚ) → List (String × String)
  | [] => []
  | p :: rest =>
    (rest.takeWhile (fun q => q.2 - p.2 ≤ θ)).filterMap
      (fun q => if p.1 ≠ q.1 then some (sortPair p.1 q.1) else none)
    ++ pairEvents θ rest

/-- One `co_occur[key] += 1` on the insertion-ordered counter dict. -/
def bumpPair (co : List ((String × String) × Nat)) (k : String × String) :
    List ((String × String) × Nat) :=
  match co with
  | [] => [(k, 1)]
  | e :: rest => if e.1 = k then (e.1, e.2 + 1) :: rest else e :: bumpPair rest k

/-- The full co-occurrence counter dict (bot_detector.py lines 160-180):
tokens in key order, each buyer list stably sorted by time, then the pair
scan; counts accumulated in first-increment key order. -/
def co_occur (θ : ℚ) (m : List (String × List ParsedTrade)) :
    List ((String × String) × Nat) :=
  ((cl_tokens m).flatMap (fun tok =>
    pairEvents θ (sortKey (fun p => p.2) (cl_buyers m tok)))).foldl bumpPair []

/-- `adjacency[x].add(y)` on the insertion-ordered dict of insertion-ordered
sets. -/
def addNeighbor (adj : List (String × List String)) (x y : String) :
    List (String × List String) :=
  match adj with
  | [] => [(x, [y])]
  | e :: rest =>
    if e.1 = x then (e.1, if y ∈ e.2 then e.2 else e.2 ++ [y]) :: rest
    else e :: addNeighbor rest x y

/-- The adjacency dict (bot_detector.py lines 183-187): both directions are
added for every pair whose count reaches the minimum. -/
def build_adjacency (minCo : Nat) (co : List ((String × String) × Nat)) :
    List (String × List String) :=
  co.foldl
    (fun adj e =>
      if minCo ≤ e.2 then addNeighbor (addNeighbor adj e.1.1 e.1.2) e.1.2 e.1.1
      else adj)
    []

/-- `adjacency[x]` (read-only; the source's defaultdict is only read at keys
it contains — queue elements are always keys because both directions of every
pair are inserted). -/
def adjLookup (adj : List (String × List String)) (x : String) : List String :=
  (adj.lookup x).getD []

/-- The BFS inner loop (bot_detector.py lines 197-205), with explicit fuel so
that the recursion is structural (the fuel supplied by `detectGo` is proved
sufficient below; the source's loop terminates because `visited` grows).
State: queue, visited list, component accumulator; returns the final
(visited, component). -/
def bfsGo (adj : List (String × List String)) :
    Nat → List String → List String → List String → List String × List String
  | 0, _, visited, comp => (visited, comp)
  | _ + 1, [], visited, comp => (visited, comp)
  | fuel + 1, node :: rest, visited, comp =>
    if node ∈ visited then bfsGo adj fuel rest visited comp
    else
      bfsGo adj fuel (rest ++ (adjLookup adj node).filter (fun y => !(y ∈ visited)))
        (visited ++ [node]) (comp ++ [node])

/-- Fuel sufficient for any `bfsGo` run over `adj` started on a one-element
queue of a key (proved below). -/
def clusterFuel (adj : List (String × List String)) : Nat :=
  (adj.length + 1) * (adj.length + 2)

/-- Little-endian decimal digits, fuelled for structural recursion. -/
def natDigitsAux : Nat → Nat → List Nat
  | 0, _ => []
  | fuel + 1, n => if n < 10 then [n] else n % 10 :: natDigitsAux fuel (n / 10)

/-- Little-endian decimal digits of `n`. -/
def natDigits (n : Nat) : List Nat := natDigitsAux (n + 1) n

/-- A decimal digit character. -/
def digitCh (n : Nat) : Char := Char.ofNat (48 + n)

/-- `f"cluster_{cluster_id:04d}"`: the synthetic cluster identifier. -/
def clusterId (n : Nat) : String :=
  let ds := (natDigits n).reverse.map digitCh
  "cluster_" ++ String.mk (List.replicate (4 - ds.length) '0' ++ ds)

/-- The outer component loop (bot_detector.py lines 190-211): walk the
adjacency keys in insertion order, BFS from each unvisited key, and assign
the next synthetic identifier to every member of each component of size ≥ 2. -/
def detectGo (adj : List (String × List String)) :
    List String → List String → Nat → List (String × String) → List (String × String)
  | [], _, _, clusters => clusters
  | wallet :: ws, visited, cluster_id, clusters =>
    if wallet ∈ visited then detectGo adj ws visited cluster_id clusters
    else
      let r := bfsGo adj (clusterFuel adj) [wallet] visited []
      if 2 ≤ r.2.length then
        detectGo adj ws r.1 (cluster_id + 1)
          (clusters ++ r.2.map (fun w => (w, clusterId cluster_id)))
      else detectGo adj ws r.1 cluster_id clusters

/-- The co-trading adjacency structure `detect_bot_clusters` builds from a
wallet-trade map (the relation `adjacency[x] ∋ y`). -/
def coTradeAdj (m : List (String × List ParsedTrade))
    (block_delta_threshold : ℚ) (min_co_occurrences : Nat) :
    List (String × List String) :=
  build_adjacency min_co_occurrences
    (co_occur (block_delta_threshold * (2/5)) m)

/-- `detect_bot_clusters` (bot_detector.py lines 151-213).  `0.4` seconds
per block is the exact rational `2/5` (the float's representation error is
below any time granularity the model distinguishes). -/
def detect_bot_clusters (m : List (String × List ParsedTrade))
    (block_delta_threshold : ℚ) (min_co_occurrences : Nat) :
    List (String × String) :=
  let adj := coTradeAdj m block_delta_threshold min_co_occurrences
  detectGo adj (adj.map (fun e => e.1)) [] 0 []

/-- The insertion-ordered key sequence of an adjacency dict. -/
def adjKeys (adj : List (String × List String)) : List String :=
  adj.map (fun e => e.1)

/-- Two wallets carry the same cluster identifier in a cluster map. -/
def sameCluster (r : List (String × String)) (x y : String) : Prop :=
  ∃ c, r.lookup x = some c ∧ r.lookup y = some c

/-- "Reordering of each wallet's input trade list": the same wallets in the
same map order, each with a permutation of its trades. -/
def PerWalletPerm (m₁ m₂ : List (String × List ParsedTrade)) : Prop :=
  List.Forall₂ (fun e₁ e₂ => e₁.1 = e₂.1 ∧ List.Perm e₁.2 e₂.2) m₁ m₂

/-- Count of adjacency keys not yet visited (the BFS termination measure). -/
def unvisitedCount (adj : List (String × List String)) (visited : List String) : Nat :=
  ((adjKeys adj).filter (fun x => !(x ∈ visited))).length

/-- The co-trading edge relation of an adjacency dict. -/
def adjE (adj : List (String × List String)) (x y : String) : Prop :=
  y ∈ adjLookup adj x

/-- Graph reachability along recorded co-trading edges. -/
def adjReach (adj : List (String × List String)) : String → String → Prop :=
  Relation.ReflTransGen (adjE adj)

/-- One edge step that stays outside a visited set. -/
def adjEOut (adj : List (String × List String)) (v : List String)
    (x y : String) : Prop :=
  y ∈ adjLookup adj x ∧ y ∉ v

/-- Reachability along a path that avoids a visited set entirely. -/
def adjReachOut (adj : List (String × List String)) (v : List String)
    (q x : String) : Prop :=
  q ∉ v ∧ Relation.ReflTransGen (adjEOut adj v) q x

/-- Value of a little-endian digit list. -/
def digitsVal (ds : List Nat) : Nat := ds.foldr (fun d acc => d + 10 * acc) 0

/-- Value of a big-endian decimal character run. -/
def charsVal (cs : List Char) : Nat :=
  cs.foldl (fun acc c => acc * 10 + (c.toNat - 48)) 0

/-- Lookup with default 0 in the co-occurrence counter dict. -/
def coCount (co : List ((String × String) × Nat)) (k : String × String) : Nat :=
  ((co.lookup k).getD 0)

/-- The flattened pair-event stream of `co_occur` (the exact sequence of
`co_occur[key] += 1` operations, in program order). -/
def pairStream (θ : ℚ) (m : List (String × List ParsedTrade)) :
    List (String × String) :=
  (cl_tokens m).flatMap (fun tok =>
    pairEvents θ (sortKey (fun p => p.2) (cl_buyers m tok)))

/-- The conditions under which, per the claim, a live trade alert must be
sent (written from the claim's words, for comparison with the translated
`handle_live_transaction`): the event identifies a wallet, the wallet is
known and not exiled, and the trade parses. -/
def live_alert_expected (db : List WalletRow) (accountData : List AccountData)
    (parse : String → Option ParsedTrade) : Bool :=
  match (accountData.find? (fun a => a.nativeBalanceChange ≠ 0)).map (fun a => a.account) with
  | none => false
  | some addr =>
    addr ≠ "" &&
      (match db.find? (fun w => w.address == addr) with
       | none => false
       | some w => w.tier ≠ .exiled && (parse addr).isSome)

/-! ## parser.py: raw events and the two normalizer rules

Raw Helius events are arbitrary JSON-like Python values.  The two extractor
functions are embedded in an `Except` monad whose error value records the
Python exception class a given expression would raise, so "never raises" is
`Except.isOk`. -/

/-- A JSON-like Python value (`dict` / `list` / `str` / numbers / `bool` /
`None`).  Python numbers (int and float) are collapsed into `ℚ`. -/
inductive Json where
  | null
  | bool (b : Bool)
  | num (q : ℚ)
  | str (s : String)
  | arr (elems : List Json)
  | obj (fields : List (String × Json))
deriving Repr

/-- The exception classes the modelled expressions can raise.  `valueError`
stands for the `ValueError`/`OverflowError` family that
`datetime.utcfromtimestamp` raises on out-of-range numeric timestamps; no
modelled branch distinguishes the two. -/
inductive PyErr where
  | attributeError
  | typeError
  | keyError
  | indexError
  | valueError
deriving DecidableEq, Repr

deriving instance DecidableEq for Except

/-- `d.get(k, dflt)`: field lookup on a dict, `AttributeError` on anything
else (e.g. `None.get`, `"x".get`). -/
def jget (j : Json) (k : String) (dflt : Json) : Except PyErr Json :=
  match j with
  | .obj kvs => .ok ((kvs.lookup k).getD dflt)
  | _ => .error .attributeError

/-- Python truthiness of a value. -/
def truthy : Json → Bool
  | .null => false
  | .bool b => b
  | .num q => !(q == 0)
  | .str s => !(s == "")
  | .arr xs => !xs.isEmpty
  | .obj kvs => !kvs.isEmpty

/-- `for x in j`: iteration — list elements, string characters (as length-1
strings), dict keys; `TypeError` on numbers, booleans and `None`. -/
def jiter : Json → Except PyErr (List Json)
  | .arr xs => .ok xs
  | .str s => .ok (s.data.map (fun c => .str (String.mk [c])))
  | .obj kvs => .ok (kvs.map (fun kv => .str kv.1))
  | _ => .error .typeError

/-- Coercion of a value to a number where Python would implicitly accept int,
float or bool and raise `TypeError` otherwise (numeric comparisons,
`datetime.utcfromtimestamp`). -/
def pyToNum : Json → Except PyErr ℚ
  | .num q => .ok q
  | .bool b => .ok (if b then 1 else 0)
  | _ => .error .typeError

/-- `j == (s : str)` under Python `==` (никогда raises): only a string can
equal a string. -/
def jsonEqStr (j : Json) (s : String) : Bool :=
  match j with
  | .str t => t = s
  | _ => false

mutual

/-- Deep `==` between two values (Python `==` never raises).  `True == 1`
holds in Python, hence the bool/num crossover.  Dicts are compared
field-list-pointwise rather than unordered — the difference is invisible to
every modelled code path (the compared `mint` values are only ever strings
in well-shaped events). -/
def pyEq : Json → Json → Bool
  | .null, .null => true
  | .bool x, .bool y => x == y
  | .bool x, .num q => (if x then (1:ℚ) else 0) == q
  | .num q, .bool x => q == (if x then (1:ℚ) else 0)
  | .num x, .num y => x == y
  | .str x, .str y => x == y
  | .arr xs, .arr ys => pyEqList xs ys
  | .obj xs, .obj ys => pyEqObj xs ys
  | _, _ => false

/-- Elementwise deep `==` on lists. -/
def pyEqList : List Json → List Json → Bool
  | [], [] => true
  | x :: xs, y :: ys => pyEq x y && pyEqList xs ys
  | _, _ => false

/-- Fieldwise deep `==` on dict field lists. -/
def pyEqObj : List (String × Json) → List (String × Json) → Bool
  | [], [] => true
  | x :: xs, y :: ys => x.1 == y.1 && pyEq x.2 y.2 && pyEqObj xs ys
  | _, _ => false

end

/-- A lossy rendering of a value stored into a string-typed trade field; the
source's dataclass fields are untyped at runtime, so a non-string value would
be stored as-is.  Only string payloads are value-faithful; no modelled branch
reads the others. -/
def asLossyString : Json → String
  | .str s => s
  | .null => "None"
  | .bool b => if b then "True" else "False"
  | .num _ => "<num>"
  | .arr _ => "<list>"
  | .obj _ => "<dict>"

/-- Decimal string to rational, for `float(str)`: optional sign, digits with
an optional dot, optional exponent.  (`inf`/`nan` strings are out of the
model's number domain and parse to `none`, taking `_safe_float`'s default.) -/
def parseFloatStr (s : String) : Option ℚ :=
  let (sign, cs) : ℚ × List Char :=
    match s.data with
    | '-' :: rest => (-1, rest)
    | '+' :: rest => (1, rest)
    | cs => (1, cs)
  let (mantissa, rest) := cs.span (fun c => c.isDigit || c = '.')
  let intPart := mantissa.takeWhile (fun c => c ≠ '.')
  let fracPart := (mantissa.dropWhile (fun c => c ≠ '.')).drop 1
  if mantissa = [] ∨ ¬ (intPart ++ fracPart).all Char.isDigit ∨
      (mantissa.filter (fun c => c = '.')).length > 1 ∨ intPart ++ fracPart = [] then
    none
  else
    let digitsVal : List Char → ℚ :=
      fun ds => ds.foldl (fun acc c => acc * 10 + ((c.toNat - 48 : ℕ) : ℚ)) 0
    let base : ℚ := digitsVal intPart + digitsVal fracPart / (10 : ℚ) ^ fracPart.length
    match rest with
    | [] => some (sign * base)
    | e :: exp =>
      if e = 'e' ∨ e = 'E' then
        let (esign, eds) : Bool × List Char :=
          match exp with
          | '-' :: r => (true, r)
          | '+' :: r => (false, r)
          | r => (false, r)
        if eds ≠ [] ∧ eds.all Char.isDigit then
          let ev := eds.foldl (fun acc c => acc * 10 + (c.toNat - 48)) 0
          some (sign * base * (if esign then ((10 : ℚ) ^ ev)⁻¹ else (10 : ℚ) ^ ev))
        else none
      else none

/-- `parser._safe_float` (parser.py lines 33-37): total — `TypeError` /
`ValueError` are caught and become the default. -/
def safe_float (v : Json) (dflt : ℚ) : ℚ :=
  match v with
  | .null => dflt
  | .num q => q
  | .bool b => if b then 1 else 0
  | .str s => (parseFloatStr s).getD dflt
  | _ => dflt

/-- Whether `needle` occurs as a contiguous run inside `hay`. -/
def substrScan (needle : List Char) : List Char → Bool
  | [] => needle.isEmpty
  | c :: rest => needle.isPrefixOf (c :: rest) || substrScan needle rest

/-- Whether `"jito"` occurs in the lowercased string. -/
def hasJitoStr (s : String) : Bool :=
  substrScan ['j', 'i', 't', 'o'] (s.data.map Char.toLower)

mutual

/-- `"jito" in str(txn).lower()`: in the repr of a JSON-like value the only
letters outside the fixed tokens `True`/`False`/`None`/`inf`/`nan` (none of
which contain "jito") come from string atoms, so the check is a scan of every
string key and value. -/
def containsJito : Json → Bool
  | .str s => hasJitoStr s
  | .arr xs => containsJitoList xs
  | .obj kvs => containsJitoObj kvs
  | _ => false

/-- Scan of a list of values. -/
def containsJitoList : List Json → Bool
  | [] => false
  | x :: xs => containsJito x || containsJitoList xs

/-- Scan of dict fields (keys are stringified too). -/
def containsJitoObj : List (String × Json) → Bool
  | [] => false
  | kv :: kvs => hasJitoStr kv.1 || containsJito kv.2 || containsJitoObj kvs

end

/-- parser.py line 10. -/
def SOL_MINT : String := "So11111111111111111111111111111111111111112"

/-- parser.py line 11. -/
def USDC_MINT : String := "EPjFWdd5AufqSSqeM2qN1xzybapC8G4wEGGkZwyTDt1v"

/-- parser.py line 12. -/
def USDT_MINT : String := "Es9vMFrzaCERmJfrF4H2FYD4KCoNkY11McCe8BenwNYB"

/-- `is_base` (parser.py lines 68-69): `mint in (SOL_MINT, "") or mint in
STABLE_MINTS`. -/
def is_base (m : Json) : Bool :=
  jsonEqStr m SOL_MINT || jsonEqStr m "" || jsonEqStr m USDC_MINT || jsonEqStr m USDT_MINT

/-- Left-to-right effectful filter (a Python list comprehension raises at the
first offending element). -/
def filterLtr (p : Json → Except PyErr Bool) : List Json → Except PyErr (List Json)
  | [] => .ok []
  | x :: xs => do
    let b ← p x
    let rest ← filterLtr p xs
    pure (if b then x :: rest else rest)

/-- Left-to-right effectful map. -/
def mapLtr (f : Json → Except PyErr Json) : List Json → Except PyErr (List Json)
  | [] => .ok []
  | x :: xs => do
    let y ← f x
    let rest ← mapLtr f xs
    pure (y :: rest)

/-- `x[:8]`: slicing — strings and lists slice, everything else raises
`TypeError`. -/
def pySlice8 : Json → Except PyErr Json
  | .str s => .ok (.str (String.mk (s.data.take 8)))
  | .arr xs => .ok (.arr (xs.take 8))
  | _ => .error .typeError

/-- `xs[0]`: lists and non-empty strings index; a dict raises `KeyError`
(its keys are strings), numbers/booleans/`None` raise `TypeError`. -/
def pyIndex0 : Json → Except PyErr Json
  | .arr (x :: _) => .ok x
  | .arr [] => .error .indexError
  | .str s => match s.data with
    | c :: _ => .ok (.str (String.mk [c]))
    | [] => .error .indexError
  | .obj _ => .error .keyError
  | _ => .error .typeError

/-- The `native_change` scan (parser.py lines 75-79): first `accountData`
entry whose `account` equals the wallet, reading its balance change;
`0` when none matches. -/
def findNativeChange (wallet_address : String) : List Json → Except PyErr Json
  | [] => .ok (.num 0)
  | a :: rest => do
    let v ← jget a "account" .null
    if jsonEqStr v wallet_address then jget a "nativeBalanceChange" (.num 0)
    else findNativeChange wallet_address rest

/-- `next((t for t in ts if t.get("mint") == m), {})` (parser.py lines 84 and
116). -/
def findByMint (m : Json) : List Json → Except PyErr Json
  | [] => .ok (.obj [])
  | t :: rest => do
    let v ← jget t "mint" .null
    if pyEq v m then pure t else findByMint m rest

/-- The stable-coin fallback loop for a missing native delta (parser.py
lines 92-94 / 123-125): no `break`, so the last stable transfer wins. -/
def stableFallback (acc : ℚ) : List Json → Except PyErr ℚ
  | [] => .ok acc
  | s :: rest => do
    let m ← jget s "mint" .null
    if jsonEqStr m USDC_MINT || jsonEqStr m USDT_MINT then do
      let ta ← jget s "tokenAmount" (.num 0)
      stableFallback (safe_float ta 0 / 150) rest
    else stableFallback acc rest

/-- The first instant `datetime` can represent (0001-01-01T00:00:00Z), in
seconds since the Unix epoch: `datetime.utcfromtimestamp` raises below it. -/
def MIN_DATETIME_TS : ℚ := -62135596800

/-- The last instant `datetime` can represent (9999-12-31T23:59:59.999999Z),
in seconds since the Unix epoch: `datetime.utcfromtimestamp` raises above
it.  (CPython first rounds the timestamp to whole microseconds, so a
half-microsecond sliver just above this bound can still raise; the model
conservatively treats that sliver as raising too, which only errs toward
*more* raising.) -/
def MAX_DATETIME_TS : ℚ := 253402300799 + 999999 / 1000000

/-- The numeric timestamps `datetime.utcfromtimestamp` accepts. -/
def tsInRange (q : ℚ) : Bool :=
  MIN_DATETIME_TS ≤ q && q ≤ MAX_DATETIME_TS

/-- `block_time = datetime.utcfromtimestamp(ts) if ts else datetime.utcnow()`
(parser.py lines 47 and 150).  `utcfromtimestamp` raises `TypeError` on
non-numeric input and `ValueError`/`OverflowError` (modelled as
`valueError`) on numeric input outside `datetime`'s representable range
`0001-01-01 … 9999-12-31`. -/
def blockTimeOf (ts : Json) (now : ℚ) : Except PyErr ℚ :=
  if truthy ts then do
    let q ← pyToNum ts
    if tsInRange q then pure q else .error .valueError
  else pure now

/-- The `if not sol_spent:`/`if not sol_received:` stable-coin fallback
step (parser.py lines 90-94 and 122-125): scan the given transfer side when
the native delta came out zero/falsy, otherwise keep the value. -/
def fallbackIfZero (x : ℚ) (side : List Json) : Except PyErr ℚ :=
  if x = 0 then stableFallback x side else pure x

/-- `_parse_via_token_transfers` (parser.py lines 40-144; the leading
underscore is dropped for Lean).  `now` is `datetime.utcnow()` for the
falsy-timestamp path.  The source builds `sent_mints`/`received_mints` as
Python sets; only emptiness and the first element of their filtered
iterations are consumed, both invariant under deduplication with
insertion-order iteration, so the model keeps plain lists. -/
def parse_via_token_transfers (txn : Json) (wallet_address : String) (now : ℚ) :
    Except PyErr (Option ParsedTrade) := do
  let sig ← jget txn "signature" (.str "")
  let ts ← jget txn "timestamp" (.num 0)
  let block_time ← blockTimeOf ts now
  let transfers ← jget txn "tokenTransfers" (.arr [])
  if !truthy transfers then return none
  let items ← jiter transfers
  let sent ← filterLtr (fun t => do
    let v ← jget t "fromUserAccount" .null
    pure (jsonEqStr v wallet_address)) items
  let received ← filterLtr (fun t => do
    let v ← jget t "toUserAccount" .null
    pure (jsonEqStr v wallet_address)) items
  if sent.isEmpty && received.isEmpty then return none
  let sent_mints ← mapLtr (fun t => jget t "mint" (.str "")) sent
  let received_mints ← mapLtr (fun t => jget t "mint" (.str "")) received
  let traded_tokens_sent := sent_mints.filter (fun m => !is_base m)
  let traded_tokens_received := received_mints.filter (fun m => !is_base m)
  let accountData ← jget txn "accountData" (.arr [])
  let accs ← jiter accountData
  let native_change ← findNativeChange wallet_address accs
  match traded_tokens_received with
  | token_mint :: _ => do
    -- BUY (parser.py lines 81-111)
    let token_transfer ← findByMint token_mint received
    let dfltSym ← pySlice8 token_mint
    let symJ ← jget token_transfer "symbol" dfltSym
    let taJ ← jget token_transfer "tokenAmount" (.num 0)
    let token_amount := safe_float taJ 0
    let nc ← pyToNum native_change
    let sol_spent0 : ℚ := if nc < 0 then |nc| / 1000000000 else 0
    let sol_spent ← fallbackIfZero sol_spent0 sent
    let usd_val := sol_spent * 150
    let price := if 0 < token_amount then usd_val / token_amount else 0
    return some
      { signature := asLossyString sig, wallet_address,
        token_address := asLossyString token_mint,
        token_symbol := asLossyString symJ, side := "buy",
        amount_sol := sol_spent, amount_usd := usd_val, price_usd := price,
        block_time, used_jito := containsJito txn }
  | [] =>
    match traded_tokens_sent with
    | token_mint :: _ => do
      -- SELL (parser.py lines 113-142)
      let token_transfer ← findByMint token_mint sent
      let dfltSym ← pySlice8 token_mint
      let symJ ← jget token_transfer "symbol" dfltSym
      let taJ ← jget token_transfer "tokenAmount" (.num 0)
      let token_amount := safe_float taJ 0
      let nc ← pyToNum native_change
      let sol_received0 : ℚ := if 0 < nc then nc / 1000000000 else 0
      let sol_received ← fallbackIfZero sol_received0 received
      let usd_val := sol_received * 150
      let price := if 0 < token_amount then usd_val / token_amount else 0
      return some
        { signature := asLossyString sig, wallet_address,
          token_address := asLossyString token_mint,
          token_symbol := asLossyString symJ, side := "sell",
          amount_sol := sol_received, amount_usd := usd_val, price_usd := price,
          block_time, used_jito := containsJito txn }
    | [] => return none

/-- `_parse_via_swap_event` (parser.py lines 147-188; the leading underscore
is dropped for Lean).  The token-to-token branch of the source computes its
values and then falls off the end of the function, returning `None`. -/
def parse_via_swap_event (txn : Json) (wallet_address : String) (now : ℚ) :
    Except PyErr (Option ParsedTrade) := do
  let sig ← jget txn "signature" (.str "")
  let ts ← jget txn "timestamp" (.num 0)
  let block_time ← blockTimeOf ts now
  let eventsJ ← jget txn "events" (.obj [])
  let swap ← jget eventsJ "swap" (.obj [])
  if !truthy swap then return none
  let niRaw ← jget swap "nativeInput" .null
  let native_input := if truthy niRaw then niRaw else .obj []
  let noRaw ← jget swap "nativeOutput" .null
  let native_output := if truthy noRaw then noRaw else .obj []
  let token_inputs ← jget swap "tokenInputs" (.arr [])
  let token_outputs ← jget swap "tokenOutputs" (.arr [])
  if truthy native_input ∧ truthy token_outputs then do
    let amtJ ← jget native_input "amount" (.num 0)
    let sol_amount := safe_float amtJ 0 / 1000000000
    let token_out ← pyIndex0 token_outputs
    let token_mintJ ← jget token_out "mint" (.str "")
    let dfltSym ← pySlice8 token_mintJ
    let symJ ← jget token_out "symbol" dfltSym
    let usd_val := sol_amount * 150
    let rta ← jget token_out "rawTokenAmount" (.obj [])
    let taJ ← jget rta "tokenAmount" (.num 1)
    let token_amount := safe_float taJ 0
    return some
      { signature := asLossyString sig, wallet_address,
        token_address := asLossyString token_mintJ,
        token_symbol := asLossyString symJ, side := "buy",
        amount_sol := sol_amount, amount_usd := usd_val,
        price_usd := usd_val / max token_amount 1,
        block_time, used_jito := containsJito txn }
  else if truthy token_inputs ∧ truthy native_output then do
    let amtJ ← jget native_output "amount" (.num 0)
    let sol_amount := safe_float amtJ 0 / 1000000000
    let token_in ← pyIndex0 token_inputs
    let token_mintJ ← jget token_in "mint" (.str "")
    let dfltSym ← pySlice8 token_mintJ
    let symJ ← jget token_in "symbol" dfltSym
    let usd_val := sol_amount * 150
    let rta ← jget token_in "rawTokenAmount" (.obj [])
    let taJ ← jget rta "tokenAmount" (.num 1)
    let token_amount := safe_float taJ 0
    return some
      { signature := asLossyString sig, wallet_address,
        token_address := asLossyString token_mintJ,
        token_symbol := asLossyString symJ, side := "sell",
        amount_sol := sol_amount, amount_usd := usd_val,
        price_usd := usd_val / max token_amount 1,
        block_time, used_jito := containsJito txn }
  else if truthy token_inputs ∧ truthy token_outputs then do
    let token_in ← pyIndex0 token_inputs
    let token_out ← pyIndex0 token_outputs
    let in_mint ← jget token_in "mint" (.str "")
    let _out_mint ← jget token_out "mint" (.str "")
    if jsonEqStr in_mint USDC_MINT || jsonEqStr in_mint USDT_MINT ||
        jsonEqStr in_mint SOL_MINT then do
      let rta ← jget token_in "rawTokenAmount" (.obj [])
      let taJ ← jget rta "tokenAmount" (.num 0)
      let _usd_val := safe_float taJ 0
      return none
    else return none
  else return none

/-! ### Shape constraints under which the normalizer provably cannot raise -/

/-- A `tokenTransfers` entry that cannot make the extractors raise: an
object whose `mint`, when present, is a string (a non-string non-base mint
would reach the `token_mint[:8]` slice). -/
def wellShapedTransfer (t : Json) : Bool :=
  match t with
  | .obj kvs =>
    match kvs.lookup "mint" with
    | none => true
    | some (.str _) => true
    | some _ => false
  | _ => false

/-- An `accountData` entry that cannot raise: an object whose
`nativeBalanceChange`, when present, is numeric (it meets `< 0` / `> 0`). -/
def wellShapedAcc (a : Json) : Bool :=
  match a with
  | .obj kvs =>
    match kvs.lookup "nativeBalanceChange" with
    | none => true
    | some (.num _) => true
    | some (.bool _) => true
    | some _ => false
  | _ => false

/-- A swap-event token entry that cannot raise: an object with a string (or
absent) `mint` and an object (or absent) `rawTokenAmount`. -/
def wellShapedTokenEntry (t : Json) : Bool :=
  match t with
  | .obj kvs =>
    (match kvs.lookup "mint" with
     | none => true
     | some (.str _) => true
     | some _ => false) &&
    (match kvs.lookup "rawTokenAmount" with
     | none => true
     | some (.obj _) => true
     | some _ => false)
  | _ => false

/-- The `events.swap` payload shape: each side either falsy/absent or of the
type its branch consumes. -/
def wellShapedSwap (skvs : List (String × Json)) : Bool :=
  (match skvs.lookup "nativeInput" with
   | none => true
   | some (.obj _) => true
   | some v => !truthy v) &&
  (match skvs.lookup "nativeOutput" with
   | none => true
   | some (.obj _) => true
   | some v => !truthy v) &&
  (match skvs.lookup "tokenInputs" with
   | none => true
   | some (.arr ts) => ts.all wellShapedTokenEntry
   | some v => !truthy v) &&
  (match skvs.lookup "tokenOutputs" with
   | none => true
   | some (.arr ts) => ts.all wellShapedTokenEntry
   | some v => !truthy v)

/-- A well-shaped raw event: a dict whose consumed fields each have a shape
their use site accepts (values may still be missing, empty, or semantically
meaningless — that yields a no-match, not an exception).  A numeric
`timestamp` must lie in `datetime`'s representable range, since
`utcfromtimestamp` raises outside it. -/
def wellShapedTxn (txn : Json) : Bool :=
  match txn with
  | .obj kvs =>
    (match kvs.lookup "timestamp" with
     | none => true
     | some (.num q) => tsInRange q
     | some (.bool _) => true
     | some v => !truthy v) &&
    (match kvs.lookup "tokenTransfers" with
     | none => true
     | some (.arr ts) => ts.all wellShapedTransfer
     | some v => !truthy v) &&
    (match kvs.lookup "accountData" with
     | none => true
     | some (.arr as) => as.all wellShapedAcc
     | some _ => false) &&
    (match kvs.lookup "events" with
     | none => true
     | some (.obj evs) =>
       (match evs.lookup "swap" with
        | none => true
        | some (.obj skvs) => wellShapedSwap skvs
        | some v => !truthy v)
     | some _ => false)
  | _ => false

/-! ## Concrete fixtures used by witnesses and counterexamples -/

/-- A two-trade history that the bot-signal engine classifies as a bot under
the default threshold: instant snipe (`blocks_after_mint = 0`), a 10-second
buy-to-sell hold, and zero token diversity fire `0.35 + 0.30 + 0.08 = 0.73 ≥
0.55`. -/
def botTrades : List ParsedTrade :=
  [{ signature := "s1", wallet_address := "W", token_address := "TOK",
     token_symbol := "TOK", side := "buy", amount_sol := 1, amount_usd := 100,
     price_usd := 1, block_time := 0, used_jito := false, blocks_after_mint := some 0 },
   { signature := "s2", wallet_address := "W", token_address := "TOK",
     token_symbol := "TOK", side := "sell", amount_sol := 1, amount_usd := 150,
     price_usd := 1, block_time := 10, used_jito := false, blocks_after_mint := some 0 }]

/-- A candidate-tier wallet row. -/
def wCand : WalletRow :=
  { address := "W", tier := .candidate, win_rate := 0, bot_score := 0,
    last_active := 0, last_scored := none, notes := none }

/-- An archived wallet row (for the cluster-exile counterexample). -/
def wArch : WalletRow :=
  { address := "w1", tier := .archived, win_rate := 0, bot_score := 0,
    last_active := 0, last_scored := none, notes := none }

/-- A buy trade for the cluster fixtures. -/
def mkClBuy (w tok : String) (t : ℚ) : ParsedTrade :=
  { signature := w ++ tok, wallet_address := w, token_address := tok,
    token_symbol := tok, side := "buy", amount_sol := 1, amount_usd := 150,
    price_usd := 1, block_time := t }

/-- Cluster fixture: wallets `w1`,`w2` co-buy token `T1` three times within
the window; `w3`,`w4` co-buy `T2` three times; `w1` additionally buys `T2`
far from everyone.  `w1`'s trade list starts with its `T1` buys. -/
def mapA : List (String × List ParsedTrade) :=
  [("w1", [mkClBuy "w1" "T1" 0, mkClBuy "w1" "T1" 100, mkClBuy "w1" "T1" 200,
           mkClBuy "w1" "T2" 5000]),
   ("w2", [mkClBuy "w2" "T1" 0, mkClBuy "w2" "T1" 100, mkClBuy "w2" "T1" 200]),
   ("w3", [mkClBuy "w3" "T2" 1000, mkClBuy "w3" "T2" 1100, mkClBuy "w3" "T2" 1200]),
   ("w4", [mkClBuy "w4" "T2" 1000, mkClBuy "w4" "T2" 1100, mkClBuy "w4" "T2" 1200])]

/-- The same map with `w1`'s trade list rotated so that its `T2` buy comes
first — a reordering of one wallet's input trade list, nothing more. -/
def mapB : List (String × List ParsedTrade) :=
  [("w1", [mkClBuy "w1" "T2" 5000, mkClBuy "w1" "T1" 0, mkClBuy "w1" "T1" 100,
           mkClBuy "w1" "T1" 200]),
   ("w2", [mkClBuy "w2" "T1" 0, mkClBuy "w2" "T1" 100, mkClBuy "w2" "T1" 200]),
   ("w3", [mkClBuy "w3" "T2" 1000, mkClBuy "w3" "T2" 1100, mkClBuy "w3" "T2" 1200]),
   ("w4", [mkClBuy "w4" "T2" 1000, mkClBuy "w4" "T2" 1100, mkClBuy "w4" "T2" 1200])]

/-- A swap-shaped event whose `timestamp` field is a (malformed) string:
`datetime.utcfromtimestamp(ts)` raises `TypeError` on it. -/
def badTimestampTxn : Json := .obj
  [("signature", .str "sig2"),
   ("timestamp", .str "late"),
   ("tokenTransfers", .arr
     [.obj [("fromUserAccount", .str "WALLETX"), ("mint", .str "MINTAAA111"),
            ("tokenAmount", .num 5)]])]

/-- A well-shaped buy event (token in, native balance out). -/
def goodTxn : Json := .obj
  [("signature", .str "sig1"),
   ("timestamp", .num 1700000000),
   ("tokenTransfers", .arr
     [.obj [("fromUserAccount", .str "OTHER"), ("toUserAccount", .str "WALLETX"),
            ("mint", .str "MINTAAA111"), ("tokenAmount", .num 1000), ("symbol", .str "AAA")]]),
   ("accountData", .arr
     [.obj [("account", .str "WALLETX"), ("nativeBalanceChange", .num (-2000000000))]])]

/-! ## Lemmas about the stable insertion sort -/

section SortLemmas

variable {α β : Type} [LinearOrder β] (key : α → β)

theorem mem_insKey {x z : α} {l : List α} :
    z ∈ insKey key x l ↔ z = x ∨ z ∈ l := by
  induction l with
  | nil => simp [insKey]
  | cons y ys ih =>
    by_cases h : key x ≤ key y
    · simp [insKey, h]
    · simp only [insKey, if_neg h, List.mem_cons, ih]
      tauto

theorem insKey_perm (x : α) (l : List α) : List.Perm (insKey key x l) (x :: l) := by
  induction l with
  | nil => simp [insKey]
  | cons y ys ih =>
    by_cases h : key x ≤ key y
    · simp [insKey, h]
    · have h1 : insKey key x (y :: ys) = y :: insKey key x ys := by
        simp [insKey, h]
      rw [h1]
      exact (ih.cons y).trans (List.Perm.swap x y ys)

theorem pairwise_insKey {x : α} {l : List α}
    (hl : l.Pairwise (fun a b => key a ≤ key b)) :
    (insKey key x l).Pairwise (fun a b => key a ≤ key b) := by
  induction l with
  | nil => simp [insKey]
  | cons y ys ih =>
    rcases List.pairwise_cons.mp hl with ⟨hy, hys⟩
    by_cases h : key x ≤ key y
    · have h1 : insKey key x (y :: ys) = x :: y :: ys := by simp [insKey, h]
      rw [h1]
      refine List.pairwise_cons.mpr ⟨?_, hl⟩
      intro z hz
      rcases List.mem_cons.mp hz with rfl | hz
      · exact h
      · exact le_trans h (hy z hz)
    · have h1 : insKey key x (y :: ys) = y :: insKey key x ys := by simp [insKey, h]
      rw [h1]
      refine List.pairwise_cons.mpr ⟨?_, ih hys⟩
      intro z hz
      rcases (mem_insKey key).mp hz with rfl | hz
      · exact le_of_lt (lt_of_not_le h)
      · exact hy z hz

theorem sortKey_pairwise (l : List α) :
    (sortKey key l).Pairwise (fun a b => key a ≤ key b) := by
  induction l with
  | nil => simp [sortKey]
  | cons x xs ih => exact pairwise_insKey key ih

theorem sortKey_perm (l : List α) : List.Perm (sortKey key l) l := by
  induction l with
  | nil => simp [sortKey]
  | cons x xs ih => exact (insKey_perm key x (sortKey key xs)).trans (ih.cons x)

theorem filter_insKey (k : β) (x : α) (l : List α) :
    (insKey key x l).filter (fun a => key a = k) =
      if key x = k then x :: l.filter (fun a => key a = k)
      else l.filter (fun a => key a = k) := by
  induction l with
  | nil => by_cases h : key x = k <;> simp [insKey, h]
  | cons y ys ih =>
    by_cases h : key x ≤ key y
    · have h1 : insKey key x (y :: ys) = x :: y :: ys := by simp [insKey, h]
      rw [h1]
      by_cases hk : key x = k <;> simp [hk]
    · have h1 : insKey key x (y :: ys) = y :: insKey key x ys := by simp [insKey, h]
      rw [h1]
      have hyx : key y < key x := lt_of_not_le h
      by_cases hyk : key y = k
      · have hxk : ¬ key x = k := by
          intro hxk
          rw [hxk, hyk] at hyx
          exact lt_irrefl k hyx
        simp [List.filter_cons, hyk, hxk, ih]
      · by_cases hxk : key x = k <;> simp [List.filter_cons, hyk, hxk, ih]

theorem filter_sortKey (k : β) (l : List α) :
    (sortKey key l).filter (fun a => key a = k) = l.filter (fun a => key a = k) := by
  induction l with
  | nil => rfl
  | cons x xs ih =>
    by_cases h : key x = k
    · simp [sortKey, filter_insKey, h, ih]
    · simp [sortKey, filter_insKey, h, ih]

theorem sorted_key_ext {l₁ l₂ : List α}
    (h₁ : l₁.Pairwise (fun a b => key a ≤ key b))
    (h₂ : l₂.Pairwise (fun a b => key a ≤ key b))
    (hf : ∀ k, l₁.filter (fun a => key a = k) = l₂.filter (fun a => key a = k)) :
    l₁ = l₂ := by
  induction l₁ generalizing l₂ with
  | nil =>
    cases l₂ with
    | nil => rfl
    | cons b t₂ =>
      have := hf (key b)
      simp at this
  | cons a t₁ ih =>
    cases l₂ with
    | nil =>
      have := hf (key a)
      simp at this
    | cons b t₂ =>
      rcases List.pairwise_cons.mp h₁ with ⟨ha, ht₁⟩
      rcases List.pairwise_cons.mp h₂ with ⟨hb, ht₂⟩
      -- the two heads have equal keys
      have hmem₁ : a ∈ (b :: t₂).filter (fun z => key z = key a) := by
        rw [← hf (key a)]
        simp
      have hba : key b ≤ key a := by
        rcases List.mem_cons.mp (List.mem_of_mem_filter hmem₁) with rfl | hmem
        · exact le_refl _
        · exact hb a hmem
      have hmem₂ : b ∈ (a :: t₁).filter (fun z => key z = key b) := by
        rw [hf (key b)]
        simp
      have hab : key a ≤ key b := by
        rcases List.mem_cons.mp (List.mem_of_mem_filter hmem₂) with rfl | hmem
        · exact le_refl _
        · exact ha b hmem
      have hkey : key a = key b := le_antisymm hab hba
      -- hence the heads are equal
      have hfa := hf (key a)
      rw [List.filter_cons, List.filter_cons, if_pos (by simp),
        if_pos (by simp [hkey.symm])] at hfa
      obtain ⟨hab2, _⟩ := List.cons_eq_cons.mp hfa
      subst hab2
      -- and the tails agree on every key filter
      refine congrArg (a :: ·) (ih ht₁ ht₂ ?_)
      intro k
      have hfk := hf k
      rw [List.filter_cons, List.filter_cons] at hfk
      by_cases hk : key a = k
      · rw [if_pos (by simp [hk]), if_pos (by simp [hk])] at hfk
        exact (List.cons_eq_cons.mp hfk).2
      · rw [if_neg (by simp [hk]), if_neg (by simp [hk])] at hfk
        exact hfk

end SortLemmas

/-! ## Lemmas about the FIFO matching of `compute_score_from_trades` -/

/-- On a time-sorted non-empty list, the leftmost minimum is the head. -/
theorem earliestBuy_of_pairwise {b : ParsedTrade} {bs : List ParsedTrade}
    (h : (b :: bs).Pairwise (fun a c => a.block_time ≤ c.block_time)) :
    earliestBuy b bs = b := by
  induction bs generalizing b with
  | nil => rfl
  | cons x xs ih =>
    rcases List.pairwise_cons.mp h with ⟨hb, hx⟩
    have hbx : b.block_time ≤ x.block_time := hb x (by simp)
    have hstep : earliestBuy b (x :: xs) = earliestBuy b xs := by
      simp [earliestBuy, not_lt.mpr hbx]
    rw [hstep]
    refine ih (List.pairwise_cons.mpr ⟨?_, (List.pairwise_cons.mp hx).2⟩)
    intro z hz
    exact hb z (List.mem_cons_of_mem x hz)

/-- On a time-sorted queue, a non-empty eligibility filter starts at the
queue's head. -/
theorem sorted_filter_le_head {q : List ParsedTrade} {s : ℚ} {b : ParsedTrade}
    {bs : List ParsedTrade}
    (hq : q.Pairwise (fun a c => a.block_time ≤ c.block_time))
    (h : q.filter (fun c => c.block_time ≤ s) = b :: bs) :
    ∃ t, q = b :: t := by
  cases q with
  | nil => simp at h
  | cons q0 qr =>
    rcases List.pairwise_cons.mp hq with ⟨h0, _⟩
    rw [List.filter_cons] at h
    by_cases hle : q0.block_time ≤ s
    · rw [if_pos (by simpa using hle)] at h
      exact ⟨qr, by rw [(List.cons_eq_cons.mp h).1.symm]⟩
    · rw [if_neg (by simpa using hle)] at h
      have hbmem : b ∈ qr.filter (fun c => decide (c.block_time ≤ s)) := by
        rw [h]; simp
      have hb2 : b.block_time ≤ s := by
        have := List.of_mem_filter hbmem
        simpa using this
      exact absurd (le_trans (h0 b (List.mem_of_mem_filter hbmem)) hb2) hle

/-- On a time-sorted queue the source's loop (filter head / drop queue head)
coincides with the spec's rule (earliest eligible / remove it). -/
theorem fifoMatch_eq_spec {sells : List ParsedTrade} :
    ∀ {queue : List ParsedTrade},
    queue.Pairwise (fun a c => a.block_time ≤ c.block_time) →
    fifoMatch queue sells = fifoMatchSpec queue sells := by
  induction sells with
  | nil => intro queue _; rfl
  | cons sell rest ih =>
    intro queue hq
    cases h : queue.filter (fun c => c.block_time ≤ sell.block_time) with
    | nil =>
      rw [show fifoMatch queue (sell :: rest) = fifoMatch queue rest by
            simp [fifoMatch, h],
          show fifoMatchSpec queue (sell :: rest) = fifoMatchSpec queue rest by
            simp [fifoMatchSpec, h]]
      exact ih hq
    | cons b bs =>
      obtain ⟨t, rfl⟩ := sorted_filter_le_head hq h
      have htail : t.Pairwise (fun a c => a.block_time ≤ c.block_time) :=
        (List.pairwise_cons.mp hq).2
      have hE : earliestBuy b bs = b := earliestBuy_of_pairwise (by
        rw [← h]; exact hq.filter _)
      rw [show fifoMatch (b :: t) (sell :: rest) =
            (sell, b) :: fifoMatch t rest by simp [fifoMatch, h],
          show fifoMatchSpec (b :: t) (sell :: rest) =
            (sell, earliestBuy b bs) :: fifoMatchSpec ((b :: t).erase (earliestBuy b bs)) rest by
            simp [fifoMatchSpec, h]]
      rw [hE, List.erase_cons_head]
      exact congrArg _ (ih htail)

/-- On a time-sorted queue the matched buys are exactly the first `k` queue
entries, where `k` is the number of matches: strict FIFO consumption, each
buy consumed at most once. -/
theorem fifoMatch_buys_take {sells : List ParsedTrade} :
    ∀ {queue : List ParsedTrade},
    queue.Pairwise (fun a c => a.block_time ≤ c.block_time) →
    (fifoMatch queue sells).map Prod.snd =
      queue.take (fifoMatch queue sells).length := by
  induction sells with
  | nil => intro queue _; rfl
  | cons sell rest ih =>
    intro queue hq
    cases h : queue.filter (fun c => c.block_time ≤ sell.block_time) with
    | nil =>
      rw [show fifoMatch queue (sell :: rest) = fifoMatch queue rest by
            simp [fifoMatch, h]]
      exact ih hq
    | cons b bs =>
      obtain ⟨t, rfl⟩ := sorted_filter_le_head hq h
      have htail : t.Pairwise (fun a c => a.block_time ≤ c.block_time) :=
        (List.pairwise_cons.mp hq).2
      rw [show fifoMatch (b :: t) (sell :: rest) =
            (sell, b) :: fifoMatch t rest by simp [fifoMatch, h]]
      simp only [List.map_cons, List.length_cons, List.take_succ_cons]
      exact congrArg _ (ih htail)

/-- The grouped buy queue of `compute_score_from_trades` is time-sorted. -/
theorem token_buys_pairwise (trades : List ParsedTrade) (tok : String) :
    (token_buys trades tok).Pairwise (fun a c => a.block_time ≤ c.block_time) :=
  (sortKey_pairwise (fun t => t.block_time) trades).filter _

/-- The grouped sell list of `compute_score_from_trades` is time-sorted. -/
theorem token_sells_pairwise (trades : List ParsedTrade) (tok : String) :
    (token_sells trades tok).Pairwise (fun a c => a.block_time ≤ c.block_time) :=
  (sortKey_pairwise (fun t => t.block_time) trades).filter _

/-! ## Claim theorems -/

/-- C3: For every trade history, the scorer's FIFO PnL matching processes
buys and sells in time order, consumes each buy in at most one sell match
(the matched buys are exactly the first `k` queue entries, one each), agrees
with the spec's earliest-not-yet-consumed-buy-at-or-before-the-sell rule,
and the reported total PnL equals the sum of the per-matched-sell PnL
values. -/
theorem fifo_pnl_matching_correct (s : Settings) (kf : List String)
    (addr : String) (f : Option String) (trades : List ParsedTrade) (tok : String) :
    (token_buys trades tok).Pairwise (fun a c => a.block_time ≤ c.block_time) ∧
    (token_sells trades tok).Pairwise (fun a c => a.block_time ≤ c.block_time) ∧
    (fifoMatch (token_buys trades tok) (token_sells trades tok)).map Prod.snd =
      (token_buys trades tok).take
        (fifoMatch (token_buys trades tok) (token_sells trades tok)).length ∧
    (∀ b, ((fifoMatch (token_buys trades tok) (token_sells trades tok)).map
        Prod.snd).count b ≤ (token_buys trades tok).count b) ∧
    fifoMatch (token_buys trades tok) (token_sells trades tok) =
      fifoMatchSpec (token_buys trades tok) (token_sells trades tok) ∧
    trade_pnls trades =
      (allMatches trades).map (fun m => m.1.amount_usd - m.2.amount_usd) ∧
    (compute_score_from_trades s kf addr trades f).1.total_pnl_usd =
      (trade_pnls trades).sum := by
  refine ⟨token_buys_pairwise trades tok, token_sells_pairwise trades tok, ?_, ?_, ?_, rfl, rfl⟩
  · exact fifoMatch_buys_take (token_buys_pairwise trades tok)
  · intro b
    rw [fifoMatch_buys_take (token_buys_pairwise trades tok)]
    exact (List.take_sublist _ _).count_le b
  · exact fifoMatch_eq_spec (token_buys_pairwise trades tok)

/-- C4: Whenever the bot analysis of a trade history says `is_bot`, the
recommended tier computed from that history is `exiled`, whatever the win
rate, PnL and matched-trade count come out to be. -/
theorem bot_implies_exiled (s : Settings) (kf : List String) (addr : String)
    (trades : List ParsedTrade) (f : Option String)
    (h : (analyse_wallet_for_bot s kf addr trades f).is_bot = true) :
    (compute_score_from_trades s kf addr trades f).1.recommended_tier = .exiled := by
  simp [compute_score_from_trades, h]

/-- Witness for C4 at a concrete bot-classified history. -/
theorem bot_implies_exiled_witness :
    (analyse_wallet_for_bot defaultSettings [] "W" botTrades none).is_bot = true ∧
    (compute_score_from_trades defaultSettings [] "W" botTrades none).1.recommended_tier
      = .exiled :=
  ⟨by with_unfolding_all decide,
   bot_implies_exiled defaultSettings [] "W" botTrades none
     (by with_unfolding_all decide)⟩

/-- C9: On an empty trade history the bot-signal engine returns the neutral
score 1/2 with the `no_data` signal and does not classify the wallet as a
bot, whatever the configured threshold (and blocklist/funder). -/
theorem empty_history_neutral (s : Settings) (kf : List String) (addr : String)
    (f : Option String) :
    (analyse_wallet_for_bot s kf addr [] f).bot_score = 1/2 ∧
    ("no_data", (1/2 : ℚ)) ∈ (analyse_wallet_for_bot s kf addr [] f).signals ∧
    (analyse_wallet_for_bot s kf addr [] f).is_bot = false := by
  refine ⟨rfl, ?_, rfl⟩
  simp [analyse_wallet_for_bot]

/-- C1 counterexample: in the scoring step for a candidate wallet whose
history is bot-classified the tier changes (to exiled) and an exile
notification is attempted, yet it is *not* true that the events before the
first database write are free of notifications — the exile alert precedes
`persist_score` — so "persisted before any notification is attempted" is
false on this input. -/
theorem persist_before_notify_cex :
    (compute_score_from_trades defaultSettings [] wCand.address botTrades
        none).1.recommended_tier ≠ wCand.tier ∧
    ((beforeFirstPersist (scoring_step_events defaultSettings [] wCand botTrades)).all
      (fun e => !e.isAlertMsg)) = false := by
  with_unfolding_all decide

/-- C1 (amended): in the scoring step the order is the reverse of the
claimed one — every event before the final `persist_score` write is a
notification, i.e. the tier-change/exile notifications are attempted first
and the new score and tier are persisted only afterwards. -/
theorem notify_precedes_persist (s : Settings) (kf : List String)
    (w : WalletRow) (trades : List ParsedTrade) (h : trades ≠ []) :
    ∃ ms, scoring_step_events s kf w trades =
        ms ++ [.persist_score w.address
          (compute_score_from_trades s kf w.address trades none).1] ∧
      ∀ e ∈ ms, e.isAlertMsg = true := by
  unfold scoring_step_events
  rw [if_neg h]
  refine ⟨_, rfl, ?_⟩
  intro e he
  rcases List.mem_ite_nil_right.mp he with ⟨_, he⟩
  rcases List.mem_append.mp he with he | he
  · unfold send_tier_change_alert at he
    rcases List.mem_ite_nil_right.mp he with ⟨_, he⟩
    rw [List.mem_singleton.mp he]
    rfl
  · rcases List.mem_ite_nil_right.mp he with ⟨_, he⟩
    rw [List.mem_singleton.mp he]
    rfl

/-- Witness for the amended C1 at a concrete changed wallet. -/
theorem notify_precedes_persist_witness :
    ∃ ms, scoring_step_events defaultSettings [] wCand botTrades =
        ms ++ [.persist_score wCand.address
          (compute_score_from_trades defaultSettings [] wCand.address botTrades none).1] ∧
      ∀ e ∈ ms, e.isAlertMsg = true :=
  notify_precedes_persist defaultSettings [] wCand botTrades (by decide)

/-- C5 counterexample: a candidate wallet newly classified as a bot changes
tier (candidate → exiled), but no tier-change message reaches the alerting
collaborator — `send_tier_change_alert` delivers only for new tiers
`tier1`/`tier2` — refuting "notified of the tier change for every kind of
tier change". -/
theorem tier_change_alert_cex :
    (compute_score_from_trades defaultSettings [] wCand.address botTrades
        none).1.recommended_tier ≠ wCand.tier ∧
    ((scoring_step_events defaultSettings [] wCand botTrades).any
      (fun e => e.isTierChangeMsg)) = false := by
  with_unfolding_all decide

/-- C5 (amended): in the scoring step, a tier-change message is delivered
exactly when the tier changed *and* the new tier is tier1 or tier2; an exile
message is delivered exactly when the tier changed and the new tier is
exiled; and an unchanged tier produces no notification at all. -/
theorem scoring_step_alert_characterization (s : Settings) (kf : List String)
    (w : WalletRow) (trades : List ParsedTrade) (h : trades ≠ []) :
    ((scoring_step_events s kf w trades).any (fun e => e.isTierChangeMsg) =
      (decide ((compute_score_from_trades s kf w.address trades none).1.recommended_tier
          ≠ w.tier) &&
       (decide ((compute_score_from_trades s kf w.address trades none).1.recommended_tier
          = .tier1) ||
        decide ((compute_score_from_trades s kf w.address trades none).1.recommended_tier
          = .tier2)))) ∧
    ((scoring_step_events s kf w trades).any (fun e => e.isExileMsg) =
      (decide ((compute_score_from_trades s kf w.address trades none).1.recommended_tier
          ≠ w.tier) &&
       decide ((compute_score_from_trades s kf w.address trades none).1.recommended_tier
          = .exiled))) ∧
    ((compute_score_from_trades s kf w.address trades none).1.recommended_tier = w.tier →
      (scoring_step_events s kf w trades).all (fun e => !e.isAlertMsg) = true) := by
  unfold scoring_step_events send_tier_change_alert
  rw [if_neg h]
  generalize compute_score_from_trades s kf w.address trades none = sb
  obtain ⟨score, ba⟩ := sb
  by_cases hch : score.recommended_tier = w.tier
  · simp [hch, ScoringEvent.isAlertMsg, ScoringEvent.isTierChangeMsg,
      ScoringEvent.isExileMsg]
  · by_cases h1 : score.recommended_tier = .tier1
    · rw [h1] at hch
      simp [h1, hch, ScoringEvent.isAlertMsg, ScoringEvent.isTierChangeMsg,
        ScoringEvent.isExileMsg]
    · by_cases h2 : score.recommended_tier = .tier2
      · rw [h2] at hch
        simp [h1, h2, hch, ScoringEvent.isAlertMsg, ScoringEvent.isTierChangeMsg,
          ScoringEvent.isExileMsg]
      · by_cases hx : score.recommended_tier = .exiled
        · rw [hx] at hch
          simp [h1, h2, hx, hch, ScoringEvent.isAlertMsg, ScoringEvent.isTierChangeMsg,
            ScoringEvent.isExileMsg]
        · simp [h1, h2, hx, hch, ScoringEvent.isAlertMsg, ScoringEvent.isTierChangeMsg,
            ScoringEvent.isExileMsg]

/-- Witness for the amended C5 at a concrete changed wallet. -/
theorem scoring_step_alert_characterization_witness :
    ((scoring_step_events defaultSettings [] wCand botTrades).any
        (fun e => e.isExileMsg) =
      (decide ((compute_score_from_trades defaultSettings [] wCand.address botTrades
          none).1.recommended_tier ≠ wCand.tier) &&
       decide ((compute_score_from_trades defaultSettings [] wCand.address botTrades
          none).1.recommended_tier = .exiled))) :=
  (scoring_step_alert_characterization defaultSettings [] wCand botTrades
    (by decide)).2.1

/-- C2: inserting the same co-trading edge twice.  `wallet_edges` has no
unique constraint on (source, target, token) — only the non-unique index
`ix_edges_source_target` — so `ON CONFLICT DO NOTHING` never fires: the
second `record_edge` call inserts a *second* row, each row keeping
`co_occurrences = 1`; the pair's count is never incremented to 2. -/
theorem record_edge_twice_duplicates_row :
    (record_edge (record_edge [] "A" "B" "TOK" 0) "A" "B" "TOK" 0).length = 2 ∧
    (∀ r ∈ record_edge (record_edge [] "A" "B" "TOK" 0) "A" "B" "TOK" 0,
      r.source_address = "A" ∧ r.target_address = "B" ∧ r.shared_token = "TOK" ∧
      r.co_occurrences = 1) ∧
    ¬ ∃ r, record_edge (record_edge [] "A" "B" "TOK" 0) "A" "B" "TOK" 0 = [r] ∧
      r.co_occurrences = 2 := by
  refine ⟨rfl, by decide, ?_⟩
  rintro ⟨r, hr, -⟩
  have h2 := congrArg List.length hr
  simp [record_edge] at h2

/-- C8 counterexample: an archived wallet that appears in a detected cluster
(the cluster map computed by `detect_bot_clusters` itself, on co-trading
data involving it) is moved to `exiled` by the cluster-exile update — so it
does *not* stay `archived` under every loop step. -/
theorem archived_wallet_exiled_cex :
    wArch.tier = .archived ∧
    (detect_bot_clusters mapA 5 3).lookup wArch.address ≠ none ∧
    (cluster_exile_step (detect_bot_clusters mapA 5 3) [wArch]).map
      (fun w => w.tier) = [.exiled] := by
  with_unfolding_all decide

/-- C8 (amended): the scoring loop never selects exiled or archived wallets;
the health/prune loop archives only tier2/candidate wallets and touches
nothing else; cluster detection only ever sets tiers to `exiled`; hence an
exiled wallet stays exiled under every loop step, and an archived wallet is
immutable for selection and pruning — but the cluster-exile update moves an
archived wallet appearing in the detected cluster map to `exiled` (it checks
no tier), the one exception to tier terminality. -/
theorem terminal_tiers_amended (s : Settings) (now : ℚ) (db : List WalletRow)
    (lim : Nat) (w : WalletRow) (clusters : List (String × String)) :
    (∀ v ∈ get_wallets_due_for_rescore db now lim,
      v.tier ≠ .exiled ∧ v.tier ≠ .archived) ∧
    ((prune_wallet s now w).tier = w.tier ∨
      ((prune_wallet s now w).tier = .archived ∧
        (w.tier = .tier2 ∨ w.tier = .candidate))) ∧
    (w.tier = .exiled → prune_wallet s now w = w) ∧
    (w.tier = .archived → prune_wallet s now w = w) ∧
    ((cluster_exile_wallet clusters w).tier = w.tier ∨
      (cluster_exile_wallet clusters w).tier = .exiled) ∧
    (w.tier = .exiled → (cluster_exile_wallet clusters w).tier = .exiled) ∧
    (w.tier = .archived → clusters.lookup w.address = none →
      cluster_exile_wallet clusters w = w) := by
  refine ⟨?_, ?_, ?_, ?_, ?_, ?_, ?_⟩
  · intro v hv
    have hv2 : v ∈ db.filter (due_for_rescore now) := by
      have hmem := List.mem_of_mem_take hv
      exact ((sortKey_perm _ _).mem_iff).mp hmem
    have hdue : due_for_rescore now v = true := List.of_mem_filter hv2
    unfold due_for_rescore at hdue
    rw [Bool.and_assoc, Bool.and_eq_true, Bool.and_eq_true] at hdue
    exact ⟨by simpa using hdue.1, by simpa using hdue.2.1⟩
  · unfold prune_wallet
    by_cases hc : w.last_active < now - (s.prune_inactive_days : ℚ) * 86400 ∧
        (w.tier = .tier2 ∨ w.tier = .candidate)
    · right
      simp [hc, hc.2]
    · left
      simp [hc]
  · intro hw
    unfold prune_wallet
    rw [if_neg]
    rintro ⟨-, h2 | h2⟩ <;> rw [hw] at h2 <;> exact WalletTier.noConfusion h2
  · intro hw
    unfold prune_wallet
    rw [if_neg]
    rintro ⟨-, h2 | h2⟩ <;> rw [hw] at h2 <;> exact WalletTier.noConfusion h2
  · unfold cluster_exile_wallet
    by_cases hc : (clusters.lookup w.address).isSome <;> simp [hc]
  · intro hw
    unfold cluster_exile_wallet
    by_cases hc : (clusters.lookup w.address).isSome <;> simp [hc, hw]
  · intro _ hl
    unfold cluster_exile_wallet
    simp [hl]

/-- Witness for the amended C8, instantiated at the archived fixture wallet
with an empty cluster map (discharging the archived-preservation
hypotheses). -/
theorem terminal_tiers_amended_witness :
    wArch.tier = .archived ∧ prune_wallet defaultSettings 0 wArch = wArch ∧
    cluster_exile_wallet [] wArch = wArch :=
  ⟨rfl,
   (terminal_tiers_amended defaultSettings 0 [] 0 wArch []).2.2.2.1 rfl,
   (terminal_tiers_amended defaultSettings 0 [] 0 wArch []).2.2.2.2.2.2 rfl rfl⟩

/-- C10: in the live handler the eligibility conditions gate only the
`is_copy_eligible` flag, not delivery: whether an alert is sent does not
depend on the settings thresholds at all, it is exactly "the event names a
wallet, the wallet is known and not exiled, and the trade parses"; and the
flag carried inside the alert is precisely the tier1/buy/win-rate/bot-score
conjunction. -/
theorem live_alert_not_gated_by_eligibility (s sp : Settings)
    (db : List WalletRow) (acc : List AccountData)
    (parse : String → Option ParsedTrade) :
    ((handle_live_transaction s db acc parse).isSome =
      (handle_live_transaction sp db acc parse).isSome) ∧
    ((handle_live_transaction s db acc parse).isSome =
      live_alert_expected db acc parse) ∧
    ((handle_live_transaction s db acc parse).map (fun a => a.is_copy_eligible) =
      (handle_live_transaction s db acc parse).map (fun a =>
        a.wallet.tier = .tier1 && a.trade.side == "buy" &&
          s.min_win_rate ≤ a.wallet.win_rate &&
          !(s.bot_score_threshold ≤ a.wallet.bot_score))) := by
  unfold handle_live_transaction live_alert_expected
  cases hfind : (acc.find? (fun a => a.nativeBalanceChange ≠ 0)).map
      (fun a => a.account) with
  | none => simp
  | some addr =>
    by_cases haddr : addr = ""
    · simp [haddr]
    · simp only [haddr, if_false, if_neg haddr]
      cases hw : db.find? (fun w => w.address == addr) with
      | none => simp [haddr]
      | some wallet =>
        by_cases hex : wallet.tier = .exiled
        · simp [haddr, hex]
        · cases hp : parse addr with
          | none => simp [haddr, hex]
          | some trade => simp [haddr, hex]

/-! ## Lemmas for C6: the normalizer cannot raise on well-shaped events -/

theorem ok_bind {α β : Type} (v : α) (f : α → Except PyErr β) :
    (Except.ok v >>= f) = f v := rfl

theorem jget_obj (kvs : List (String × Json)) (k : String) (d : Json) :
    jget (.obj kvs) k d = .ok ((kvs.lookup k).getD d) := rfl

/-- A left-to-right filter over elements whose test succeeds returns a
sublist's worth of elements of the input. -/
theorem filterLtr_ok {p : Json → Except PyErr Bool} {l : List Json}
    (h : ∀ x ∈ l, ∃ b, p x = .ok b) :
    ∃ r, filterLtr p l = .ok r ∧ ∀ x ∈ r, x ∈ l := by
  induction l with
  | nil => exact ⟨[], rfl, by simp⟩
  | cons x xs ih =>
    obtain ⟨b, hb⟩ := h x (by simp)
    obtain ⟨r, hr, hsub⟩ := ih (fun y hy => h y (by simp [hy]))
    refine ⟨if b then x :: r else r, ?_, ?_⟩
    · unfold filterLtr
      rw [hb, ok_bind, hr, ok_bind]
      rfl
    · intro y hy
      cases b with
      | true =>
        rcases List.mem_cons.mp (by simpa using hy) with rfl | hy2
        · simp
        · exact List.mem_cons_of_mem x (hsub y hy2)
      | false => exact List.mem_cons_of_mem x (hsub y (by simpa using hy))

/-- A left-to-right map whose steps succeed with values satisfying `Q`. -/
theorem mapLtr_ok {f : Json → Except PyErr Json} {l : List Json}
    {Q : Json → Prop} (h : ∀ x ∈ l, ∃ v, f x = .ok v ∧ Q v) :
    ∃ r, mapLtr f l = .ok r ∧ ∀ v ∈ r, Q v := by
  induction l with
  | nil => exact ⟨[], rfl, by simp⟩
  | cons x xs ih =>
    obtain ⟨v, hv, hQ⟩ := h x (by simp)
    obtain ⟨r, hr, hQs⟩ := ih (fun y hy => h y (by simp [hy]))
    refine ⟨v :: r, ?_, ?_⟩
    · unfold mapLtr
      rw [hv, ok_bind, hr, ok_bind]
      rfl
    · intro z hz
      rcases List.mem_cons.mp hz with rfl | hz
      · exact hQ
      · exact hQs z hz

/-- A well-shaped transfer is an object whose `mint` read is a string. -/
theorem wellShapedTransfer_elim {t : Json} (h : wellShapedTransfer t = true) :
    ∃ kvs, t = .obj kvs ∧ ∃ s, (kvs.lookup "mint").getD (.str "") = .str s := by
  cases t with
  | obj kvs =>
    refine ⟨kvs, rfl, ?_⟩
    have h2 : (match kvs.lookup "mint" with
        | none => true
        | some (.str _) => true
        | some _ => false) = true := h
    cases hl : kvs.lookup "mint" with
    | none => exact ⟨"", rfl⟩
    | some v =>
      rw [hl] at h2
      cases v with
      | str s => exact ⟨s, rfl⟩
      | null => simp at h2
      | bool b => simp at h2
      | num q => simp at h2
      | arr xs => simp at h2
      | obj o => simp at h2
  | null => simp [wellShapedTransfer] at h
  | bool b => simp [wellShapedTransfer] at h
  | num q => simp [wellShapedTransfer] at h
  | str s => simp [wellShapedTransfer] at h
  | arr xs => simp [wellShapedTransfer] at h

/-- The timestamp/`utcfromtimestamp` step succeeds on a well-shaped
timestamp value: an in-range number, a boolean, or anything falsy (the
`utcnow()` branch). -/
theorem blockTime_ok {v : Json} (now : ℚ)
    (h : (∃ q, v = .num q ∧ tsInRange q = true) ∨ (∃ b, v = .bool b) ∨
      truthy v = false) :
    ∃ q, blockTimeOf v now = .ok q := by
  unfold blockTimeOf
  rcases h with ⟨q, rfl, hr⟩ | ⟨b, rfl⟩ | hf
  · by_cases ht : truthy (.num q)
    · refine ⟨q, ?_⟩
      rw [if_pos ht]
      rw [show pyToNum (.num q) = .ok q from rfl, ok_bind, if_pos hr]
      rfl
    · exact ⟨now, by rw [if_neg ht]; rfl⟩
  · by_cases ht : truthy (.bool b)
    · have hb : b = true := by
        cases b
        · simp [truthy] at ht
        · rfl
      subst hb
      refine ⟨1, ?_⟩
      rw [if_pos ht]
      rw [show pyToNum (.bool true) = .ok 1 from rfl, ok_bind,
        if_pos (show tsInRange 1 = true by with_unfolding_all decide)]
      rfl
    · exact ⟨now, by rw [if_neg ht]; rfl⟩
  · exact ⟨now, by rw [if_neg (by simp [hf])]; rfl⟩

/-- The native-balance scan succeeds over well-shaped account entries and
yields a numeric-or-boolean value. -/
theorem findNativeChange_ok {w : String} {l : List Json}
    (h : ∀ a ∈ l, wellShapedAcc a = true) :
    ∃ v, findNativeChange w l = .ok v ∧ ∃ q, pyToNum v = .ok q := by
  induction l with
  | nil => exact ⟨.num 0, rfl, 0, rfl⟩
  | cons a rest ih =>
    have ha := h a (by simp)
    obtain ⟨kvs, rfl⟩ : ∃ kvs, a = .obj kvs := by
      cases a with
      | obj kvs => exact ⟨kvs, rfl⟩
      | null => simp [wellShapedAcc] at ha
      | bool b => simp [wellShapedAcc] at ha
      | num q => simp [wellShapedAcc] at ha
      | str s => simp [wellShapedAcc] at ha
      | arr xs => simp [wellShapedAcc] at ha
    unfold findNativeChange
    rw [jget_obj, ok_bind]
    by_cases hacc : jsonEqStr ((kvs.lookup "account").getD .null) w
    · rw [if_pos hacc, jget_obj]
      have ha2 : (match kvs.lookup "nativeBalanceChange" with
          | none => true
          | some (.num _) => true
          | some (.bool _) => true
          | some _ => false) = true := ha
      cases hl : kvs.lookup "nativeBalanceChange" with
      | none => exact ⟨.num 0, rfl, 0, rfl⟩
      | some v =>
        rw [hl] at ha2
        cases v with
        | num q => exact ⟨.num q, rfl, q, rfl⟩
        | bool b => exact ⟨.bool b, rfl, if b then 1 else 0, rfl⟩
        | null => simp at ha2
        | str s => simp at ha2
        | arr xs => simp at ha2
        | obj o => simp at ha2
    · rw [if_neg hacc]
      exact ih (fun y hy => h y (by simp [hy]))

/-- The `next(..., {})` scan succeeds over objects and returns an object. -/
theorem findByMint_ok {m : Json} {l : List Json}
    (h : ∀ t ∈ l, ∃ kvs, t = .obj kvs) :
    ∃ kvs, findByMint m l = .ok (.obj kvs) := by
  induction l with
  | nil => exact ⟨[], rfl⟩
  | cons t rest ih =>
    obtain ⟨kvs, rfl⟩ := h t (by simp)
    unfold findByMint
    rw [jget_obj, ok_bind]
    by_cases hpe : pyEq ((kvs.lookup "mint").getD .null) m
    · rw [if_pos hpe]
      exact ⟨kvs, rfl⟩
    · rw [if_neg hpe]
      exact ih (fun y hy => h y (by simp [hy]))

/-- The stable-coin fallback loop succeeds over objects. -/
theorem stableFallback_ok {l : List Json} (acc : ℚ)
    (h : ∀ t ∈ l, ∃ kvs, t = .obj kvs) :
    ∃ q, stableFallback acc l = .ok q := by
  induction l generalizing acc with
  | nil => exact ⟨acc, rfl⟩
  | cons t rest ih =>
    obtain ⟨kvs, rfl⟩ := h t (by simp)
    unfold stableFallback
    rw [jget_obj, ok_bind]
    by_cases hm : (jsonEqStr ((kvs.lookup "mint").getD .null) USDC_MINT ||
        jsonEqStr ((kvs.lookup "mint").getD .null) USDT_MINT : Bool)
    · rw [if_pos hm, jget_obj, ok_bind]
      exact ih _ (fun y hy => h y (by simp [hy]))
    · rw [if_neg hm]
      exact ih acc (fun y hy => h y (by simp [hy]))

/-- The zero-fallback step succeeds over objects. -/
theorem fallbackIfZero_ok {l : List Json} (x : ℚ)
    (h : ∀ t ∈ l, ∃ kvs, t = .obj kvs) :
    ∃ q, fallbackIfZero x l = .ok q := by
  unfold fallbackIfZero
  by_cases hx : x = 0
  · rw [if_pos hx]
    exact stableFallback_ok x h
  · rw [if_neg hx]
    exact ⟨x, rfl⟩

/-- A well-shaped swap-token entry destructured. -/
theorem wellShapedTokenEntry_elim {t : Json} (h : wellShapedTokenEntry t = true) :
    ∃ kvs, t = .obj kvs ∧ (∃ s, (kvs.lookup "mint").getD (.str "") = .str s) ∧
      ∃ rkvs, (kvs.lookup "rawTokenAmount").getD (.obj []) = .obj rkvs := by
  cases t with
  | obj kvs =>
    refine ⟨kvs, rfl, ?_, ?_⟩
    · have h2 : ((match kvs.lookup "mint" with
          | none => true
          | some (.str _) => true
          | some _ => false) &&
          (match kvs.lookup "rawTokenAmount" with
          | none => true
          | some (.obj _) => true
          | some _ => false)) = true := h
      have h3 := (Bool.and_eq_true _ _).mp h2 |>.1
      cases hl : kvs.lookup "mint" with
      | none => exact ⟨"", rfl⟩
      | some v =>
        rw [hl] at h3
        cases v with
        | str s => exact ⟨s, rfl⟩
        | null => simp at h3
        | bool b => simp at h3
        | num q => simp at h3
        | arr xs => simp at h3
        | obj o => simp at h3
    · have h2 : ((match kvs.lookup "mint" with
          | none => true
          | some (.str _) => true
          | some _ => false) &&
          (match kvs.lookup "rawTokenAmount" with
          | none => true
          | some (.obj _) => true
          | some _ => false)) = true := h
      have h3 := (Bool.and_eq_true _ _).mp h2 |>.2
      cases hl : kvs.lookup "rawTokenAmount" with
      | none => exact ⟨[], rfl⟩
      | some v =>
        rw [hl] at h3
        cases v with
        | obj o => exact ⟨o, rfl⟩
        | null => simp at h3
        | bool b => simp at h3
        | num q => simp at h3
        | str s => simp at h3
        | arr xs => simp at h3
  | null => simp [wellShapedTokenEntry] at h
  | bool b => simp [wellShapedTokenEntry] at h
  | num q => simp [wellShapedTokenEntry] at h
  | str s => simp [wellShapedTokenEntry] at h
  | arr xs => simp [wellShapedTokenEntry] at h

/-- `parse_via_token_transfers` cannot raise on a well-shaped event
(pieces of `wellShapedTxn` as explicit hypotheses). -/
theorem parse_token_transfers_ok {kvs : List (String × Json)} (w : String) (now : ℚ)
    (hts : (∃ q, (kvs.lookup "timestamp").getD (.num 0) = .num q ∧
        tsInRange q = true) ∨
      (∃ b, (kvs.lookup "timestamp").getD (.num 0) = .bool b) ∨
      truthy ((kvs.lookup "timestamp").getD (.num 0)) = false)
    (htr : truthy ((kvs.lookup "tokenTransfers").getD (.arr [])) = false ∨
      (∃ ts, (kvs.lookup "tokenTransfers").getD (.arr []) = .arr ts ∧
        ∀ t ∈ ts, wellShapedTransfer t = true))
    (hacc : ∃ as, (kvs.lookup "accountData").getD (.arr []) = .arr as ∧
      ∀ a ∈ as, wellShapedAcc a = true) :
    (parse_via_token_transfers (.obj kvs) w now).isOk = true := by
  unfold parse_via_token_transfers
  obtain ⟨bt, hbt⟩ := blockTime_ok now hts
  simp only [jget_obj, ok_bind, hbt]
  rcases htr with hfal | ⟨ts, hts2, hws⟩
  · rw [if_pos (by simp [hfal])]
    rfl
  · rw [hts2]
    by_cases htv : truthy (.arr ts)
    case neg => rw [if_pos (by simp [htv])]; rfl
    case pos =>
    rw [if_neg (by simp [htv])]
    have hobj : ∀ t ∈ ts, ∃ k2, t = .obj k2 := fun t ht =>
      ⟨(wellShapedTransfer_elim (hws t ht)).choose,
        (wellShapedTransfer_elim (hws t ht)).choose_spec.1⟩
    have hit : jiter (.arr ts) = .ok ts := rfl
    rw [hit]
    simp only [ok_bind]
    obtain ⟨sent, hsent, hsentsub⟩ := filterLtr_ok
      (p := fun t => do
        let v ← jget t "fromUserAccount" .null
        pure (jsonEqStr v w))
      (fun t ht => by obtain ⟨k2, rfl⟩ := hobj t ht; exact ⟨_, rfl⟩)
    rw [hsent]
    simp only [ok_bind]
    obtain ⟨received, hrecv, hrecvsub⟩ := filterLtr_ok
      (p := fun t => do
        let v ← jget t "toUserAccount" .null
        pure (jsonEqStr v w))
      (fun t ht => by obtain ⟨k2, rfl⟩ := hobj t ht; exact ⟨_, rfl⟩)
    rw [hrecv]
    simp only [ok_bind]
    by_cases hemp : (sent.isEmpty && received.isEmpty : Bool)
    · rw [if_pos hemp]; rfl
    · rw [if_neg hemp]
      have hmintQ : ∀ l : List Json, (∀ t ∈ l, t ∈ ts) →
          ∀ t ∈ l, ∃ v, jget t "mint" (.str "") = .ok v ∧ ∃ s, v = .str s := by
        intro l hsub t ht
        obtain ⟨k2, hk2, s, hs⟩ := wellShapedTransfer_elim (hws t (hsub t ht))
        subst hk2
        exact ⟨_, rfl, s, hs⟩
      obtain ⟨sent_mints, hsm, hsmQ⟩ := mapLtr_ok (hmintQ sent hsentsub)
      rw [hsm]
      simp only [ok_bind]
      obtain ⟨received_mints, hrm, hrmQ⟩ := mapLtr_ok (hmintQ received hrecvsub)
      rw [hrm]
      simp only [ok_bind]
      obtain ⟨as, has, haw⟩ := hacc
      rw [has]
      have hit2 : jiter (.arr as) = .ok as := rfl
      rw [hit2]
      simp only [ok_bind]
      obtain ⟨nc, hnc, ncq, hncq⟩ := findNativeChange_ok haw
      rw [hnc]
      simp only [ok_bind]
      have hrsub : ∀ t ∈ received, ∃ k2, t = .obj k2 :=
        fun t ht => hobj t (hrecvsub t ht)
      have hssub : ∀ t ∈ sent, ∃ k2, t = .obj k2 :=
        fun t ht => hobj t (hsentsub t ht)
      cases hrf : received_mints.filter (fun m => !is_base m) with
      | cons token_mint restr =>
        -- BUY branch
        dsimp only
        have hQm : ∃ s, token_mint = .str s := by
          have : token_mint ∈ received_mints.filter (fun m => !is_base m) := by
            rw [hrf]; simp
          exact hrmQ token_mint (List.mem_of_mem_filter this)
        obtain ⟨sm, rfl⟩ := hQm
        obtain ⟨k3, hk3⟩ := findByMint_ok (m := .str sm) hrsub
        rw [hk3]
        simp only [ok_bind]
        have hsl : pySlice8 (.str sm) = .ok (.str (String.mk (sm.data.take 8))) := rfl
        rw [hsl]
        simp only [ok_bind, jget_obj]
        rw [hncq]
        simp only [ok_bind]
        obtain ⟨fq, hfq⟩ := fallbackIfZero_ok _ hssub
        rw [hfq]
        rfl
      | nil =>
        dsimp only
        cases hsf : sent_mints.filter (fun m => !is_base m) with
        | cons token_mint rests =>
          -- SELL branch
          dsimp only
          have hQm : ∃ s, token_mint = .str s := by
            have : token_mint ∈ sent_mints.filter (fun m => !is_base m) := by
              rw [hsf]; simp
            exact hsmQ token_mint (List.mem_of_mem_filter this)
          obtain ⟨sm, rfl⟩ := hQm
          obtain ⟨k3, hk3⟩ := findByMint_ok (m := .str sm) hssub
          rw [hk3]
          simp only [ok_bind]
          have hsl : pySlice8 (.str sm) = .ok (.str (String.mk (sm.data.take 8))) := rfl
          rw [hsl]
          simp only [ok_bind, jget_obj]
          rw [hncq]
          simp only [ok_bind]
          obtain ⟨fq, hfq⟩ := fallbackIfZero_ok _ hrsub
          rw [hfq]
          rfl
        | nil => rfl

/-- `xs[0]` on a truthy list succeeds with a member. -/
theorem pyIndex0_arr_ok {ts : List Json} (h : truthy (.arr ts) = true) :
    ∃ t0, pyIndex0 (.arr ts) = .ok t0 ∧ t0 ∈ ts := by
  cases ts with
  | nil => simp [truthy] at h
  | cons t0 rest => exact ⟨t0, rfl, by simp⟩

/-- The `or {}` step yields an object when the raw value is well-shaped. -/
theorem orEmpty_obj {v : Json}
    (h : truthy v = false ∨ ∃ nk, v = .obj nk) :
    ∃ nk, (if truthy v then v else .obj []) = .obj nk := by
  by_cases ht : truthy v
  · rcases h with hf | ⟨nk, rfl⟩
    · rw [hf] at ht; exact absurd ht (by simp)
    · exact ⟨nk, by rw [if_pos ht]⟩
  · exact ⟨[], by rw [if_neg ht]⟩

/-- `parse_via_swap_event` cannot raise on a well-shaped event (pieces of
`wellShapedTxn` as explicit hypotheses). -/
theorem parse_swap_event_ok {kvs : List (String × Json)} (w : String) (now : ℚ)
    (hts : (∃ q, (kvs.lookup "timestamp").getD (.num 0) = .num q ∧
        tsInRange q = true) ∨
      (∃ b, (kvs.lookup "timestamp").getD (.num 0) = .bool b) ∨
      truthy ((kvs.lookup "timestamp").getD (.num 0)) = false)
    (hev : ∃ evs, (kvs.lookup "events").getD (.obj []) = .obj evs ∧
      (truthy ((evs.lookup "swap").getD (.obj [])) = false ∨
        ∃ skvs, (evs.lookup "swap").getD (.obj []) = .obj skvs ∧
          (truthy ((skvs.lookup "nativeInput").getD .null) = false ∨
            ∃ nk, (skvs.lookup "nativeInput").getD .null = .obj nk) ∧
          (truthy ((skvs.lookup "nativeOutput").getD .null) = false ∨
            ∃ nk, (skvs.lookup "nativeOutput").getD .null = .obj nk) ∧
          (truthy ((skvs.lookup "tokenInputs").getD (.arr [])) = false ∨
            ∃ tsi, (skvs.lookup "tokenInputs").getD (.arr []) = .arr tsi ∧
              ∀ t ∈ tsi, wellShapedTokenEntry t = true) ∧
          (truthy ((skvs.lookup "tokenOutputs").getD (.arr [])) = false ∨
            ∃ tso, (skvs.lookup "tokenOutputs").getD (.arr []) = .arr tso ∧
              ∀ t ∈ tso, wellShapedTokenEntry t = true))) :
    (parse_via_swap_event (.obj kvs) w now).isOk = true := by
  unfold parse_via_swap_event
  obtain ⟨bt, hbt⟩ := blockTime_ok now hts
  obtain ⟨evs, hevs, hsw⟩ := hev
  simp only [jget_obj, ok_bind, hbt, hevs]
  by_cases hswt : truthy ((evs.lookup "swap").getD (.obj []))
  case neg => rw [if_pos (by simp [hswt])]; rfl
  case pos =>
  rcases hsw with hfal | ⟨skvs, hskvs, hni, hno, hti, hto⟩
  · rw [hfal] at hswt
    exact absurd hswt (by simp)
  · rw [hskvs] at hswt ⊢
    rw [if_neg (by simp [hswt])]
    simp only [jget_obj, ok_bind]
    by_cases hb1 : truthy (if truthy ((skvs.lookup "nativeInput").getD .null)
        then (skvs.lookup "nativeInput").getD .null else .obj []) = true ∧
        truthy ((skvs.lookup "tokenOutputs").getD (.arr [])) = true
    · rw [if_pos hb1]
      obtain ⟨nk, hnk⟩ := orEmpty_obj hni
      rw [hnk]
      simp only [jget_obj, ok_bind]
      rcases hto with hfal2 | ⟨tso, htso, hwto⟩
      · rw [hfal2] at hb1
        exact absurd hb1.2 (by simp)
      · rw [htso] at hb1 ⊢
        obtain ⟨t0, ht0, ht0mem⟩ := pyIndex0_arr_ok hb1.2
        rw [ht0]
        simp only [ok_bind]
        obtain ⟨k3, hk3, ⟨sm, hsm⟩, ⟨rk, hrk⟩⟩ := wellShapedTokenEntry_elim (hwto t0 ht0mem)
        subst hk3
        simp only [jget_obj, ok_bind, hsm]
        have hsl : pySlice8 (.str sm) = .ok (.str (String.mk (sm.data.take 8))) := rfl
        rw [hsl]
        simp only [ok_bind, jget_obj, hrk]
        rfl
    · rw [if_neg hb1]
      by_cases hb2 : truthy ((skvs.lookup "tokenInputs").getD (.arr [])) = true ∧
          truthy (if truthy ((skvs.lookup "nativeOutput").getD .null)
            then (skvs.lookup "nativeOutput").getD .null else .obj []) = true
      · rw [if_pos hb2]
        obtain ⟨nk, hnk⟩ := orEmpty_obj hno
        rw [hnk]
        simp only [jget_obj, ok_bind]
        rcases hti with hfal2 | ⟨tsi, htsi, hwti⟩
        · rw [hfal2] at hb2
          exact absurd hb2.1 (by simp)
        · rw [htsi] at hb2 ⊢
          obtain ⟨t0, ht0, ht0mem⟩ := pyIndex0_arr_ok hb2.1
          rw [ht0]
          simp only [ok_bind]
          obtain ⟨k3, hk3, ⟨sm, hsm⟩, ⟨rk, hrk⟩⟩ := wellShapedTokenEntry_elim (hwti t0 ht0mem)
          subst hk3
          simp only [jget_obj, ok_bind, hsm]
          have hsl : pySlice8 (.str sm) = .ok (.str (String.mk (sm.data.take 8))) := rfl
          rw [hsl]
          simp only [ok_bind, jget_obj, hrk]
          rfl
      · rw [if_neg hb2]
        by_cases hb3 : truthy ((skvs.lookup "tokenInputs").getD (.arr [])) = true ∧
            truthy ((skvs.lookup "tokenOutputs").getD (.arr [])) = true
        · rw [if_pos hb3]
          rcases hti with hfal2 | ⟨tsi, htsi, hwti⟩
          · rw [hfal2] at hb3
            exact absurd hb3.1 (by simp)
          rcases hto with hfal3 | ⟨tso, htso, hwto⟩
          · rw [hfal3] at hb3
            exact absurd hb3.2 (by simp)
          rw [htsi, htso] at hb3 ⊢
          obtain ⟨ti0, hti0, hti0mem⟩ := pyIndex0_arr_ok hb3.1
          obtain ⟨to0, hto0, hto0mem⟩ := pyIndex0_arr_ok hb3.2
          rw [hti0]
          simp only [ok_bind]
          rw [hto0]
          simp only [ok_bind]
          obtain ⟨ki, hki, ⟨smi, hsmi⟩, ⟨rki, hrki⟩⟩ := wellShapedTokenEntry_elim (hwti ti0 hti0mem)
          obtain ⟨ko, hko, ⟨smo, hsmo⟩, ⟨rko, hrko⟩⟩ := wellShapedTokenEntry_elim (hwto to0 hto0mem)
          subst hki
          subst hko
          simp only [jget_obj, ok_bind]
          by_cases hmint : (jsonEqStr ((ki.lookup "mint").getD (.str "")) USDC_MINT ||
              jsonEqStr ((ki.lookup "mint").getD (.str "")) USDT_MINT ||
              jsonEqStr ((ki.lookup "mint").getD (.str "")) SOL_MINT : Bool)
          · rw [if_pos hmint]
            simp only [hrki, jget_obj, ok_bind]
            rfl
          · rw [if_neg hmint]
            rfl
        · rw [if_neg hb3]
          rfl

/-- A well-shaped event destructured into the hypothesis bundles of the two
extractor lemmas. -/
theorem wellShapedTxn_elim {txn : Json} (h : wellShapedTxn txn = true) :
    ∃ kvs, txn = .obj kvs ∧
      ((∃ q, (kvs.lookup "timestamp").getD (.num 0) = .num q ∧
          tsInRange q = true) ∨
        (∃ b, (kvs.lookup "timestamp").getD (.num 0) = .bool b) ∨
        truthy ((kvs.lookup "timestamp").getD (.num 0)) = false) ∧
      (truthy ((kvs.lookup "tokenTransfers").getD (.arr [])) = false ∨
        (∃ ts, (kvs.lookup "tokenTransfers").getD (.arr []) = .arr ts ∧
          ∀ t ∈ ts, wellShapedTransfer t = true)) ∧
      (∃ as, (kvs.lookup "accountData").getD (.arr []) = .arr as ∧
        ∀ a ∈ as, wellShapedAcc a = true) ∧
      (∃ evs, (kvs.lookup "events").getD (.obj []) = .obj evs ∧
        (truthy ((evs.lookup "swap").getD (.obj [])) = false ∨
          ∃ skvs, (evs.lookup "swap").getD (.obj []) = .obj skvs ∧
            (truthy ((skvs.lookup "nativeInput").getD .null) = false ∨
              ∃ nk, (skvs.lookup "nativeInput").getD .null = .obj nk) ∧
            (truthy ((skvs.lookup "nativeOutput").getD .null) = false ∨
              ∃ nk, (skvs.lookup "nativeOutput").getD .null = .obj nk) ∧
            (truthy ((skvs.lookup "tokenInputs").getD (.arr [])) = false ∨
              ∃ tsi, (skvs.lookup "tokenInputs").getD (.arr []) = .arr tsi ∧
                ∀ t ∈ tsi, wellShapedTokenEntry t = true) ∧
            (truthy ((skvs.lookup "tokenOutputs").getD (.arr [])) = false ∨
              ∃ tso, (skvs.lookup "tokenOutputs").getD (.arr []) = .arr tso ∧
                ∀ t ∈ tso, wellShapedTokenEntry t = true))) := by
  cases txn with
  | obj kvs =>
    refine ⟨kvs, rfl, ?_, ?_, ?_, ?_⟩
    all_goals
      have h2 : ((match kvs.lookup "timestamp" with
          | none => true
          | some (.num q) => tsInRange q
          | some (.bool _) => true
          | some v => !truthy v) &&
        ((match kvs.lookup "tokenTransfers" with
          | none => true
          | some (.arr ts) => ts.all wellShapedTransfer
          | some v => !truthy v) &&
        ((match kvs.lookup "accountData" with
          | none => true
          | some (.arr as) => as.all wellShapedAcc
          | some _ => false) &&
        (match kvs.lookup "events" with
          | none => true
          | some (.obj evs) =>
            (match evs.lookup "swap" with
             | none => true
             | some (.obj skvs) => wellShapedSwap skvs
             | some v => !truthy v)
          | some _ => false)))) = true := by
        have h3 : wellShapedTxn (.obj kvs) = true := h
        unfold wellShapedTxn at h3
        simpa [Bool.and_assoc] using h3
    · have ht := ((Bool.and_eq_true _ _).mp h2).1
      cases hl : kvs.lookup "timestamp" with
      | none => exact Or.inr (Or.inr (by with_unfolding_all decide))
      | some v =>
        rw [hl] at ht
        cases v with
        | num q => exact Or.inl ⟨q, rfl, ht⟩
        | bool b => exact Or.inr (Or.inl ⟨b, rfl⟩)
        | null => exact Or.inr (Or.inr (by simpa using ht))
        | str s => exact Or.inr (Or.inr (by simpa using ht))
        | arr xs => exact Or.inr (Or.inr (by simpa using ht))
        | obj o => exact Or.inr (Or.inr (by simpa using ht))
    · have ht := ((Bool.and_eq_true _ _).mp (((Bool.and_eq_true _ _).mp h2).2)).1
      cases hl : kvs.lookup "tokenTransfers" with
      | none => exact Or.inr ⟨[], rfl, by simp⟩
      | some v =>
        rw [hl] at ht
        cases v with
        | arr ts =>
          refine Or.inr ⟨ts, rfl, ?_⟩
          intro t htm
          exact List.all_eq_true.mp ht t htm
        | null => exact Or.inl (by simpa using ht)
        | bool b => exact Or.inl (by simpa using ht)
        | num q => exact Or.inl (by simpa using ht)
        | str s => exact Or.inl (by simpa using ht)
        | obj o => exact Or.inl (by simpa using ht)
    · have ht := ((Bool.and_eq_true _ _).mp (((Bool.and_eq_true _ _).mp
        (((Bool.and_eq_true _ _).mp h2).2)).2)).1
      cases hl : kvs.lookup "accountData" with
      | none => exact ⟨[], rfl, by simp⟩
      | some v =>
        rw [hl] at ht
        cases v with
        | arr as => exact ⟨as, rfl, fun a ham => List.all_eq_true.mp ht a ham⟩
        | null => simp at ht
        | bool b => simp at ht
        | num q => simp at ht
        | str s => simp at ht
        | obj o => simp at ht
    · have ht := ((Bool.and_eq_true _ _).mp (((Bool.and_eq_true _ _).mp
        (((Bool.and_eq_true _ _).mp h2).2)).2)).2
      cases hl : kvs.lookup "events" with
      | none => exact ⟨[], rfl, Or.inl (by simp [truthy])⟩
      | some v =>
        rw [hl] at ht
        cases v with
        | obj evs =>
          refine ⟨evs, rfl, ?_⟩
          have ht2 : (match evs.lookup "swap" with
              | none => true
              | some (.obj skvs) => wellShapedSwap skvs
              | some v => !truthy v) = true := ht
          clear ht
          rename' ht2 => ht
          cases hl2 : evs.lookup "swap" with
          | none => exact Or.inl (by simp [truthy])
          | some sv =>
            rw [hl2] at ht
            cases sv with
            | obj skvs =>
              refine Or.inr ⟨skvs, rfl, ?_, ?_, ?_, ?_⟩
              all_goals
                have hs2 : ((match skvs.lookup "nativeInput" with
                    | none => true
                    | some (.obj _) => true
                    | some v => !truthy v) &&
                  ((match skvs.lookup "nativeOutput" with
                    | none => true
                    | some (.obj _) => true
                    | some v => !truthy v) &&
                  ((match skvs.lookup "tokenInputs" with
                    | none => true
                    | some (.arr ts) => ts.all wellShapedTokenEntry
                    | some v => !truthy v) &&
                  (match skvs.lookup "tokenOutputs" with
                    | none => true
                    | some (.arr ts) => ts.all wellShapedTokenEntry
                    | some v => !truthy v)))) = true := by
                  have h4 : wellShapedSwap skvs = true := ht
                  unfold wellShapedSwap at h4
                  simpa [Bool.and_assoc] using h4
              · have hni := ((Bool.and_eq_true _ _).mp hs2).1
                cases hl3 : skvs.lookup "nativeInput" with
                | none => exact Or.inl (by simp [truthy])
                | some nv =>
                  rw [hl3] at hni
                  cases nv with
                  | obj nk => exact Or.inr ⟨nk, rfl⟩
                  | null => exact Or.inl (by simpa using hni)
                  | bool b => exact Or.inl (by simpa using hni)
                  | num q => exact Or.inl (by simpa using hni)
                  | str s => exact Or.inl (by simpa using hni)
                  | arr xs => exact Or.inl (by simpa using hni)
              · have hno := ((Bool.and_eq_true _ _).mp
                  (((Bool.and_eq_true _ _).mp hs2).2)).1
                cases hl3 : skvs.lookup "nativeOutput" with
                | none => exact Or.inl (by simp [truthy])
                | some nv =>
                  rw [hl3] at hno
                  cases nv with
                  | obj nk => exact Or.inr ⟨nk, rfl⟩
                  | null => exact Or.inl (by simpa using hno)
                  | bool b => exact Or.inl (by simpa using hno)
                  | num q => exact Or.inl (by simpa using hno)
                  | str s => exact Or.inl (by simpa using hno)
                  | arr xs => exact Or.inl (by simpa using hno)
              · have hti := ((Bool.and_eq_true _ _).mp (((Bool.and_eq_true _ _).mp
                  (((Bool.and_eq_true _ _).mp hs2).2)).2)).1
                cases hl3 : skvs.lookup "tokenInputs" with
                | none => exact Or.inl (by simp [truthy])
                | some nv =>
                  rw [hl3] at hti
                  cases nv with
                  | arr tsi =>
                    exact Or.inr ⟨tsi, rfl, fun t htm => List.all_eq_true.mp hti t htm⟩
                  | null => exact Or.inl (by simpa using hti)
                  | bool b => exact Or.inl (by simpa using hti)
                  | num q => exact Or.inl (by simpa using hti)
                  | str s => exact Or.inl (by simpa using hti)
                  | obj o => exact Or.inl (by simpa using hti)
              · have hto := ((Bool.and_eq_true _ _).mp (((Bool.and_eq_true _ _).mp
                  (((Bool.and_eq_true _ _).mp hs2).2)).2)).2
                cases hl3 : skvs.lookup "tokenOutputs" with
                | none => exact Or.inl (by simp [truthy])
                | some nv =>
                  rw [hl3] at hto
                  cases nv with
                  | arr tso =>
                    exact Or.inr ⟨tso, rfl, fun t htm => List.all_eq_true.mp hto t htm⟩
                  | null => exact Or.inl (by simpa using hto)
                  | bool b => exact Or.inl (by simpa using hto)
                  | num q => exact Or.inl (by simpa using hto)
                  | str s => exact Or.inl (by simpa using hto)
                  | obj o => exact Or.inl (by simpa using hto)
            | null => exact Or.inl (by simpa using ht)
            | bool b => exact Or.inl (by simpa using ht)
            | num q => exact Or.inl (by simpa using ht)
            | str s => exact Or.inl (by simpa using ht)
            | arr xs => exact Or.inl (by simpa using ht)
        | null => simp at ht
        | bool b => simp at ht
        | num q => simp at ht
        | str s => simp at ht
        | arr xs => simp at ht
  | null => simp [wellShapedTxn] at h
  | bool b => simp [wellShapedTxn] at h
  | num q => simp [wellShapedTxn] at h
  | str s => simp [wellShapedTxn] at h
  | arr xs => simp [wellShapedTxn] at h

/-- C6 counterexample: a swap-shaped event whose `timestamp` is a malformed
(string) value makes `_parse_via_token_transfers` raise `TypeError` (from
`datetime.utcfromtimestamp(ts)` at parser.py line 47) instead of returning a
no-match — so the normalizer does *not* treat every malformed input as a
non-match. -/
theorem normalizer_raises_cex :
    parse_via_token_transfers badTimestampTxn "WALLETX" 0 = .error .typeError ∧
    (parse_via_token_transfers badTimestampTxn "WALLETX" 0).isOk = false := by
  with_unfolding_all decide

/-- C6 (amended): for every raw event whose consumed fields have the shapes
their use sites accept (`wellShapedTxn`: in particular a numeric `timestamp`
must lie inside `datetime`'s representable range), both normalizer rules
return — a trade or a no-match — and never raise; on events outside that
shape (e.g. a string timestamp, an out-of-range numeric timestamp, a
non-object transfer entry) they can raise. -/
theorem normalizer_no_raise_wellShaped (txn : Json) (w : String) (now : ℚ)
    (h : wellShapedTxn txn = true) :
    (parse_via_token_transfers txn w now).isOk = true ∧
    (parse_via_swap_event txn w now).isOk = true := by
  obtain ⟨kvs, rfl, hts, htr, hacc, hev⟩ := wellShapedTxn_elim h
  exact ⟨parse_token_transfers_ok w now hts htr hacc,
    parse_swap_event_ok w now hts hev⟩

/-- Witness for the amended C6 at a concrete well-shaped event. -/
theorem normalizer_no_raise_wellShaped_witness :
    wellShapedTxn goodTxn = true ∧
    (parse_via_token_transfers goodTxn "WALLETX" 0).isOk = true ∧
    (parse_via_swap_event goodTxn "WALLETX" 0).isOk = true :=
  ⟨by with_unfolding_all decide,
   normalizer_no_raise_wellShaped goodTxn "WALLETX" 0 (by with_unfolding_all decide)⟩

/-! ## Lemmas for C7: association lists and the co-occurrence counters -/

section AssocLemmas

variable {κ ν : Type} [BEq κ] [LawfulBEq κ]

theorem lookup_pair_cons_self (k : κ) (v : ν) (rest : List (κ × ν)) :
    ((k, v) :: rest).lookup k = some v := by
  simp [List.lookup_cons]

theorem lookup_pair_cons_ne {k a : κ} (v : ν) (rest : List (κ × ν)) (h : k ≠ a) :
    ((a, v) :: rest).lookup k = rest.lookup k := by
  simp [List.lookup_cons, beq_eq_false_iff_ne.mpr h]

theorem lookup_eq_none_iff (l : List (κ × ν)) (k : κ) :
    l.lookup k = none ↔ k ∉ l.map Prod.fst := by
  induction l with
  | nil => simp
  | cons e rest ih =>
    obtain ⟨a, v⟩ := e
    by_cases he : k = a
    · subst he
      rw [lookup_pair_cons_self]
      simp
    · rw [lookup_pair_cons_ne v rest he]
      simp [ih, he]

theorem mem_of_lookup_eq_some {l : List (κ × ν)} {k : κ} {v : ν}
    (h : l.lookup k = some v) : (k, v) ∈ l := by
  induction l with
  | nil => simp at h
  | cons e rest ih =>
    obtain ⟨a, w⟩ := e
    by_cases he : k = a
    · subst he
      rw [lookup_pair_cons_self] at h
      exact List.mem_cons.mpr (Or.inl (by rw [Option.some_inj.mp h]))
    · rw [lookup_pair_cons_ne w rest he] at h
      exact List.mem_cons_of_mem _ (ih h)

theorem lookup_eq_some_of_mem_nodup {l : List (κ × ν)} {k : κ} {v : ν}
    (h : (k, v) ∈ l) (hd : (l.map Prod.fst).Nodup) : l.lookup k = some v := by
  induction l with
  | nil => simp at h
  | cons e rest ih =>
    obtain ⟨a, w⟩ := e
    rcases List.mem_cons.mp h with heq | hm
    · obtain ⟨rfl, rfl⟩ := Prod.mk.inj heq
      exact lookup_pair_cons_self k v rest
    · have hk : k ≠ a := by
        intro hk
        subst hk
        have : k ∈ rest.map Prod.fst := List.mem_map.mpr ⟨(k, v), hm, rfl⟩
        exact (List.nodup_cons.mp (by simpa using hd)).1 this
      rw [lookup_pair_cons_ne w rest hk]
      exact ih hm (List.nodup_cons.mp (by simpa using hd)).2

theorem lookup_isSome_iff_mem_keys (l : List (κ × ν)) (k : κ) :
    (l.lookup k).isSome = true ↔ k ∈ l.map Prod.fst := by
  constructor
  · intro h
    by_contra hk
    rw [(lookup_eq_none_iff l k).mpr hk] at h
    simp at h
  · intro h
    cases hl : l.lookup k with
    | none => exact absurd h (by simpa using (lookup_eq_none_iff l k).mp hl)
    | some v => simp

end AssocLemmas

theorem coCount_bumpPair (co : List ((String × String) × Nat))
    (k k2 : String × String) :
    coCount (bumpPair co k) k2 = coCount co k2 + (if k2 = k then 1 else 0) := by
  induction co with
  | nil =>
    by_cases h : k2 = k
    · subst h
      simp [bumpPair, coCount, lookup_pair_cons_self]
    · simp [bumpPair, coCount, lookup_pair_cons_ne _ _ h, h]
  | cons e rest ih =>
    obtain ⟨a, v⟩ := e
    by_cases he : a = k
    · rw [show bumpPair ((a, v) :: rest) k = (a, v + 1) :: rest by
        simp [bumpPair, he]]
      by_cases h2 : k2 = a
      · subst h2
        rw [coCount, coCount, lookup_pair_cons_self, lookup_pair_cons_self,
          if_pos he]
        rfl
      · rw [coCount, coCount, lookup_pair_cons_ne _ _ h2, lookup_pair_cons_ne _ _ h2,
          if_neg (fun hk => h2 (hk.trans he.symm))]
        rfl
    · rw [show bumpPair ((a, v) :: rest) k = (a, v) :: bumpPair rest k by
        simp [bumpPair, he]]
      by_cases h2 : k2 = a
      · subst h2
        rw [coCount, coCount, lookup_pair_cons_self, lookup_pair_cons_self,
          if_neg he]
        rfl
      · rw [coCount, coCount, lookup_pair_cons_ne _ _ h2, lookup_pair_cons_ne _ _ h2]
        exact ih

theorem coCount_foldl (evs : List (String × String)) :
    ∀ (init : List ((String × String) × Nat)) (k : String × String),
    coCount (evs.foldl bumpPair init) k = coCount init k + evs.count k := by
  induction evs with
  | nil => simp
  | cons e rest ih =>
    intro init k
    rw [List.foldl_cons, ih, coCount_bumpPair, List.count_cons]
    by_cases h : k = e
    · simp [h]
      omega
    · simp [h, Ne.symm h]

theorem bumpPair_keys_mem (co : List ((String × String) × Nat))
    (k p : String × String) :
    p ∈ (bumpPair co k).map Prod.fst ↔ p ∈ co.map Prod.fst ∨ p = k := by
  induction co with
  | nil => simp [bumpPair]
  | cons e rest ih =>
    obtain ⟨a, v⟩ := e
    by_cases he : a = k
    · rw [show bumpPair ((a, v) :: rest) k = (a, v + 1) :: rest by
        simp [bumpPair, he]]
      subst he
      simp only [List.map_cons, List.mem_cons]
      tauto
    · rw [show bumpPair ((a, v) :: rest) k = (a, v) :: bumpPair rest k by
        simp [bumpPair, he]]
      simp only [List.map_cons, List.mem_cons, ih]
      tauto

theorem bumpPair_keys_nodup (co : List ((String × String) × Nat))
    (k : String × String) (hd : (co.map Prod.fst).Nodup) :
    ((bumpPair co k).map Prod.fst).Nodup := by
  induction co with
  | nil => simp [bumpPair]
  | cons e rest ih =>
    obtain ⟨a, v⟩ := e
    have hd2 : (a :: rest.map Prod.fst).Nodup := by simpa using hd
    rcases List.nodup_cons.mp hd2 with ⟨hne, hrest⟩
    by_cases he : a = k
    · rw [show bumpPair ((a, v) :: rest) k = (a, v + 1) :: rest by
        simp [bumpPair, he]]
      simpa using List.nodup_cons.mpr ⟨hne, hrest⟩
    · rw [show bumpPair ((a, v) :: rest) k = (a, v) :: bumpPair rest k by
        simp [bumpPair, he]]
      refine List.nodup_cons.mpr ⟨?_, by simpa using ih hrest⟩
      intro hmem
      rcases (bumpPair_keys_mem rest k a).mp (by simpa using hmem) with h | h
      · exact hne h
      · exact he h

theorem foldl_bump_keys_mem (evs : List (String × String)) :
    ∀ (init : List ((String × String) × Nat)) (p : String × String),
    p ∈ ((evs.foldl bumpPair init).map Prod.fst) ↔
      p ∈ init.map Prod.fst ∨ p ∈ evs := by
  induction evs with
  | nil => simp
  | cons e rest ih =>
    intro init p
    rw [List.foldl_cons, ih, bumpPair_keys_mem]
    simp only [List.mem_cons]
    tauto

theorem foldl_bump_keys_nodup (evs : List (String × String)) :
    ∀ (init : List ((String × String) × Nat)),
    (init.map Prod.fst).Nodup → ((evs.foldl bumpPair init).map Prod.fst).Nodup := by
  induction evs with
  | nil => exact fun init h => h
  | cons e rest ih =>
    intro init h
    exact ih _ (bumpPair_keys_nodup init e h)

/-- Characterization of the `co_occur` dict entries: the key is a pair the
scan actually emitted, the value its total multiplicity in the emission
stream. -/
theorem co_occur_mem_iff (θ : ℚ) (m : List (String × List ParsedTrade))
    (p : String × String) (n : Nat) :
    ((p, n) ∈ co_occur θ m) ↔ 0 < n ∧ n = (pairStream θ m).count p := by
  have hfold : co_occur θ m = (pairStream θ m).foldl bumpPair [] := rfl
  have hnd : ((co_occur θ m).map Prod.fst).Nodup := by
    rw [hfold]
    exact foldl_bump_keys_nodup _ [] (by simp)
  have hcnt : ∀ k, coCount (co_occur θ m) k = (pairStream θ m).count k := by
    intro k
    rw [hfold, coCount_foldl]
    simp [coCount]
  constructor
  · intro hmem
    have hl := lookup_eq_some_of_mem_nodup hmem hnd
    have hv : coCount (co_occur θ m) p = n := by simp [coCount, hl]
    have hk : p ∈ (co_occur θ m).map Prod.fst :=
      List.mem_map.mpr ⟨(p, n), hmem, rfl⟩
    have hp : p ∈ pairStream θ m := by
      have := (foldl_bump_keys_mem _ [] p).mp (by rw [← hfold]; exact hk)
      simpa using this
    refine ⟨?_, by rw [← hcnt p, hv]⟩
    rw [← hv, hcnt p]
    exact List.count_pos_iff.mpr hp
  · rintro ⟨hpos, rfl⟩
    have hp : p ∈ pairStream θ m := List.count_pos_iff.mp hpos
    have hk : p ∈ (co_occur θ m).map Prod.fst := by
      rw [hfold]
      exact (foldl_bump_keys_mem _ [] p).mpr (Or.inr hp)
    obtain ⟨v, hv⟩ := Option.isSome_iff_exists.mp
      ((lookup_isSome_iff_mem_keys _ p).mpr hk)
    have hvc : v = coCount (co_occur θ m) p := by simp [coCount, hv]
    rw [hvc, hcnt p] at hv
    exact mem_of_lookup_eq_some hv

/-! ## Lemmas for C7: the adjacency dict -/

theorem adjLookup_addNeighbor (adj : List (String × List String)) (x y z : String) :
    adjLookup (addNeighbor adj x y) z =
      if z = x then
        (if y ∈ adjLookup adj x then adjLookup adj x else adjLookup adj x ++ [y])
      else adjLookup adj z := by
  induction adj with
  | nil =>
    by_cases hz : z = x
    · subst hz
      simp [addNeighbor, adjLookup, lookup_pair_cons_self]
    · simp [addNeighbor, adjLookup, lookup_pair_cons_ne _ _ hz, hz]
  | cons e rest ih =>
    obtain ⟨a, v⟩ := e
    by_cases ha : a = x
    · subst ha
      rw [show addNeighbor ((a, v) :: rest) a y
            = (a, if y ∈ v then v else v ++ [y]) :: rest by
          simp [addNeighbor]]
      by_cases hz : z = a
      · subst hz
        simp [adjLookup, lookup_pair_cons_self]
      · simp [adjLookup, lookup_pair_cons_ne _ _ hz, hz]
    · rw [show addNeighbor ((a, v) :: rest) x y
            = (a, v) :: addNeighbor rest x y by
          simp [addNeighbor, ha]]
      by_cases hz : z = a
      · subst hz
        have hzx : z ≠ x := fun h => ha (h ▸ rfl)
        simp [adjLookup, lookup_pair_cons_self, hzx]
      · rw [show adjLookup ((a, v) :: addNeighbor rest x y) z
              = adjLookup (addNeighbor rest x y) z by
            simp [adjLookup, lookup_pair_cons_ne _ _ hz]]
        rw [show adjLookup ((a, v) :: rest) z = adjLookup rest z by
            simp [adjLookup, lookup_pair_cons_ne _ _ hz]]
        rw [show adjLookup ((a, v) :: rest) x = adjLookup rest x by
            simp [adjLookup, lookup_pair_cons_ne _ _ (fun h => ha h.symm)]]
        exact ih

theorem mem_adjLookup_addNeighbor (adj : List (String × List String))
    (x y z w : String) :
    w ∈ adjLookup (addNeighbor adj x y) z ↔
      w ∈ adjLookup adj z ∨ (z = x ∧ w = y) := by
  rw [adjLookup_addNeighbor]
  by_cases hz : z = x
  · subst hz
    by_cases hy : y ∈ adjLookup adj z
    · rw [if_pos rfl, if_pos hy]
      constructor
      · exact fun h => Or.inl h
      · rintro (h | ⟨-, rfl⟩)
        · exact h
        · exact hy
    · rw [if_pos rfl, if_neg hy]
      simp only [List.mem_append, List.mem_singleton]
      tauto
  · rw [if_neg hz]
    tauto

theorem adjKeys_addNeighbor_mem (adj : List (String × List String))
    (x y z : String) :
    z ∈ adjKeys (addNeighbor adj x y) ↔ z ∈ adjKeys adj ∨ z = x := by
  induction adj with
  | nil => simp [addNeighbor, adjKeys]
  | cons e rest ih =>
    obtain ⟨a, v⟩ := e
    by_cases ha : a = x
    · subst ha
      rw [show addNeighbor ((a, v) :: rest) a y
            = (a, if y ∈ v then v else v ++ [y]) :: rest by
          simp [addNeighbor]]
      simp only [adjKeys, List.map_cons, List.mem_cons]
      tauto
    · rw [show addNeighbor ((a, v) :: rest) x y
            = (a, v) :: addNeighbor rest x y by
          simp [addNeighbor, ha]]
      simp only [adjKeys, List.map_cons, List.mem_cons] at ih ⊢
      rw [ih]
      tauto

theorem adjKeys_addNeighbor_nodup (adj : List (String × List String))
    (x y : String) (hd : (adjKeys adj).Nodup) :
    (adjKeys (addNeighbor adj x y)).Nodup := by
  induction adj with
  | nil => simp [addNeighbor, adjKeys]
  | cons e rest ih =>
    obtain ⟨a, v⟩ := e
    have hd2 : (a :: adjKeys rest).Nodup := by simpa [adjKeys] using hd
    rcases List.nodup_cons.mp hd2 with ⟨hne, hrest⟩
    by_cases ha : a = x
    · subst ha
      rw [show addNeighbor ((a, v) :: rest) a y
            = (a, if y ∈ v then v else v ++ [y]) :: rest by
          simp [addNeighbor]]
      simpa [adjKeys] using List.nodup_cons.mpr ⟨hne, hrest⟩
    · rw [show addNeighbor ((a, v) :: rest) x y
            = (a, v) :: addNeighbor rest x y by
          simp [addNeighbor, ha]]
      have htail : (adjKeys (addNeighbor rest x y)).Nodup := ih hrest
      refine List.Nodup.cons ?_ (by simpa [adjKeys] using htail)
      intro hmem
      rcases (adjKeys_addNeighbor_mem rest x y a).mp (by simpa [adjKeys] using hmem)
        with h | h
      · exact hne h
      · exact ha h

theorem adjLookup_addNeighbor_nodup (adj : List (String × List String))
    (x y : String) (hd : ∀ z, (adjLookup adj z).Nodup) :
    ∀ z, (adjLookup (addNeighbor adj x y) z).Nodup := by
  intro z
  rw [adjLookup_addNeighbor]
  by_cases hz : z = x
  · subst hz
    by_cases hy : y ∈ adjLookup adj z
    · rw [if_pos rfl, if_pos hy]
      exact hd z
    · rw [if_pos rfl, if_neg hy]
      exact List.Nodup.append (hd z) (List.nodup_singleton y)
        (by simpa [List.disjoint_singleton] using hy)
  · rw [if_neg hz]
    exact hd z

/-- Membership in the folded adjacency dict, with a generalized accumulator. -/
theorem foldl_adj_mem (minCo : Nat) (co : List ((String × String) × Nat)) :
    ∀ (init : List (String × List String)) (z w : String),
    w ∈ adjLookup
        (co.foldl
          (fun adj e =>
            if minCo ≤ e.2 then
              addNeighbor (addNeighbor adj e.1.1 e.1.2) e.1.2 e.1.1
            else adj)
          init) z ↔
      w ∈ adjLookup init z ∨
        ∃ p n, ((p, n) ∈ co ∧ minCo ≤ n) ∧ (p = (z, w) ∨ p = (w, z)) := by
  induction co with
  | nil => simp
  | cons e rest ih =>
    intro init z w
    obtain ⟨⟨a, b⟩, n⟩ := e
    rw [List.foldl_cons, ih]
    dsimp only
    by_cases hn : minCo ≤ n
    · rw [if_pos hn]
      rw [mem_adjLookup_addNeighbor, mem_adjLookup_addNeighbor]
      constructor
      · rintro (((h | ⟨rfl, rfl⟩) | ⟨rfl, rfl⟩) | ⟨p, n2, ⟨hm, hn2⟩, hp⟩)
        · exact Or.inl h
        · exact Or.inr ⟨(z, w), n, ⟨by simp, hn⟩, Or.inl rfl⟩
        · exact Or.inr ⟨(w, z), n, ⟨by simp, hn⟩, Or.inr rfl⟩
        · exact Or.inr ⟨p, n2, ⟨by simp [hm], hn2⟩, hp⟩
      · rintro (h | ⟨p, n2, ⟨hm, hn2⟩, hp⟩)
        · exact Or.inl (Or.inl (Or.inl h))
        · rcases List.mem_cons.mp hm with heq | hm2
          · obtain ⟨hpe, hne⟩ := Prod.mk.inj heq
            subst hne
            rcases hp with rfl | rfl
            · obtain ⟨rfl, rfl⟩ := Prod.mk.inj hpe
              exact Or.inl (Or.inl (Or.inr ⟨rfl, rfl⟩))
            · obtain ⟨rfl, rfl⟩ := Prod.mk.inj hpe
              exact Or.inl (Or.inr ⟨rfl, rfl⟩)
          · exact Or.inr ⟨p, n2, ⟨hm2, hn2⟩, hp⟩
    · rw [if_neg hn]
      constructor
      · rintro (h | ⟨p, n2, ⟨hm, hn2⟩, hp⟩)
        · exact Or.inl h
        · exact Or.inr ⟨p, n2, ⟨by simp [hm], hn2⟩, hp⟩
      · rintro (h | ⟨p, n2, ⟨hm, hn2⟩, hp⟩)
        · exact Or.inl h
        · rcases List.mem_cons.mp hm with heq | hm2
          · obtain ⟨hpe, hne⟩ := Prod.mk.inj heq
            subst hne
            exact absurd hn2 hn
          · exact Or.inr ⟨p, n2, ⟨hm2, hn2⟩, hp⟩

/-- Characterization of the adjacency relation built by `build_adjacency`:
`w` is a recorded neighbour of `z` exactly when some co-occurrence entry for
the unordered pair reaches the minimum count. -/
theorem build_adjacency_mem (minCo : Nat) (co : List ((String × String) × Nat))
    (z w : String) :
    w ∈ adjLookup (build_adjacency minCo co) z ↔
      ∃ p n, ((p, n) ∈ co ∧ minCo ≤ n) ∧ (p = (z, w) ∨ p = (w, z)) := by
  rw [show build_adjacency minCo co
        = co.foldl
            (fun adj e =>
              if minCo ≤ e.2 then
                addNeighbor (addNeighbor adj e.1.1 e.1.2) e.1.2 e.1.1
              else adj)
            [] from rfl,
    foldl_adj_mem]
  simp [adjLookup]

/-- Keys of the folded adjacency dict, with a generalized accumulator. -/
theorem foldl_adj_keys (minCo : Nat) (co : List ((String × String) × Nat)) :
    ∀ (init : List (String × List String)) (z : String),
    z ∈ adjKeys
        (co.foldl
          (fun adj e =>
            if minCo ≤ e.2 then
              addNeighbor (addNeighbor adj e.1.1 e.1.2) e.1.2 e.1.1
            else adj)
          init) ↔
      z ∈ adjKeys init ∨
        ∃ p n, ((p, n) ∈ co ∧ minCo ≤ n) ∧ (p.1 = z ∨ p.2 = z) := by
  induction co with
  | nil => simp
  | cons e rest ih =>
    intro init z
    obtain ⟨⟨a, b⟩, n⟩ := e
    rw [List.foldl_cons, ih]
    dsimp only
    by_cases hn : minCo ≤ n
    · rw [if_pos hn]
      rw [adjKeys_addNeighbor_mem, adjKeys_addNeighbor_mem]
      constructor
      · rintro (((h | rfl) | rfl) | ⟨p, n2, ⟨hm, hn2⟩, hp⟩)
        · exact Or.inl h
        · exact Or.inr ⟨(z, b), n, ⟨by simp, hn⟩, Or.inl rfl⟩
        · exact Or.inr ⟨(a, z), n, ⟨by simp, hn⟩, Or.inr rfl⟩
        · exact Or.inr ⟨p, n2, ⟨by simp [hm], hn2⟩, hp⟩
      · rintro (h | ⟨p, n2, ⟨hm, hn2⟩, hp⟩)
        · exact Or.inl (Or.inl (Or.inl h))
        · rcases List.mem_cons.mp hm with heq | hm2
          · obtain ⟨hpe, hne⟩ := Prod.mk.inj heq
            subst hne
            subst hpe
            rcases hp with h | h
            · exact Or.inl (Or.inl (Or.inr h.symm))
            · exact Or.inl (Or.inr h.symm)
          · exact Or.inr ⟨p, n2, ⟨hm2, hn2⟩, hp⟩
    · rw [if_neg hn]
      constructor
      · rintro (h | ⟨p, n2, ⟨hm, hn2⟩, hp⟩)
        · exact Or.inl h
        · exact Or.inr ⟨p, n2, ⟨by simp [hm], hn2⟩, hp⟩
      · rintro (h | ⟨p, n2, ⟨hm, hn2⟩, hp⟩)
        · exact Or.inl h
        · rcases List.mem_cons.mp hm with heq | hm2
          · obtain ⟨hpe, hne⟩ := Prod.mk.inj heq
            subst hne
            exact absurd hn2 hn
          · exact Or.inr ⟨p, n2, ⟨hm2, hn2⟩, hp⟩

theorem build_adjacency_keys (minCo : Nat) (co : List ((String × String) × Nat))
    (z : String) :
    z ∈ adjKeys (build_adjacency minCo co) ↔
      ∃ p n, ((p, n) ∈ co ∧ minCo ≤ n) ∧ (p.1 = z ∨ p.2 = z) := by
  rw [show build_adjacency minCo co
        = co.foldl
            (fun adj e =>
              if minCo ≤ e.2 then
                addNeighbor (addNeighbor adj e.1.1 e.1.2) e.1.2 e.1.1
              else adj)
            [] from rfl,
    foldl_adj_keys]
  simp [adjKeys]

theorem build_adjacency_symm (minCo : Nat) (co : List ((String × String) × Nat))
    (z w : String) :
    w ∈ adjLookup (build_adjacency minCo co) z ↔
      z ∈ adjLookup (build_adjacency minCo co) w := by
  rw [build_adjacency_mem, build_adjacency_mem]
  constructor
  · rintro ⟨p, n, h, hp | hp⟩
    · exact ⟨p, n, h, Or.inr hp⟩
    · exact ⟨p, n, h, Or.inl hp⟩
  · rintro ⟨p, n, h, hp | hp⟩
    · exact ⟨p, n, h, Or.inr hp⟩
    · exact ⟨p, n, h, Or.inl hp⟩

theorem build_adjacency_values_sub_keys (minCo : Nat)
    (co : List ((String × String) × Nat)) (z w : String)
    (h : w ∈ adjLookup (build_adjacency minCo co) z) :
    w ∈ adjKeys (build_adjacency minCo co) := by
  rcases (build_adjacency_mem minCo co z w).mp h with ⟨p, n, hm, hp | hp⟩
  · exact (build_adjacency_keys minCo co w).mpr ⟨p, n, hm, Or.inr (by rw [hp])⟩
  · exact (build_adjacency_keys minCo co w).mpr ⟨p, n, hm, Or.inl (by rw [hp])⟩

theorem build_adjacency_mem_keys_of_mem (minCo : Nat)
    (co : List ((String × String) × Nat)) (z w : String)
    (h : w ∈ adjLookup (build_adjacency minCo co) z) :
    z ∈ adjKeys (build_adjacency minCo co) :=
  build_adjacency_values_sub_keys minCo co w z
    ((build_adjacency_symm minCo co z w).mp h)

theorem build_adjacency_no_self (minCo : Nat)
    (co : List ((String × String) × Nat))
    (hco : ∀ p n, (p, n) ∈ co → p.1 ≠ p.2) (z : String) :
    z ∉ adjLookup (build_adjacency minCo co) z := by
  intro h
  rcases (build_adjacency_mem minCo co z z).mp h with ⟨p, n, ⟨hm, -⟩, hp | hp⟩
  · exact hco p n hm (by rw [hp])
  · exact hco p n hm (by rw [hp])

theorem build_adjacency_key_has_other (minCo : Nat)
    (co : List ((String × String) × Nat))
    (hco : ∀ p n, (p, n) ∈ co → p.1 ≠ p.2) (z : String)
    (h : z ∈ adjKeys (build_adjacency minCo co)) :
    ∃ w, w ∈ adjLookup (build_adjacency minCo co) z ∧ w ≠ z := by
  rcases (build_adjacency_keys minCo co z).mp h with ⟨p, n, hm, hp | hp⟩
  · refine ⟨p.2, ?_, ?_⟩
    · exact (build_adjacency_mem minCo co z p.2).mpr
        ⟨p, n, hm, Or.inl (by rw [← hp])⟩
    · intro he
      exact hco p n hm.1 (by rw [hp, he])
  · refine ⟨p.1, ?_, ?_⟩
    · exact (build_adjacency_mem minCo co z p.1).mpr
        ⟨p, n, hm, Or.inr (by rw [← hp])⟩
    · intro he
      exact hco p n hm.1 (by rw [hp, he])

theorem build_adjacency_keys_nodup (minCo : Nat)
    (co : List ((String × String) × Nat)) :
    (adjKeys (build_adjacency minCo co)).Nodup := by
  suffices h : ∀ (init : List (String × List String)), (adjKeys init).Nodup →
      (adjKeys
        (co.foldl
          (fun adj e =>
            if minCo ≤ e.2 then
              addNeighbor (addNeighbor adj e.1.1 e.1.2) e.1.2 e.1.1
            else adj)
          init)).Nodup by
    exact h [] (by simp [adjKeys])
  induction co with
  | nil => exact fun init h => h
  | cons e rest ih =>
    intro init h
    rw [List.foldl_cons]
    refine ih _ ?_
    by_cases hn : minCo ≤ e.2
    · rw [if_pos hn]
      exact adjKeys_addNeighbor_nodup _ _ _ (adjKeys_addNeighbor_nodup _ _ _ h)
    · rw [if_neg hn]
      exact h

theorem build_adjacency_values_nodup (minCo : Nat)
    (co : List ((String × String) × Nat)) (z : String) :
    (adjLookup (build_adjacency minCo co) z).Nodup := by
  suffices h : ∀ (init : List (String × List String)),
      (∀ w, (adjLookup init w).Nodup) →
      ∀ w, (adjLookup
        (co.foldl
          (fun adj e =>
            if minCo ≤ e.2 then
              addNeighbor (addNeighbor adj e.1.1 e.1.2) e.1.2 e.1.1
            else adj)
          init) w).Nodup by
    exact h [] (fun w => by simp [adjLookup]) z
  induction co with
  | nil => exact fun init h => h
  | cons e rest ih =>
    intro init h
    rw [List.foldl_cons]
    refine ih _ ?_
    by_cases hn : minCo ≤ e.2
    · rw [if_pos hn]
      exact adjLookup_addNeighbor_nodup _ _ _
        (adjLookup_addNeighbor_nodup _ _ _ h)
    · rw [if_neg hn]
      exact h

/-! ## Lemmas for C7: injectivity of the synthetic cluster identifiers -/

theorem natDigitsAux_lt (fuel : Nat) :
    ∀ n d, d ∈ natDigitsAux fuel n → d < 10 := by
  induction fuel with
  | zero => intro n d h; simp [natDigitsAux] at h
  | succ fuel ih =>
    intro n d h
    rw [natDigitsAux] at h
    by_cases hn : n < 10
    · rw [if_pos hn] at h
      rcases List.mem_singleton.mp h with rfl
      exact hn
    · rw [if_neg hn] at h
      rcases List.mem_cons.mp h with rfl | h2
      · exact Nat.mod_lt n (by omega)
      · exact ih _ _ h2

theorem digitsVal_natDigitsAux (fuel : Nat) :
    ∀ n, n < fuel → digitsVal (natDigitsAux fuel n) = n := by
  induction fuel with
  | zero => intro n h; omega
  | succ fuel ih =>
    intro n h
    rw [natDigitsAux]
    by_cases hn : n < 10
    · rw [if_pos hn]
      simp [digitsVal]
    · rw [if_neg hn]
      have hdiv : n / 10 < fuel := by
        have h1 : n / 10 < n := Nat.div_lt_self (by omega) (by omega)
        omega
      rw [show digitsVal (n % 10 :: natDigitsAux fuel (n / 10))
            = n % 10 + 10 * digitsVal (natDigitsAux fuel (n / 10)) from rfl,
        ih _ hdiv]
      omega

theorem digitsVal_natDigits (n : Nat) : digitsVal (natDigits n) = n :=
  digitsVal_natDigitsAux (n + 1) n (Nat.lt_succ_self n)

theorem digitCh_toNat (d : Nat) (h : d < 10) : (digitCh d).toNat = 48 + d := by
  have hv : (48 + d).isValidChar := by
    left
    omega
  rw [digitCh]
  unfold Char.ofNat
  rw [dif_pos hv]
  rfl

theorem foldl_digitCh (cs : List Nat) :
    ∀ acc, (∀ d ∈ cs, d < 10) →
    (cs.map digitCh).foldl (fun acc c => acc * 10 + (c.toNat - 48)) acc
      = cs.foldl (fun acc d => acc * 10 + d) acc := by
  induction cs with
  | nil => intro acc _; rfl
  | cons d rest ih =>
    intro acc h
    rw [List.map_cons, List.foldl_cons, List.foldl_cons,
      digitCh_toNat d (h d (List.mem_cons_self d rest))]
    rw [show 48 + d - 48 = d by omega]
    exact ih _ (fun x hx => h x (List.mem_cons_of_mem d hx))

theorem foldl_be_digitsVal (ds : List Nat) :
    ds.reverse.foldl (fun acc d => acc * 10 + d) 0 = digitsVal ds := by
  rw [List.foldl_reverse]
  induction ds with
  | nil => rfl
  | cons d rest ih =>
    rw [List.foldr_cons, digitsVal, List.foldr_cons]
    rw [show List.foldr (fun y x => x * 10 + y) 0 rest
          = digitsVal rest from ih]
    rw [show digitsVal rest = List.foldr (fun d acc => d + 10 * acc) 0 rest from rfl]
    omega

theorem charsVal_replicate_zero (k : Nat) (cs : List Char) :
    charsVal (List.replicate k '0' ++ cs) = charsVal cs := by
  induction k with
  | zero => simp
  | succ k ih =>
    rw [List.replicate_succ, List.cons_append, charsVal, List.foldl_cons]
    exact ih

theorem charsVal_clusterId_digits (n : Nat) :
    charsVal ((natDigits n).reverse.map digitCh) = n := by
  have hlt : ∀ d ∈ (natDigits n).reverse, d < 10 := by
    intro d hd
    exact natDigitsAux_lt (n + 1) n d (List.mem_reverse.mp hd)
  rw [charsVal, foldl_digitCh ((natDigits n).reverse) 0 hlt,
    foldl_be_digitsVal, digitsVal_natDigits]

theorem clusterId_inj {n m : Nat} (h : clusterId n = clusterId m) : n = m := by
  have hd : (clusterId n).data = (clusterId m).data := by rw [h]
  rw [clusterId, clusterId] at hd
  simp only [String.data_append] at hd
  have hl := List.append_cancel_left hd
  have hn := charsVal_clusterId_digits n
  have hm := charsVal_clusterId_digits m
  rw [← charsVal_replicate_zero (4 - ((natDigits n).reverse.map digitCh).length)] at hn
  rw [← charsVal_replicate_zero (4 - ((natDigits m).reverse.map digitCh).length)] at hm
  rw [← hn, ← hm]
  exact congrArg charsVal hl

/-! ## Lemmas for C7: the BFS inner loop -/

theorem filter_length_lt {α : Type} (l : List α) (p q : α → Bool)
    (x₀ : α) (hx : x₀ ∈ l) (hp : p x₀ = true) (hq : q x₀ = false)
    (himp : ∀ y, q y = true → p y = true) :
    (l.filter q).length < (l.filter p).length := by
  induction l with
  | nil => simp at hx
  | cons a rest ih =>
    rcases List.mem_cons.mp hx with rfl | hx2
    · rw [List.filter_cons, List.filter_cons, hp, hq]
      have hle : (rest.filter q).length ≤ (rest.filter p).length :=
        (List.monotone_filter_right rest himp).length_le
      simp only [if_pos rfl]
      simpa using Nat.lt_succ_of_le hle
    · rw [List.filter_cons, List.filter_cons]
      cases hqa : q a
      · cases hpa : p a
        · simpa using ih hx2
        · simp only [if_pos rfl]
          simpa using Nat.lt_succ_of_lt (ih hx2)
      · rw [himp a hqa]
        simpa using Nat.succ_lt_succ (ih hx2)

theorem nodup_subset_length {α : Type} [DecidableEq α] (l l' : List α)
    (hd : l.Nodup) (hsub : ∀ x ∈ l, x ∈ l') : l.length ≤ l'.length := by
  calc l.length = l.toFinset.card := (List.toFinset_card_of_nodup hd).symm
  _ ≤ l'.toFinset.card := Finset.card_le_card (fun x hx =>
      List.mem_toFinset.mpr (hsub x (List.mem_toFinset.mp hx)))
  _ ≤ l'.length := List.toFinset_card_le l'

theorem reachOut_weaken (adj : List (String × List String))
    (v v' : List String) (hvv : ∀ z, z ∈ v → z ∈ v') {a x : String}
    (h : Relation.ReflTransGen (adjEOut adj v') a x) :
    Relation.ReflTransGen (adjEOut adj v) a x :=
  Relation.ReflTransGen.mono
    (fun _ _ hab => ⟨hab.1, fun hb => hab.2 (hvv _ hb)⟩) h

theorem reach_avoid_split (adj : List (String × List String))
    (v : List String) (node : String) {a x : String}
    (h : Relation.ReflTransGen (adjEOut adj v) a x) (hx : x ≠ node) :
    (Relation.ReflTransGen (adjEOut adj (v ++ [node])) a x ∧ a ≠ node) ∨
    (∃ y, y ∈ adjLookup adj node ∧ y ∉ v ∧ y ≠ node ∧
      Relation.ReflTransGen (adjEOut adj (v ++ [node])) y x) := by
  induction h using Relation.ReflTransGen.head_induction_on with
  | refl => exact Or.inl ⟨Relation.ReflTransGen.refl, hx⟩
  | head hab hbx ih =>
    rcases ih with ⟨hb, hbne⟩ | hr
    · rename_i a2 b2
      by_cases ha : a2 = node
      · subst ha
        exact Or.inr ⟨b2, hab.1, hab.2, hbne, hb⟩
      · refine Or.inl ⟨Relation.ReflTransGen.head ⟨hab.1, ?_⟩ hb, ha⟩
        intro hmem
        rcases List.mem_append.mp hmem with h2 | h2
        · exact hab.2 h2
        · exact hbne (List.mem_singleton.mp h2)
    · exact Or.inr hr

theorem reachOut_step_iff (adj : List (String × List String))
    (v : List String) (node : String) (rest : List String)
    (hnv : node ∉ v) (x : String) :
    (x ∈ v ++ [node] ∨
      ∃ q ∈ rest ++ (adjLookup adj node).filter (fun y => !(y ∈ v)),
        adjReachOut adj (v ++ [node]) q x) ↔
    (x ∈ v ∨ ∃ q ∈ node :: rest, adjReachOut adj v q x) := by
  constructor
  · rintro (hm | ⟨q, hq, hqv, hpath⟩)
    · rcases List.mem_append.mp hm with h | h
      · exact Or.inl h
      · rcases List.mem_singleton.mp h with rfl
        exact Or.inr ⟨x, List.mem_cons_self x rest,
          hnv, Relation.ReflTransGen.refl⟩
    · have hqv2 : q ∉ v := fun h => hqv (List.mem_append_left _ h)
      have hpath2 : Relation.ReflTransGen (adjEOut adj v) q x :=
        reachOut_weaken adj v (v ++ [node]) (fun z hz => List.mem_append_left _ hz)
          hpath
      rcases List.mem_append.mp hq with hqr | hqn
      · exact Or.inr ⟨q, List.mem_cons_of_mem _ hqr, hqv2, hpath2⟩
      · rcases List.mem_filter.mp hqn with ⟨hqadj, -⟩
        refine Or.inr ⟨node, List.mem_cons_self node rest, hnv,
          Relation.ReflTransGen.head ⟨hqadj, hqv2⟩ hpath2⟩
  · rintro (hm | ⟨q, hq, hqv, hpath⟩)
    · exact Or.inl (List.mem_append_left _ hm)
    · by_cases hx : x = node
      · subst hx
        exact Or.inl (List.mem_append_right _ (List.mem_singleton.mpr rfl))
      · rcases reach_avoid_split adj v node hpath hx with ⟨hp, hqne⟩ | ⟨y, hy1, hy2, hy3, hy4⟩
        · have hqr : q ∈ rest := by
            rcases List.mem_cons.mp hq with rfl | h
            · exact absurd rfl hqne
            · exact h
          refine Or.inr ⟨q, List.mem_append_left _ hqr, ?_, hp⟩
          intro hmem
          rcases List.mem_append.mp hmem with h2 | h2
          · exact hqv h2
          · exact hqne (List.mem_singleton.mp h2)
        · refine Or.inr ⟨y, List.mem_append_right _
            (List.mem_filter.mpr ⟨hy1, by simpa using hy2⟩), ?_, hy4⟩
          intro hmem
          rcases List.mem_append.mp hmem with h2 | h2
          · exact hy2 h2
          · exact hy3 (List.mem_singleton.mp h2)

/-- Full functional specification of the BFS inner loop, given enough fuel:
the final visited list extends the initial one by a block `newly` which is
also exactly the appended component, visited stays duplicate-free, and the
final visited set is the initial one plus everything reachable from the
queue along paths avoiding the initial visited set. -/
theorem bfsGo_spec (adj : List (String × List String))
    (HK : ∀ x y, y ∈ adjLookup adj x → y ∈ adjKeys adj)
    (HN : ∀ x, (adjLookup adj x).Nodup) :
    ∀ (fuel : Nat) (queue visited comp : List String),
    (∀ q ∈ queue, q ∈ adjKeys adj) →
    unvisitedCount adj visited * (adj.length + 1) + queue.length ≤ fuel →
    visited.Nodup →
    ∃ newly,
      (bfsGo adj fuel queue visited comp).1 = visited ++ newly ∧
      (bfsGo adj fuel queue visited comp).2 = comp ++ newly ∧
      (visited ++ newly).Nodup ∧
      (∀ x, x ∈ visited ++ newly ↔
        x ∈ visited ∨ ∃ q ∈ queue, adjReachOut adj visited q x) := by
  intro fuel
  induction fuel with
  | zero =>
    intro queue visited comp HQ Hfuel Hvd
    have hq : queue = [] := by
      cases queue with
      | nil => rfl
      | cons a l => simp at Hfuel
    subst hq
    refine ⟨[], by simp [bfsGo], by simp [bfsGo], by simpa using Hvd, ?_⟩
    intro x
    simp
  | succ fuel ih =>
    intro queue visited comp HQ Hfuel Hvd
    cases queue with
    | nil =>
      refine ⟨[], by simp [bfsGo], by simp [bfsGo], by simpa using Hvd, ?_⟩
      intro x
      simp
    | cons node rest =>
      by_cases hv : node ∈ visited
      · have heq : bfsGo adj (fuel + 1) (node :: rest) visited comp
            = bfsGo adj fuel rest visited comp := by
          simp [bfsGo, hv]
        rw [heq]
        obtain ⟨newly, h1, h2, h3, h4⟩ := ih rest visited comp
          (fun q hq => HQ q (List.mem_cons_of_mem _ hq))
          (by simp only [List.length_cons] at Hfuel; omega) Hvd
        refine ⟨newly, h1, h2, h3, ?_⟩
        intro x
        rw [h4 x]
        constructor
        · rintro (h | ⟨q, hq, hrest⟩)
          · exact Or.inl h
          · exact Or.inr ⟨q, List.mem_cons_of_mem _ hq, hrest⟩
        · rintro (h | ⟨q, hq, hqv, hpath⟩)
          · exact Or.inl h
          · rcases List.mem_cons.mp hq with rfl | hq2
            · exact absurd hv hqv
            · exact Or.inr ⟨q, hq2, hqv, hpath⟩
      · have heq : bfsGo adj (fuel + 1) (node :: rest) visited comp
            = bfsGo adj fuel
                (rest ++ (adjLookup adj node).filter (fun y => !(y ∈ visited)))
                (visited ++ [node]) (comp ++ [node]) := by
          simp [bfsGo, hv]
        rw [heq]
        have hkey : node ∈ adjKeys adj := HQ node (List.mem_cons_self node rest)
        have hnbrs_sub : ∀ q ∈ (adjLookup adj node).filter
            (fun y => !(y ∈ visited)), q ∈ adjKeys adj := by
          intro q hq
          exact HK node q (List.mem_of_mem_filter hq)
        have HQ2 : ∀ q ∈ rest ++ (adjLookup adj node).filter
            (fun y => !(y ∈ visited)), q ∈ adjKeys adj := by
          intro q hq
          rcases List.mem_append.mp hq with h | h
          · exact HQ q (List.mem_cons_of_mem _ h)
          · exact hnbrs_sub q h
        have hu1 : 1 ≤ unvisitedCount adj visited := by
          have : node ∈ (adjKeys adj).filter (fun x => !(x ∈ visited)) :=
            List.mem_filter.mpr ⟨hkey, by simpa using hv⟩
          have h2 := List.length_pos.mpr (List.ne_nil_of_mem this)
          simpa [unvisitedCount] using h2
        have hdec : unvisitedCount adj (visited ++ [node]) <
            unvisitedCount adj visited := by
          refine filter_length_lt (adjKeys adj) _ _ node hkey
            (by simpa using hv)
            (by simp)
            ?_
          intro y hy
          simp only [Bool.not_eq_true', decide_eq_false_iff_not] at hy ⊢
          intro hmem
          exact hy (List.mem_append_left _ hmem)
        have hnbrs_len : ((adjLookup adj node).filter
            (fun y => !(y ∈ visited))).length ≤ adj.length := by
          have h1 : ((adjLookup adj node).filter
              (fun y => !(y ∈ visited))).Nodup := (HN node).filter _
          have h2 := nodup_subset_length _ (adjKeys adj) h1 hnbrs_sub
          simpa [adjKeys] using h2
        have hmul : unvisitedCount adj (visited ++ [node]) * (adj.length + 1)
              + (adj.length + 1)
            ≤ unvisitedCount adj visited * (adj.length + 1) := by
          have h2 : unvisitedCount adj (visited ++ [node]) + 1
              ≤ unvisitedCount adj visited := hdec
          calc unvisitedCount adj (visited ++ [node]) * (adj.length + 1)
                + (adj.length + 1)
              = (unvisitedCount adj (visited ++ [node]) + 1) * (adj.length + 1) := by
                ring
          _ ≤ unvisitedCount adj visited * (adj.length + 1) :=
                Nat.mul_le_mul_right _ h2
        have Hfuel2 : unvisitedCount adj (visited ++ [node]) * (adj.length + 1)
            + (rest ++ (adjLookup adj node).filter
                (fun y => !(y ∈ visited))).length ≤ fuel := by
          rw [List.length_append]
          simp only [List.length_cons] at Hfuel
          omega
        have Hvd2 : (visited ++ [node]).Nodup := by
          rw [List.nodup_append]
          exact ⟨Hvd, List.nodup_singleton node,
            fun a ha hb => hv ((List.mem_singleton.mp hb) ▸ ha)⟩
        obtain ⟨newly, h1, h2, h3, h4⟩ := ih
          (rest ++ (adjLookup adj node).filter (fun y => !(y ∈ visited)))
          (visited ++ [node]) (comp ++ [node]) HQ2 Hfuel2 Hvd2
        refine ⟨node :: newly, ?_, ?_, ?_, ?_⟩
        · rw [h1, List.append_assoc]
          rfl
        · rw [h2, List.append_assoc]
          rfl
        · rw [show visited ++ node :: newly = (visited ++ [node]) ++ newly by
            rw [List.append_assoc]; rfl]
          exact h3
        · intro x
          rw [show visited ++ node :: newly = (visited ++ [node]) ++ newly by
            rw [List.append_assoc]; rfl]
          rw [h4 x]
          exact reachOut_step_iff adj visited node rest hv x

/-! ## Lemmas for C7: the component loop `detectGo` -/

theorem reach_symm (adj : List (String × List String))
    (HS : ∀ x y, y ∈ adjLookup adj x → x ∈ adjLookup adj y)
    {x y : String} (h : adjReach adj x y) : adjReach adj y x := by
  induction h with
  | refl => exact Relation.ReflTransGen.refl
  | tail _ hstep ih => exact Relation.ReflTransGen.head (HS _ _ hstep) ih

theorem closed_reach (adj : List (String × List String)) (v : List String)
    (HA : ∀ x ∈ v, ∀ y, y ∈ adjLookup adj x → y ∈ v)
    {x y : String} (hx : x ∈ v) (h : adjReach adj x y) : y ∈ v := by
  induction h with
  | refl => exact hx
  | tail _ hstep ih => exact HA _ ih _ hstep

theorem reachOut_mono_reach (adj : List (String × List String))
    (v : List String) {q x : String} (h : adjReachOut adj v q x) :
    adjReach adj q x :=
  Relation.ReflTransGen.mono (fun _ _ hab => hab.1) h.2

theorem reachOut_last (adj : List (String × List String)) (v : List String)
    {q x : String} (hq : q ∉ v)
    (h : Relation.ReflTransGen (adjEOut adj v) q x) : x ∉ v := by
  induction h with
  | refl => exact hq
  | tail _ hstep _ => exact hstep.2

theorem reach_to_reachOut (adj : List (String × List String)) (v : List String)
    (HA : ∀ x ∈ v, ∀ y, y ∈ adjLookup adj x → y ∈ v)
    (HS : ∀ x y, y ∈ adjLookup adj x → x ∈ adjLookup adj y)
    {q x : String} (hq : q ∉ v) (h : adjReach adj q x) :
    adjReachOut adj v q x := by
  refine ⟨hq, ?_⟩
  induction h with
  | refl => exact Relation.ReflTransGen.refl
  | tail hbc hstep ih =>
    rename_i b c
    have hbv : b ∉ v := reachOut_last adj v hq ih
    have hcv : c ∉ v := by
      intro hcv
      exact hbv (HA c hcv b (HS b c hstep))
    exact Relation.ReflTransGen.tail ih ⟨hstep, hcv⟩

theorem reach_mem_keys (adj : List (String × List String))
    (HK : ∀ x y, y ∈ adjLookup adj x → y ∈ adjKeys adj)
    {w x : String} (h : adjReach adj w x) (hw : w ∈ adjKeys adj) :
    x ∈ adjKeys adj := by
  induction h with
  | refl => exact hw
  | tail _ hstep _ => exact HK _ _ hstep

theorem lookup_map_const {α : Type} [BEq α] [LawfulBEq α] (l : List α)
    (c : String) (x : α) :
    (l.map (fun w => (w, c))).lookup x
      = if x ∈ l then some c else none := by
  induction l with
  | nil => simp
  | cons a rest ih =>
    by_cases hx : x = a
    · subst hx
      rw [List.map_cons, lookup_pair_cons_self]
      simp
    · rw [List.map_cons, lookup_pair_cons_ne _ _ hx, ih]
      simp [hx]

theorem nodup_two_le_length {α : Type} [DecidableEq α] {l : List α} {a b : α}
    (ha : a ∈ l) (hb : b ∈ l) (hab : a ≠ b) : 2 ≤ l.length := by
  have h1 : ({a, b} : Finset α) ⊆ l.toFinset := by
    intro x hx
    rcases Finset.mem_insert.mp hx with rfl | hx2
    · exact List.mem_toFinset.mpr ha
    · rcases Finset.mem_singleton.mp hx2 with rfl
      exact List.mem_toFinset.mpr hb
  calc 2 = ({a, b} : Finset α).card := (Finset.card_pair hab).symm
  _ ≤ l.toFinset.card := Finset.card_le_card h1
  _ ≤ l.length := List.toFinset_card_le l

/-- Full functional specification of the outer component loop: a wallet
carries a cluster identifier exactly when it was already clustered or is
reachable from one of the remaining keys, and two wallets carry the same
identifier exactly when both are clustered and mutually reachable. -/
theorem detectGo_spec (adj : List (String × List String))
    (HK : ∀ x y, y ∈ adjLookup adj x → y ∈ adjKeys adj)
    (HS : ∀ x y, y ∈ adjLookup adj x → x ∈ adjLookup adj y)
    (HNE : ∀ z ∈ adjKeys adj, ∃ w, w ∈ adjLookup adj z ∧ w ≠ z)
    (HN : ∀ x, (adjLookup adj x).Nodup) :
    ∀ (ws visited : List String) (cluster_id : Nat)
      (clusters : List (String × String)),
    (∀ w ∈ ws, w ∈ adjKeys adj) →
    (∀ x ∈ visited, ∀ y, y ∈ adjLookup adj x → y ∈ visited) →
    visited.Nodup →
    (∀ x, ¬ clusters.lookup x = none ↔ x ∈ visited) →
    (∀ x c, clusters.lookup x = some c → ∃ i, i < cluster_id ∧ c = clusterId i) →
    (∀ x y, sameCluster clusters x y ↔
      (x ∈ visited ∧ y ∈ visited ∧ adjReach adj x y)) →
    (∀ x, ¬ (detectGo adj ws visited cluster_id clusters).lookup x = none ↔
        (x ∈ visited ∨ ∃ w ∈ ws, adjReach adj w x)) ∧
    (∀ x c, (detectGo adj ws visited cluster_id clusters).lookup x = some c →
        ∃ i, c = clusterId i) ∧
    (∀ x y, sameCluster (detectGo adj ws visited cluster_id clusters) x y ↔
        ((x ∈ visited ∨ ∃ w ∈ ws, adjReach adj w x) ∧
         (y ∈ visited ∨ ∃ w ∈ ws, adjReach adj w y) ∧ adjReach adj x y)) := by
  intro ws
  induction ws with
  | nil =>
    intro visited cluster_id clusters _ _ _ A4 A5 A6
    refine ⟨?_, ?_, ?_⟩
    · intro x
      rw [show detectGo adj [] visited cluster_id clusters = clusters from rfl,
        A4 x]
      simp
    · intro x c h
      rcases A5 x c h with ⟨i, _, rfl⟩
      exact ⟨i, rfl⟩
    · intro x y
      rw [show detectGo adj [] visited cluster_id clusters = clusters from rfl,
        A6 x y]
      simp
  | cons wallet ws ih =>
    intro visited cluster_id clusters HQ A1 A3 A4 A5 A6
    by_cases hv : wallet ∈ visited
    · have heq : detectGo adj (wallet :: ws) visited cluster_id clusters
          = detectGo adj ws visited cluster_id clusters := by
        simp [detectGo, hv]
      rw [heq]
      obtain ⟨D1, D5, D2⟩ := ih visited cluster_id clusters
        (fun w hw => HQ w (List.mem_cons_of_mem _ hw)) A1 A3 A4 A5 A6
      have hconv : ∀ x, (x ∈ visited ∨ ∃ w ∈ ws, adjReach adj w x) ↔
          (x ∈ visited ∨ ∃ w ∈ wallet :: ws, adjReach adj w x) := by
        intro x
        constructor
        · rintro (h | ⟨w, hw, hr⟩)
          · exact Or.inl h
          · exact Or.inr ⟨w, List.mem_cons_of_mem _ hw, hr⟩
        · rintro (h | ⟨w, hw, hr⟩)
          · exact Or.inl h
          · rcases List.mem_cons.mp hw with rfl | hw2
            · exact Or.inl (closed_reach adj visited A1 hv hr)
            · exact Or.inr ⟨w, hw2, hr⟩
      refine ⟨fun x => (D1 x).trans (hconv x), D5, fun x y => ?_⟩
      rw [D2 x y, hconv x, hconv y]
    · have hkey : wallet ∈ adjKeys adj := HQ wallet (List.mem_cons_self _ _)
      have hfuel : unvisitedCount adj visited * (adj.length + 1)
          + ([wallet] : List String).length ≤ clusterFuel adj := by
        have h1 : unvisitedCount adj visited ≤ adj.length := by
          have h2 := List.length_filter_le
            (fun x => !(x ∈ visited)) (adjKeys adj)
          simpa [unvisitedCount, adjKeys] using h2
        have h3 : unvisitedCount adj visited * (adj.length + 1)
            ≤ adj.length * (adj.length + 1) := Nat.mul_le_mul_right _ h1
        rw [clusterFuel]
        simp only [List.length_cons, List.length_nil]
        nlinarith
      obtain ⟨newly, h1, h2, h3, h4⟩ := bfsGo_spec adj HK HN (clusterFuel adj)
        [wallet] visited []
        (by intro q hq; rcases List.mem_singleton.mp hq with rfl; exact hkey)
        hfuel A3
      have hdisj : ∀ x ∈ newly, x ∉ visited := by
        intro x hx hxv
        exact (List.nodup_append.mp h3).2.2 hxv hx
      have hnewly2 : (bfsGo adj (clusterFuel adj) [wallet] visited []).2
          = newly := by
        rw [h2]
        rfl
      have hmemn : ∀ x, x ∈ newly ↔ adjReachOut adj visited wallet x := by
        intro x
        constructor
        · intro hx
          have hx1 : x ∈ visited ++ newly := List.mem_append_right _ hx
          rcases (h4 x).mp hx1 with h | ⟨q, hq, hro⟩
          · exact absurd h (hdisj x hx)
          · rcases List.mem_singleton.mp hq with rfl
            exact hro
        · intro hro
          have hx1 : x ∈ visited ++ newly := (h4 x).mpr
            (Or.inr ⟨wallet, List.mem_singleton.mpr rfl, hro⟩)
          rcases List.mem_append.mp hx1 with h | h
          · exact absurd h (reachOut_last adj visited hro.1 hro.2)
          · exact h
      have hmem2 : ∀ x, x ∈ newly ↔ adjReach adj wallet x := by
        intro x
        rw [hmemn x]
        constructor
        · exact reachOut_mono_reach adj visited
        · exact reach_to_reachOut adj visited A1 HS hv
      have hwn : wallet ∈ newly := (hmem2 wallet).mpr Relation.ReflTransGen.refl
      obtain ⟨nb, hnb1, hnb2⟩ := HNE wallet hkey
      have hnbn : nb ∈ newly := (hmem2 nb).mpr (Relation.ReflTransGen.single hnb1)
      have hlen2 : 2 ≤ (bfsGo adj (clusterFuel adj) [wallet] visited []).2.length := by
        rw [hnewly2]
        exact nodup_two_le_length hwn hnbn (fun h => hnb2 h.symm)
      have heq : detectGo adj (wallet :: ws) visited cluster_id clusters
          = detectGo adj ws (visited ++ newly) (cluster_id + 1)
              (clusters ++ newly.map (fun w => (w, clusterId cluster_id))) := by
        rw [show detectGo adj (wallet :: ws) visited cluster_id clusters
              = if wallet ∈ visited then
                  detectGo adj ws visited cluster_id clusters
                else
                  (if 2 ≤ (bfsGo adj (clusterFuel adj) [wallet] visited []).2.length
                   then detectGo adj ws
                      (bfsGo adj (clusterFuel adj) [wallet] visited []).1
                      (cluster_id + 1)
                      (clusters ++ (bfsGo adj (clusterFuel adj) [wallet] visited []).2.map
                        (fun w => (w, clusterId cluster_id)))
                   else detectGo adj ws
                      (bfsGo adj (clusterFuel adj) [wallet] visited []).1
                      cluster_id clusters) from rfl]
        rw [if_neg hv, if_pos hlen2, h1, hnewly2]
      rw [heq]
      -- Re-establish the invariants for the recursive call.
      have A1' : ∀ x ∈ visited ++ newly, ∀ y, y ∈ adjLookup adj x →
          y ∈ visited ++ newly := by
        intro x hx y hy
        rcases List.mem_append.mp hx with h | h
        · exact List.mem_append_left _ (A1 x h y hy)
        · refine List.mem_append_right _ ((hmem2 y).mpr ?_)
          exact Relation.ReflTransGen.tail ((hmem2 x).mp h) hy
      have A4' : ∀ x, ¬ (clusters ++ newly.map
          (fun w => (w, clusterId cluster_id))).lookup x = none ↔
          x ∈ visited ++ newly := by
        intro x
        rw [List.lookup_append, lookup_map_const]
        constructor
        · intro h
          by_cases hx : x ∈ visited
          · exact List.mem_append_left _ hx
          · by_cases hx2 : x ∈ newly
            · exact List.mem_append_right _ hx2
            · exfalso
              have hc : clusters.lookup x = none := by
                by_contra hc
                exact hx ((A4 x).mp hc)
              rw [hc, if_neg hx2] at h
              exact h rfl
        · intro h
          rcases List.mem_append.mp h with hx | hx
          · have hc := (A4 x).mpr hx
            cases hcl : clusters.lookup x with
            | none => exact absurd hcl hc
            | some c => simp [hcl]
          · rw [if_pos hx]
            cases hcl : clusters.lookup x <;> simp
      have A5' : ∀ x c, (clusters ++ newly.map
          (fun w => (w, clusterId cluster_id))).lookup x = some c →
          ∃ i, i < cluster_id + 1 ∧ c = clusterId i := by
        intro x c h
        rw [List.lookup_append, lookup_map_const] at h
        cases hcl : clusters.lookup x with
        | some c2 =>
          rw [hcl] at h
          have h2 : some c2 = some c := h
          rcases A5 x c2 hcl with ⟨i, hi, rfl⟩
          rcases Option.some_inj.mp h2 with rfl
          exact ⟨i, by omega, rfl⟩
        | none =>
          rw [hcl] at h
          have h2 : (if x ∈ newly then some (clusterId cluster_id) else none)
              = some c := h
          clear h
          rename' h2 => h
          by_cases hx : x ∈ newly
          · rw [if_pos hx] at h
            rcases Option.some_inj.mp h with rfl
            exact ⟨cluster_id, by omega, rfl⟩
          · rw [if_neg hx] at h
            exact absurd h (by simp)
      have hlv : ∀ x ∈ visited, (clusters ++ newly.map
          (fun w => (w, clusterId cluster_id))).lookup x = clusters.lookup x := by
        intro x hx
        rw [List.lookup_append]
        have hc := (A4 x).mpr hx
        cases hcl : clusters.lookup x with
        | none => exact absurd hcl hc
        | some c => simp
      have hln : ∀ x ∈ newly, (clusters ++ newly.map
          (fun w => (w, clusterId cluster_id))).lookup x
          = some (clusterId cluster_id) := by
        intro x hx
        rw [List.lookup_append, lookup_map_const]
        have hc : clusters.lookup x = none := by
          by_contra hc
          exact hdisj x hx ((A4 x).mp hc)
        rw [hc, if_pos hx]
        rfl
      have A6' : ∀ x y, sameCluster (clusters ++ newly.map
          (fun w => (w, clusterId cluster_id))) x y ↔
          (x ∈ visited ++ newly ∧ y ∈ visited ++ newly ∧ adjReach adj x y) := by
        intro x y
        constructor
        · rintro ⟨c, hx, hy⟩
          have hxd : x ∈ visited ++ newly := (A4' x).mp (by rw [hx]; simp)
          have hyd : y ∈ visited ++ newly := (A4' y).mp (by rw [hy]; simp)
          refine ⟨hxd, hyd, ?_⟩
          rcases List.mem_append.mp hxd with hxv | hxn
          · rcases List.mem_append.mp hyd with hyv | hyn
            · rw [hlv x hxv] at hx
              rw [hlv y hyv] at hy
              exact ((A6 x y).mp ⟨c, hx, hy⟩).2.2
            · rw [hlv x hxv] at hx
              rw [hln y hyn] at hy
              rcases A5 x c hx with ⟨i, hi, rfl⟩
              rcases Option.some_inj.mp hy with hc2
              exact absurd (clusterId_inj hc2) (by omega)
          · rcases List.mem_append.mp hyd with hyv | hyn
            · rw [hln x hxn] at hx
              rw [hlv y hyv] at hy
              rcases A5 y c hy with ⟨i, hi, hci⟩
              rcases Option.some_inj.mp hx with hc2
              rw [hci] at hc2
              exact absurd (clusterId_inj hc2) (by omega)
            · have hrx := (hmem2 x).mp hxn
              have hry := (hmem2 y).mp hyn
              exact Relation.ReflTransGen.trans (reach_symm adj HS hrx) hry
        · rintro ⟨hxd, hyd, hr⟩
          rcases List.mem_append.mp hxd with hxv | hxn
          · have hyv : y ∈ visited := closed_reach adj visited A1 hxv hr
            rcases (A6 x y).mpr ⟨hxv, hyv, hr⟩ with ⟨c, hx, hy⟩
            exact ⟨c, by rw [hlv x hxv]; exact hx, by rw [hlv y hyv]; exact hy⟩
          · have hyn : y ∈ newly := by
              rcases List.mem_append.mp hyd with hyv | hyn
              · exfalso
                have hxv := closed_reach adj visited A1 hyv (reach_symm adj HS hr)
                exact hdisj x hxn hxv
              · exact hyn
            exact ⟨clusterId cluster_id, hln x hxn, hln y hyn⟩
      obtain ⟨D1, D5, D2⟩ := ih (visited ++ newly) (cluster_id + 1)
        (clusters ++ newly.map (fun w => (w, clusterId cluster_id)))
        (fun w hw => HQ w (List.mem_cons_of_mem _ hw)) A1' h3 A4' A5' A6'
      have hconv : ∀ x, (x ∈ visited ++ newly ∨ ∃ w ∈ ws, adjReach adj w x) ↔
          (x ∈ visited ∨ ∃ w ∈ wallet :: ws, adjReach adj w x) := by
        intro x
        constructor
        · rintro (h | ⟨w, hw, hr⟩)
          · rcases List.mem_append.mp h with h2 | h2
            · exact Or.inl h2
            · exact Or.inr ⟨wallet, List.mem_cons_self _ _, (hmem2 x).mp h2⟩
          · exact Or.inr ⟨w, List.mem_cons_of_mem _ hw, hr⟩
        · rintro (h | ⟨w, hw, hr⟩)
          · exact Or.inl (List.mem_append_left _ h)
          · rcases List.mem_cons.mp hw with rfl | hw2
            · exact Or.inl (List.mem_append_right _ ((hmem2 x).mpr hr))
            · exact Or.inr ⟨w, hw2, hr⟩
      refine ⟨fun x => (D1 x).trans (hconv x), D5, fun x y => ?_⟩
      rw [D2 x y, hconv x, hconv y]

/-! ## Lemmas for C7: top-level characterization of `detect_bot_clusters` -/

theorem sortPair_ne {a b : String} (h : a ≠ b) :
    (sortPair a b).1 ≠ (sortPair a b).2 := by
  rw [sortPair]
  by_cases hle : strLe a b = true
  · rw [if_pos hle]
    exact h
  · rw [if_neg hle]
    exact fun h2 => h h2.symm

theorem pairEvents_ne (θ : ℚ) :
    ∀ (l : List (String × ℚ)) p, p ∈ pairEvents θ l → p.1 ≠ p.2 := by
  intro l
  induction l with
  | nil => intro p hp; simp [pairEvents] at hp
  | cons e rest ih =>
    intro p hp
    rw [pairEvents] at hp
    rcases List.mem_append.mp hp with h | h
    · rcases List.mem_filterMap.mp h with ⟨q, _, hsome⟩
      by_cases hne : e.1 ≠ q.1
      · rw [if_pos hne] at hsome
        rcases Option.some_inj.mp hsome with rfl
        exact sortPair_ne hne
      · rw [if_neg hne] at hsome
        exact absurd hsome (by simp)
    · exact ih p h

theorem pairStream_ne (θ : ℚ) (m : List (String × List ParsedTrade)) :
    ∀ p ∈ pairStream θ m, p.1 ≠ p.2 := by
  intro p hp
  rcases List.mem_flatMap.mp hp with ⟨tok, _, hmem⟩
  exact pairEvents_ne θ _ p hmem

theorem co_occur_ne (θ : ℚ) (m : List (String × List ParsedTrade)) :
    ∀ p n, (p, n) ∈ co_occur θ m → p.1 ≠ p.2 := by
  intro p n h
  rcases (co_occur_mem_iff θ m p n).mp h with ⟨hpos, hcnt⟩
  exact pairStream_ne θ m p (List.count_pos_iff.mp (hcnt ▸ hpos))

/-- The cluster map produced by `detect_bot_clusters`, characterized: a wallet
carries an identifier exactly when it is a key of the co-trading adjacency
dict, and two wallets carry the same identifier exactly when both are keys and
are connected by a chain of recorded co-trading edges. -/
theorem detect_clusters_char (m : List (String × List ParsedTrade))
    (θk : ℚ) (minco : Nat) :
    (∀ x, ¬ (detect_bot_clusters m θk minco).lookup x = none ↔
        x ∈ adjKeys (coTradeAdj m θk minco)) ∧
    (∀ x y, sameCluster (detect_bot_clusters m θk minco) x y ↔
        (x ∈ adjKeys (coTradeAdj m θk minco) ∧
         y ∈ adjKeys (coTradeAdj m θk minco) ∧
         adjReach (coTradeAdj m θk minco) x y)) := by
  have HK : ∀ x y, y ∈ adjLookup (coTradeAdj m θk minco) x →
      y ∈ adjKeys (coTradeAdj m θk minco) := fun x y h =>
    build_adjacency_values_sub_keys minco (co_occur (θk * (2/5)) m) x y h
  have HS : ∀ x y, y ∈ adjLookup (coTradeAdj m θk minco) x →
      x ∈ adjLookup (coTradeAdj m θk minco) y := fun x y h =>
    (build_adjacency_symm minco (co_occur (θk * (2/5)) m) x y).mp h
  have HNE : ∀ z ∈ adjKeys (coTradeAdj m θk minco),
      ∃ w, w ∈ adjLookup (coTradeAdj m θk minco) z ∧ w ≠ z := fun z hz =>
    build_adjacency_key_has_other minco (co_occur (θk * (2/5)) m)
      (co_occur_ne (θk * (2/5)) m) z hz
  have HN : ∀ x, (adjLookup (coTradeAdj m θk minco) x).Nodup := fun x =>
    build_adjacency_values_nodup minco (co_occur (θk * (2/5)) m) x
  obtain ⟨D1, -, D2⟩ := detectGo_spec (coTradeAdj m θk minco) HK HS HNE HN
    (adjKeys (coTradeAdj m θk minco)) [] 0 []
    (fun w hw => hw)
    (by intro x hx; simp at hx)
    List.nodup_nil
    (by intro x; simp)
    (by intro x c h; simp at h)
    (by intro x y; constructor
        · rintro ⟨c, hx, -⟩
          simp at hx
        · rintro ⟨h, -, -⟩
          simp at h)
  have hsimp : ∀ x, ((x ∈ ([] : List String)) ∨
      ∃ w ∈ adjKeys (coTradeAdj m θk minco),
        adjReach (coTradeAdj m θk minco) w x) ↔
      x ∈ adjKeys (coTradeAdj m θk minco) := by
    intro x
    constructor
    · rintro (h | ⟨w, hw, hr⟩)
      · simp at h
      · exact reach_mem_keys _ HK hr hw
    · intro h
      exact Or.inr ⟨x, h, Relation.ReflTransGen.refl⟩
  have hdet : detect_bot_clusters m θk minco
      = detectGo (coTradeAdj m θk minco)
          (adjKeys (coTradeAdj m θk minco)) [] 0 [] := rfl
  refine ⟨fun x => ?_, fun x y => ?_⟩
  · rw [hdet]
    exact (D1 x).trans (hsimp x)
  · rw [hdet, D2 x y, hsimp x, hsimp y]

/-! ## Lemmas for C7: stability of the partition under per-wallet reordering -/

theorem mem_dedupFirst {α : Type} [DecidableEq α] (l : List α) :
    ∀ (seen : List α) (x : α),
    x ∈ dedupFirst l seen ↔ x ∈ l ∧ x ∉ seen := by
  induction l with
  | nil => intro seen x; simp [dedupFirst]
  | cons y ys ih =>
    intro seen x
    rw [dedupFirst]
    by_cases hy : y ∈ seen
    · rw [if_pos hy, ih]
      constructor
      · rintro ⟨h1, h2⟩
        exact ⟨List.mem_cons_of_mem _ h1, h2⟩
      · rintro ⟨h1, h2⟩
        rcases List.mem_cons.mp h1 with rfl | h3
        · exact absurd hy h2
        · exact ⟨h3, h2⟩
    · rw [if_neg hy]
      constructor
      · intro h
        rcases List.mem_cons.mp h with rfl | h2
        · exact ⟨List.mem_cons_self _ _, hy⟩
        · rcases (ih _ _).mp h2 with ⟨h3, h4⟩
          exact ⟨List.mem_cons_of_mem _ h3,
            fun hm => h4 (List.mem_cons_of_mem _ hm)⟩
      · rintro ⟨h1, h2⟩
        rcases List.mem_cons.mp h1 with rfl | h3
        · exact List.mem_cons_self _ _
        · by_cases hxy : x = y
          · subst hxy
            exact List.mem_cons_self _ _
          · exact List.mem_cons_of_mem _ ((ih _ _).mpr
              ⟨h3, by simp [h2, hxy]⟩)

theorem nodup_dedupFirst {α : Type} [DecidableEq α] (l : List α) :
    ∀ seen : List α, (dedupFirst l seen).Nodup := by
  induction l with
  | nil => intro seen; simp [dedupFirst]
  | cons y ys ih =>
    intro seen
    rw [dedupFirst]
    by_cases hy : y ∈ seen
    · rw [if_pos hy]
      exact ih seen
    · rw [if_neg hy]
      refine List.Nodup.cons ?_ (ih _)
      intro hmem
      exact ((mem_dedupFirst ys _ y).mp hmem).2 (List.mem_cons_self _ _)

theorem perm_flatMap_outer {α β : Type} (f : α → List β) {l₁ l₂ : List α}
    (h : l₁.Perm l₂) : (l₁.flatMap f).Perm (l₂.flatMap f) := by
  induction h with
  | nil => exact List.Perm.refl _
  | cons a _ ih =>
    rw [List.flatMap_cons, List.flatMap_cons]
    exact ih.append_left (f a)
  | swap a b l =>
    rw [List.flatMap_cons, List.flatMap_cons, List.flatMap_cons,
      List.flatMap_cons, ← List.append_assoc, ← List.append_assoc]
    exact (List.perm_append_comm).append_right _
  | trans _ _ ih₁ ih₂ => exact ih₁.trans ih₂

theorem seg_filter_replicate (w tok : String) (k : ℚ) (l : List ParsedTrade) :
    ((l.filter (fun t => t.side == "buy" && t.token_address == tok)).map
      (fun t => ((w, t.block_time) : String × ℚ))).filter
        (fun p => decide (p.2 = k))
    = List.replicate
        (l.countP (fun t =>
          (t.side == "buy" && t.token_address == tok) && decide (t.block_time = k)))
        (w, k) := by
  induction l with
  | nil => rfl
  | cons t rest ih =>
    rw [List.filter_cons, List.countP_cons]
    by_cases h1 : (t.side == "buy" && t.token_address == tok) = true
    · rw [if_pos h1, List.map_cons, List.filter_cons]
      by_cases h2 : decide (t.block_time = k) = true
      · have hk : t.block_time = k := of_decide_eq_true h2
        rw [if_pos (by simpa using h2)]
        rw [show ((t.side == "buy" && t.token_address == tok) &&
            decide (t.block_time = k)) = true by rw [h1, h2]; rfl]
        rw [ih, hk]
        rfl
      · rw [if_neg (by simpa using h2)]
        rw [show ((t.side == "buy" && t.token_address == tok) &&
            decide (t.block_time = k)) = false by
          rw [h1, Bool.eq_false_iff.mpr h2]; rfl]
        rw [ih]
        rfl
    · rw [if_neg h1]
      rw [show ((t.side == "buy" && t.token_address == tok) &&
          decide (t.block_time = k)) = false by
        rw [Bool.eq_false_iff.mpr h1]; rfl]
      rw [ih]
      rfl

theorem cl_buyers_filter_eq {m₁ m₂ : List (String × List ParsedTrade)}
    (h : PerWalletPerm m₁ m₂) (tok : String) (k : ℚ) :
    (cl_buyers m₁ tok).filter (fun p => decide (p.2 = k))
      = (cl_buyers m₂ tok).filter (fun p => decide (p.2 = k)) := by
  induction h with
  | nil => rfl
  | cons he _ ih =>
    rename_i e₁ e₂ l₁ l₂ _
    rw [show cl_buyers (e₁ :: l₁) tok
          = ((e₁.2.filter (fun t => t.side == "buy" && t.token_address == tok)).map
              (fun t => (e₁.1, t.block_time))) ++ cl_buyers l₁ tok from rfl,
      show cl_buyers (e₂ :: l₂) tok
          = ((e₂.2.filter (fun t => t.side == "buy" && t.token_address == tok)).map
              (fun t => (e₂.1, t.block_time))) ++ cl_buyers l₂ tok from rfl,
      List.filter_append, List.filter_append, ih,
      seg_filter_replicate e₁.1 tok k e₁.2, seg_filter_replicate e₂.1 tok k e₂.2,
      he.1, he.2.countP_eq]

theorem sorted_buyers_eq {m₁ m₂ : List (String × List ParsedTrade)}
    (h : PerWalletPerm m₁ m₂) (tok : String) :
    sortKey (fun p => p.2) (cl_buyers m₁ tok)
      = sortKey (fun p => p.2) (cl_buyers m₂ tok) := by
  refine sorted_key_ext (fun p => p.2)
    (sortKey_pairwise (fun p => p.2) (cl_buyers m₁ tok))
    (sortKey_pairwise (fun p => p.2) (cl_buyers m₂ tok))
    (fun k => ?_)
  have h1 := filter_sortKey (fun p : String × ℚ => p.2) k (cl_buyers m₁ tok)
  have h2 := filter_sortKey (fun p : String × ℚ => p.2) k (cl_buyers m₂ tok)
  rw [h1, h2]
  exact cl_buyers_filter_eq h tok k

theorem cl_tokens_perm {m₁ m₂ : List (String × List ParsedTrade)}
    (h : PerWalletPerm m₁ m₂) : (cl_tokens m₁).Perm (cl_tokens m₂) := by
  have hmem : ∀ tok,
      tok ∈ m₁.flatMap (fun e =>
        (e.2.filter (fun t => t.side == "buy")).map (fun t => t.token_address)) ↔
      tok ∈ m₂.flatMap (fun e =>
        (e.2.filter (fun t => t.side == "buy")).map (fun t => t.token_address)) := by
    intro tok
    induction h with
    | nil => exact Iff.rfl
    | cons he _ ih =>
      rename_i e₁ e₂ l₁ l₂ _
      rw [List.flatMap_cons, List.flatMap_cons, List.mem_append, List.mem_append,
        ih]
      have hseg : tok ∈ (e₁.2.filter (fun t => t.side == "buy")).map
            (fun t => t.token_address) ↔
          tok ∈ (e₂.2.filter (fun t => t.side == "buy")).map
            (fun t => t.token_address) := by
        simp only [List.mem_map, List.mem_filter]
        constructor
        · rintro ⟨t, ⟨ht, hside⟩, rfl⟩
          exact ⟨t, ⟨he.2.mem_iff.mp ht, hside⟩, rfl⟩
        · rintro ⟨t, ⟨ht, hside⟩, rfl⟩
          exact ⟨t, ⟨he.2.mem_iff.mpr ht, hside⟩, rfl⟩
      rw [hseg]
  refine (List.perm_ext_iff_of_nodup (nodup_dedupFirst _ _)
    (nodup_dedupFirst _ _)).mpr (fun tok => ?_)
  rw [mem_dedupFirst, mem_dedupFirst]
  simp [hmem tok]

theorem pairStream_perm (θ : ℚ) {m₁ m₂ : List (String × List ParsedTrade)}
    (h : PerWalletPerm m₁ m₂) :
    (pairStream θ m₁).Perm (pairStream θ m₂) := by
  have hfun : (fun tok => pairEvents θ (sortKey (fun p => p.2) (cl_buyers m₁ tok)))
      = (fun tok => pairEvents θ (sortKey (fun p => p.2) (cl_buyers m₂ tok))) := by
    funext tok
    rw [sorted_buyers_eq h tok]
  rw [pairStream, pairStream, ← hfun]
  exact perm_flatMap_outer _ (cl_tokens_perm h)

theorem coCount_co_occur (θ : ℚ) (m : List (String × List ParsedTrade))
    (k : String × String) :
    coCount (co_occur θ m) k = (pairStream θ m).count k := by
  rw [show co_occur θ m = (pairStream θ m).foldl bumpPair [] from rfl,
    coCount_foldl]
  simp [coCount]

theorem coTradeAdj_mem_iff {m₁ m₂ : List (String × List ParsedTrade)}
    (h : PerWalletPerm m₁ m₂) (θk : ℚ) (minco : Nat) (x y : String) :
    y ∈ adjLookup (coTradeAdj m₁ θk minco) x ↔
      y ∈ adjLookup (coTradeAdj m₂ θk minco) x := by
  have hc : ∀ p : String × String, (pairStream (θk * (2/5)) m₁).count p
      = (pairStream (θk * (2/5)) m₂).count p :=
    fun p => (pairStream_perm (θk * (2/5)) h).countP_eq (fun x => x == p)
  rw [show coTradeAdj m₁ θk minco
        = build_adjacency minco (co_occur (θk * (2/5)) m₁) from rfl,
    show coTradeAdj m₂ θk minco
        = build_adjacency minco (co_occur (θk * (2/5)) m₂) from rfl,
    build_adjacency_mem, build_adjacency_mem]
  constructor
  · rintro ⟨p, n, ⟨hm, hn⟩, hp⟩
    rcases (co_occur_mem_iff _ m₁ p n).mp hm with ⟨hpos, hcnt⟩
    exact ⟨p, n, ⟨(co_occur_mem_iff _ m₂ p n).mpr
      ⟨hpos, by rw [hcnt, hc p]⟩, hn⟩, hp⟩
  · rintro ⟨p, n, ⟨hm, hn⟩, hp⟩
    rcases (co_occur_mem_iff _ m₂ p n).mp hm with ⟨hpos, hcnt⟩
    exact ⟨p, n, ⟨(co_occur_mem_iff _ m₁ p n).mpr
      ⟨hpos, by rw [hcnt, hc p]⟩, hn⟩, hp⟩

theorem coTradeAdj_keys_iff {m₁ m₂ : List (String × List ParsedTrade)}
    (h : PerWalletPerm m₁ m₂) (θk : ℚ) (minco : Nat) (x : String) :
    x ∈ adjKeys (coTradeAdj m₁ θk minco) ↔
      x ∈ adjKeys (coTradeAdj m₂ θk minco) := by
  have hc : ∀ p : String × String, (pairStream (θk * (2/5)) m₁).count p
      = (pairStream (θk * (2/5)) m₂).count p :=
    fun p => (pairStream_perm (θk * (2/5)) h).countP_eq (fun x => x == p)
  rw [show coTradeAdj m₁ θk minco
        = build_adjacency minco (co_occur (θk * (2/5)) m₁) from rfl,
    show coTradeAdj m₂ θk minco
        = build_adjacency minco (co_occur (θk * (2/5)) m₂) from rfl,
    build_adjacency_keys, build_adjacency_keys]
  constructor
  · rintro ⟨p, n, ⟨hm, hn⟩, hp⟩
    rcases (co_occur_mem_iff _ m₁ p n).mp hm with ⟨hpos, hcnt⟩
    exact ⟨p, n, ⟨(co_occur_mem_iff _ m₂ p n).mpr
      ⟨hpos, by rw [hcnt, hc p]⟩, hn⟩, hp⟩
  · rintro ⟨p, n, ⟨hm, hn⟩, hp⟩
    rcases (co_occur_mem_iff _ m₂ p n).mp hm with ⟨hpos, hcnt⟩
    exact ⟨p, n, ⟨(co_occur_mem_iff _ m₁ p n).mpr
      ⟨hpos, by rw [hcnt, hc p]⟩, hn⟩, hp⟩

theorem coTradeAdj_reach_iff {m₁ m₂ : List (String × List ParsedTrade)}
    (h : PerWalletPerm m₁ m₂) (θk : ℚ) (minco : Nat) (x y : String) :
    adjReach (coTradeAdj m₁ θk minco) x y ↔
      adjReach (coTradeAdj m₂ θk minco) x y := by
  constructor
  · exact Relation.ReflTransGen.mono
      (fun a b hab => (coTradeAdj_mem_iff h θk minco a b).mp hab)
  · exact Relation.ReflTransGen.mono
      (fun a b hab => (coTradeAdj_mem_iff h θk minco a b).mpr hab)

theorem perWalletPerm_mapA_mapB : PerWalletPerm mapA mapB := by
  rw [PerWalletPerm, mapA, mapB]
  refine List.Forall₂.cons ⟨rfl, @List.perm_append_comm ParsedTrade
    [mkClBuy "w1" "T1" 0, mkClBuy "w1" "T1" 100, mkClBuy "w1" "T1" 200]
    [mkClBuy "w1" "T2" 5000]⟩ ?_
  refine List.Forall₂.cons ⟨rfl, List.Perm.refl _⟩ ?_
  refine List.Forall₂.cons ⟨rfl, List.Perm.refl _⟩ ?_
  exact List.Forall₂.cons ⟨rfl, List.Perm.refl _⟩ List.Forall₂.nil

/-- C7 counterexample: the clustering result is NOT literally stable under a
reordering of one wallet's input trade list — rotating `w1`'s trades (mapA
versus mapB) flips the token-first-seen order, so the two co-trading
components are numbered in the opposite order and `w1`'s identifier changes
from `cluster_0000` to `cluster_0001`. -/
theorem cluster_id_stability_cex :
    PerWalletPerm mapA mapB ∧
    (detect_bot_clusters mapA 5 3).lookup "w1" = some "cluster_0000" ∧
    (detect_bot_clusters mapB 5 3).lookup "w1" = some "cluster_0001" :=
  ⟨perWalletPerm_mapA_mapB, by with_unfolding_all decide,
    by with_unfolding_all decide⟩

/-- C7 (amended): cluster detection is symmetric — whenever wallet `x`
appears in the result with an identifier and `y` co-trades with `x` (is a
recorded adjacency neighbour), `y` appears with the same identifier — and
under a reordering of each wallet's input trade list the set of clustered
wallets and the same-cluster partition are unchanged (only the identifier
strings may differ). -/
theorem cluster_symmetry_and_stability
    (m₁ m₂ : List (String × List ParsedTrade)) (θk : ℚ) (minco : Nat)
    (h : PerWalletPerm m₁ m₂) :
    (∀ x y c, (detect_bot_clusters m₁ θk minco).lookup x = some c →
        y ∈ adjLookup (coTradeAdj m₁ θk minco) x →
        (detect_bot_clusters m₁ θk minco).lookup y = some c) ∧
    (∀ x, (detect_bot_clusters m₁ θk minco).lookup x = none ↔
        (detect_bot_clusters m₂ θk minco).lookup x = none) ∧
    (∀ x y, sameCluster (detect_bot_clusters m₁ θk minco) x y ↔
        sameCluster (detect_bot_clusters m₂ θk minco) x y) := by
  obtain ⟨D1a, D2a⟩ := detect_clusters_char m₁ θk minco
  obtain ⟨D1b, D2b⟩ := detect_clusters_char m₂ θk minco
  refine ⟨?_, ?_, ?_⟩
  · intro x y c hx hy
    have hxk : x ∈ adjKeys (coTradeAdj m₁ θk minco) :=
      (D1a x).mp (by rw [hx]; simp)
    have hyk : y ∈ adjKeys (coTradeAdj m₁ θk minco) :=
      build_adjacency_values_sub_keys minco _ x y hy
    rcases (D2a x y).mpr ⟨hxk, hyk, Relation.ReflTransGen.single hy⟩
      with ⟨c2, hx2, hy2⟩
    rw [hx] at hx2
    rcases Option.some_inj.mp hx2 with rfl
    exact hy2
  · intro x
    rw [← not_iff_not, D1a x, D1b x]
    exact coTradeAdj_keys_iff h θk minco x
  · intro x y
    rw [D2a x y, D2b x y, coTradeAdj_keys_iff h θk minco x,
      coTradeAdj_keys_iff h θk minco y, coTradeAdj_reach_iff h θk minco x y]

/-- Witness for the amended C7 theorem: the hypothesis (a per-wallet
permutation of the trade lists) holds for the concrete fixture pair, and the
theorem yields the domain-stability conclusion there. -/
theorem cluster_symmetry_and_stability_witness :
    PerWalletPerm mapA mapB ∧
    (∀ x, (detect_bot_clusters mapA 5 3).lookup x = none ↔
        (detect_bot_clusters mapB 5 3).lookup x = none) :=
  ⟨perWalletPerm_mapA_mapB,
    (cluster_symmetry_and_stability mapA mapB 5 3 perWalletPerm_mapA_mapB).2.1⟩

end Seeker
